import Mathlib

/-!
# zx calculator: expression front-end

A shallow embedding of `src/btree.c` and `src/calculator.c`: the order-4 B-tree that
holds the operator tables, the djb2 string hash, the tokenizer (`next`, `consume`,
`findIndexOf`), the leaf and character-literal lexers, the precedence-climbing parser
(`parse`, `primary`), the evaluator (`eval`) and the entry point `calculate`.

Conventions.
* A `const char *` is a memory image `mem : List Nat` of bytes together with an index;
  a read at an index outside the list yields `0`.  `strlen` counts the bytes before the
  first `0`, so whatever follows the terminating NUL in `mem` is the memory behind the
  string.
* A byte is a `Nat`; `char` is taken to be signed (as on x86-64), which shows where a
  `char` is converted to `uint32_t` (`charToU32`).
* `mpz_t` is `Int`.  The GMP/MPFR float type `mpf_t` and its operations are not part of
  the sources; they are the parameter `Mp`.  `exactMp` is an instance over the rationals,
  used to run the definitions on concrete inputs.
* Global variables (`unaries`, `binaries`, `terminators`, `errorMsg`) are the fields of
  `Globals`, passed explicitly.
* A C loop is a recursive function whose first argument counts the iterations left; the
  recursion of `parse` and `primary` is bounded by a first argument as well, and
  `parse_total` shows that the bound `calculate` passes is never used up.
-/

namespace Zx

/-! ## btree.c -/

/-- The `struct BTreeNode` of `btree.h` (`BTREE_ORDER` is 4): `null` is the `NULL` pointer;
`keys` and `data` are the three-slot arrays, `c0 .. c3` the four-slot `children` array. -/
inductive BTreeNode (α : Type) where
  | null : BTreeNode α
  | node (numKeys : Nat) (keys : List Nat) (data : List (Option α))
      (c0 c1 c2 c3 : BTreeNode α) (leaf : Bool) : BTreeNode α
  deriving Repr, DecidableEq

namespace BTreeNode

variable {α : Type}

def numKeys : BTreeNode α → Nat
  | null => 0
  | node n _ _ _ _ _ _ _ => n

def keys : BTreeNode α → List Nat
  | null => []
  | node _ k _ _ _ _ _ _ => k

def data : BTreeNode α → List (Option α)
  | null => []
  | node _ _ d _ _ _ _ _ => d

def isLeaf : BTreeNode α → Bool
  | null => false
  | node _ _ _ _ _ _ _ l => l

/-- The array read `node->children[i]`. -/
def child : BTreeNode α → Nat → BTreeNode α
  | node _ _ _ c0 _ _ _ _, 0 => c0
  | node _ _ _ _ c1 _ _ _, 1 => c1
  | node _ _ _ _ _ c2 _ _, 2 => c2
  | node _ _ _ _ _ _ c3 _, 3 => c3
  | _, _ => null

/-- The array read `node->keys[i]`. -/
def key (t : BTreeNode α) (i : Nat) : Nat := t.keys.getD i 0

/-- The array read `node->data[i]`. -/
def datum (t : BTreeNode α) (i : Nat) : Option α := (t.data.getD i none)

def setNumKeys : BTreeNode α → Nat → BTreeNode α
  | null, _ => null
  | node _ k d c0 c1 c2 c3 l, n => node n k d c0 c1 c2 c3 l

/-- The assignment `node->keys[i] = key; node->data[i] = data`. -/
def setEntry : BTreeNode α → Nat → Nat → Option α → BTreeNode α
  | null, _, _, _ => null
  | node n k d c0 c1 c2 c3 l, i, key, x => node n (k.set i key) (d.set i x) c0 c1 c2 c3 l

/-- The assignment `node->children[i] = c`. -/
def setChild : BTreeNode α → Nat → BTreeNode α → BTreeNode α
  | node n k d _ c1 c2 c3 l, 0, c => node n k d c c1 c2 c3 l
  | node n k d c0 _ c2 c3 l, 1, c => node n k d c0 c c2 c3 l
  | node n k d c0 c1 _ c3 l, 2, c => node n k d c0 c1 c c3 l
  | node n k d c0 c1 c2 _ l, 3, c => node n k d c0 c1 c2 c l
  | t, _, _ => t

end BTreeNode

open BTreeNode

variable {α : Type}

def BTREE_ORDER : Nat := 4

/-- The function `newNode`: `malloc` leaves `keys` and `data` unset (here `0` and `none`). -/
def newNode (leaf : Bool) : BTreeNode α :=
  .node 0 [0, 0, 0] [none, none, none] .null .null .null .null leaf

/-- The loop `for (i = 0; i < split - 1; i++)` of `splitChild` moving keys and data. -/
def moveKeys (child : BTreeNode α) (split : Nat) : Nat → BTreeNode α → BTreeNode α
  | 0, nd => nd
  | i + 1, nd =>
    (moveKeys child split i nd).setEntry i (child.key (i + split)) (child.datum (i + split))

/-- The loop `for (i = 0; i < split; i++)` of `splitChild` moving children. -/
def moveChildren (child : BTreeNode α) (split : Nat) : Nat → BTreeNode α → BTreeNode α
  | 0, nd => nd
  | i + 1, nd => (moveChildren child split i nd).setChild i (child.child (i + split))

/-- The loop `for (i = parent->numKeys; i > index; i--)` of `splitChild`; the argument is `i`. -/
def shiftChildren (index : Nat) : Nat → BTreeNode α → BTreeNode α
  | 0, parent => parent
  | i + 1, parent =>
    if i + 1 > index then
      shiftChildren index i (parent.setChild (i + 2) (parent.child (i + 1)))
    else parent

/-- The loop `for (i = parent->numKeys - 1; i >= index; i--)` of `splitChild`; the argument
is `i + 1`. -/
def shiftKeys (index : Nat) : Nat → BTreeNode α → BTreeNode α
  | 0, parent => parent
  | i + 1, parent =>
    if i ≥ index then
      shiftKeys index i (parent.setEntry (i + 1) (parent.key i) (parent.datum i))
    else parent

/-- The function `splitChild`, with the updated `parent` returned; `parent->children[index]`
is updated in place to the truncated child. -/
def splitChild (parent : BTreeNode α) (index : Nat) : BTreeNode α :=
  let child := parent.child index
  let nd : BTreeNode α := newNode child.isLeaf
  let split := BTREE_ORDER / 2
  let nd := nd.setNumKeys (split - 1)
  let nd := moveKeys child split (split - 1) nd
  let nd := if !child.isLeaf then moveChildren child split split nd else nd
  let parent := parent.setChild index (child.setNumKeys (split - 1))
  let parent := shiftChildren index parent.numKeys parent
  let parent := parent.setChild (index + 1) nd
  let parent := shiftKeys index parent.numKeys parent
  let parent := parent.setEntry index (child.key (split - 1)) (child.datum (split - 1))
  parent.setNumKeys (parent.numKeys + 1)

/-- The leaf loop `while (i >= 0 && node->keys[i] > key)` of `insert`, shifting entries;
the argument is `i + 1`, and so is the second component of the result. -/
def insertShift (key : Nat) : Nat → BTreeNode α → BTreeNode α × Nat
  | 0, nd => (nd, 0)
  | i + 1, nd =>
    if nd.key i > key then
      insertShift key i (nd.setEntry (i + 1) (nd.key i) (nd.datum i))
    else (nd, i + 1)

/-- The inner loop `while (i >= 0 && node->keys[i] > key) i--` of `insert`; the argument and
the result are `i + 1`. -/
def insertScan (key : Nat) (nd : BTreeNode α) : Nat → Nat
  | 0 => 0
  | i + 1 => if nd.key i > key then insertScan key nd i else i + 1

/-- The function `insert`, with the updated node returned.  The recursion descends one
level per call; the first argument bounds the number of levels. -/
def insert : Nat → BTreeNode α → Nat → α → BTreeNode α
  | 0, nd, _, _ => nd
  | fuel + 1, nd, key, x =>
    if nd.isLeaf then
      let r := insertShift key nd.numKeys nd
      let nd := r.1.setEntry r.2 key (some x)
      nd.setNumKeys (nd.numKeys + 1)
    else
      let i := insertScan key nd nd.numKeys
      let full := (nd.child i).numKeys == BTREE_ORDER - 1
      let nd := if full then splitChild nd i else nd
      let i := if full && nd.key i < key then i + 1 else i
      nd.setChild i (insert fuel (nd.child i) key x)

/-- The number of levels below and including a node, along the first children. -/
def levels : BTreeNode α → Nat
  | .null => 0
  | .node _ _ _ c0 _ _ _ _ => levels c0 + 1

/-- The function `bTreeInsert`, with the updated `*root` returned. -/
def bTreeInsert (root : BTreeNode α) (key : Nat) (x : α) : BTreeNode α :=
  match root with
  | .null =>
    let nd : BTreeNode α := newNode true
    let nd := nd.setEntry 0 key (some x)
    nd.setNumKeys 1
  | root =>
    if root.numKeys == BTREE_ORDER - 1 then
      let nd : BTreeNode α := newNode false
      let nd := nd.setChild 0 root
      let nd := splitChild nd 0
      let i := if nd.key 0 < key then 1 else 0
      nd.setChild i (insert (levels root) (nd.child i) key x)
    else
      insert (levels root) root key x

/-- The loop `while (i < root->numKeys && key > root->keys[i]) i++` of `bTreeSearch`; the
first argument bounds the iterations left (`numKeys - i`). -/
def searchScan (root : BTreeNode α) (key : Nat) : Nat → Nat → Nat
  | 0, i => i
  | n + 1, i => if i < root.numKeys && key > root.key i then searchScan root key n (i + 1) else i

/-- The function `bTreeSearch`. -/
def bTreeSearch : BTreeNode α → Nat → Option α
  | .null, _ => none
  | .node n k d c0 c1 c2 c3 l, key =>
    let root : BTreeNode α := .node n k d c0 c1 c2 c3 l
    let i := searchScan root key n 0
    if i < n && key == root.key i then root.datum i
    else if l then none
    else match i with
      | 0 => bTreeSearch c0 key
      | 1 => bTreeSearch c1 key
      | 2 => bTreeSearch c2 key
      | 3 => bTreeSearch c3 key
      | _ => none

/-! ## calculator.c: operator tables -/

def OR : Nat := 0
def XOR : Nat := 1
def AND : Nat := 2
def SHL : Nat := 3
def SHR : Nat := 4
def ADD : Nat := 5
def SUB : Nat := 6
def MUL : Nat := 7
def DIV : Nat := 8
def MOD : Nat := 9
def NEG : Nat := 10
def POS : Nat := 11
def NOT : Nat := 12
def POW : Nat := 13
def SQRT : Nat := 14
def COS : Nat := 15
def SIN : Nat := 16
def TAN : Nat := 17
def FLOOR : Nat := 18
def CEIL : Nat := 19
def ROUND : Nat := 20

def Left : Nat := 0
def Right : Nat := 1
def Unary : Nat := 2

/-- The `struct Op`. -/
structure Op where
  prec : Nat
  assoc : Nat
  output : Nat
  deriving Repr, DecidableEq

/-- The bytes of a string literal of the source (without the terminating NUL). -/
def bytes (s : String) : List Nat := s.toList.map Char.toNat

/-- The read `str[i]` of a `const char *` into the memory image `mem`. -/
def peek (mem : List Nat) (i : Nat) : Nat := mem.getD i 0

/-- The conversion of a (signed) `char` to `uint32_t`. -/
def charToU32 (c : Nat) : Nat := if c < 128 then c else c + (4294967296 - 256)

/-- The loop of `djb2`; the first argument is the number of iterations left, `i` the
index of the next byte.  The sums are reduced modulo `2 ^ 32` (`uint32_t`). -/
def djb2Loop (mem : List Nat) (str : Nat) : Nat → Nat → Nat → Nat
  | 0, _, hash => hash
  | n + 1, i, hash =>
    djb2Loop mem str n (i + 1) (((hash <<< 5) + hash + charToU32 (peek mem (str + i))) % 4294967296)

/-- The function `djb2` on the `len` bytes at `str`. -/
def djb2 (mem : List Nat) (str : Nat) (len : Nat) : Nat := djb2Loop mem str len 0 5381

/-- The global variables of `calculator.c`.  The `struct List` of terminators is a list
of lexemes, each `len` being the length of its lexeme; `errorMsg` is `none` for `NULL` and
otherwise the bytes of the message. -/
structure Globals where
  unaries : BTreeNode Op
  binaries : BTreeNode Op
  terminators : List (List Nat)
  errorMsg : Option (List Nat)
  deriving Repr, DecidableEq

/-- The state at program start: `unaries = NULL, binaries = NULL`, `terminators = NULL`
and `errorMsg` a zero-initialised static. -/
def Globals.start : Globals := ⟨.null, .null, [], none⟩

/-- The function `addTerminator`. -/
def addTerminator (g : Globals) (token : List Nat) : Globals :=
  { g with terminators := token :: g.terminators }

/-- The function `add`. -/
def add (g : Globals) (token : List Nat) (prec assoc output : Nat) : Globals :=
  let op : Op := { prec := prec, assoc := assoc, output := output }
  let key := djb2 token 0 token.length
  let g := if assoc == Unary then { g with unaries := bTreeInsert g.unaries key op }
    else { g with binaries := bTreeInsert g.binaries key op }
  addTerminator g token

/-- The function `init`. -/
def init (g : Globals) : Globals :=
  let g := add g (bytes "|") 0 Left OR
  let g := add g (bytes "^") 1 Left XOR
  let g := add g (bytes "&") 2 Left AND
  let g := add g (bytes "<<") 3 Left SHL
  let g := add g (bytes ">>") 3 Left SHR
  let g := add g (bytes "+") 4 Left ADD
  let g := add g (bytes "-") 4 Left SUB
  let g := add g (bytes "*") 5 Left MUL
  let g := add g (bytes "/") 5 Left DIV
  let g := add g (bytes "%") 5 Left MOD
  let g := add g (bytes "-") 5 Unary NEG
  let g := add g (bytes "+") 5 Unary POS
  let g := add g (bytes "~") 6 Unary NOT
  let g := add g (bytes "**") 7 Right POW
  let g := add g (bytes "sqrt") 8 Unary SQRT
  let g := add g (bytes "cos") 8 Unary COS
  let g := add g (bytes "sin") 8 Unary SIN
  let g := add g (bytes "tan") 8 Unary TAN
  let g := add g (bytes "floor") 8 Unary FLOOR
  let g := add g (bytes "ceil") 8 Unary CEIL
  let g := add g (bytes "round") 8 Unary ROUND
  let g := addTerminator g (bytes "(")
  let g := addTerminator g (bytes ")")
  addTerminator g (bytes "'")

/-! ## calculator.c: tokenizer -/

/-- The `struct Reader`: `p` and `endp` (the field `end`) are indices into the memory image. -/
structure Reader where
  p : Nat
  endp : Nat
  deriving Repr, DecidableEq

/-- The `struct Token`. -/
structure Token where
  start : Nat
  len : Nat
  deriving Repr, DecidableEq

/-- The C library `strlen` on the string at index `s`. -/
def strlen (mem : List Nat) (s : Nat) : Nat := ((mem.drop s).takeWhile (fun c => c != 0)).length

/-- The C library `isspace` in the "C" locale. -/
def isspace (c : Nat) : Bool := c == 32 || (9 ≤ c && c ≤ 13)

/-- The inner loop of `findIndexOf`: whether `haystack[i + j] == needle[j]` for every `j`;
`k` is the index of `haystack[i]`. -/
def matchAt : List Nat → List Nat → Nat → Bool
  | [], _, _ => true
  | c :: cs, mem, k => peek mem k == c && matchAt cs mem (k + 1)

/-- The outer loop of `findIndexOf`; the first argument is the number of iterations left
(`end - i + 1`). -/
def findLoop (needle mem : List Nat) (haystack : Nat) : Nat → Nat → Int
  | 0, _ => -1
  | n + 1, i => if matchAt needle mem (haystack + i) then (i : Int)
    else findLoop needle mem haystack n (i + 1)

/-- The function `findIndexOf`; the needle is a lexeme (it holds no NUL). -/
def findIndexOf (needle mem : List Nat) (haystack : Nat) : Int :=
  let needleLen := needle.length
  let hayLen := strlen mem haystack
  if hayLen < needleLen then -1 else findLoop needle mem haystack (hayLen - needleLen + 1) 0

/-- The whitespace loop of `next`; the first argument is the number of bytes left. -/
def skipSpace (mem : List Nat) (endp : Nat) : Nat → Nat → Nat
  | 0, p => p
  | n + 1, p => if p < endp && isspace (peek mem p) then skipSpace mem endp n (p + 1) else p

/-- The terminator loop of `next`, on the list cells left, `tokenPos` and `token.len`. -/
def nextLoop (mem : List Nat) (p : Nat) : List (List Nat) → Int → Nat → Int × Nat
  | [], tokenPos, len => (tokenPos, len)
  | t :: ts, tokenPos, len =>
    let ofs := findIndexOf t mem p
    if ofs > -1 then
      if tokenPos == -1 || tokenPos ≥ ofs then
        if tokenPos == ofs then
          if t.length > len then nextLoop mem p ts tokenPos t.length
          else nextLoop mem p ts tokenPos len
        else nextLoop mem p ts ofs t.length
      else nextLoop mem p ts tokenPos len
    else nextLoop mem p ts tokenPos len

/-- The function `next`: the reader after the whitespace skip, and the token. -/
def next (g : Globals) (mem : List Nat) (reader : Reader) : Reader × Token :=
  let p := skipSpace mem reader.endp (reader.endp - reader.p) reader.p
  let reader : Reader := { reader with p := p }
  if p ≥ reader.endp then (reader, ⟨p, 0⟩)
  else
    let r := nextLoop mem p g.terminators (-1) 0
    if r.1 < 0 then (reader, ⟨p, reader.endp - p⟩) else (reader, ⟨p, r.2⟩)

/-- The function `consume`. -/
def consume (reader : Reader) (token : Token) : Reader := { reader with p := reader.p + token.len }

/-- The function `expect`: the reader, the error slot and the returned `bool`. -/
def expect (mem : List Nat) (reader : Reader) (errorMsg : Option (List Nat)) (c : Nat) :
    Reader × Option (List Nat) × Bool :=
  if peek mem reader.p != c then
    (reader, some (bytes "Expected " ++ [39, c, 39]), false)
  else ({ reader with p := reader.p + 1 }, errorMsg, true)

/-! ## Values and the arithmetic backend -/

/-- The GMP and MPFR operations on `mpf_t` that the sources call.  The libraries are not
part of the sources, so the float type `F` and these operations are parameters. -/
structure Mp (F : Type) where
  /-- The value set by `mpf_init` -/
  init : F
  /-- The value set by `mpf_set_d(v.f, M_PI)` -/
  pi : F
  /-- The call `gmp_sscanf(s, "%Ff%n", v.f, &len)` on the string at an index: `none` when
  nothing is converted, else the float and `len` -/
  sscanf : List Nat → Nat → Option (F × Nat)
  integer_p : F → Bool
  /-- The truncation `mpz_set_f` -/
  get_z : F → Int
  set_z : Int → F
  get_si : F → Int
  mul_2exp : F → Nat → F
  div_2exp : F → Nat → F
  add : F → F → F
  sub : F → F → F
  mul : F → F → F
  /-- The division `mpf_div`; `none` when the library aborts on a zero divisor -/
  div : F → F → Option F
  neg : F → F
  floor : F → F
  ceil : F → F
  mpfr_pow : F → F → F
  mpfr_sqrt : F → F
  mpfr_cos : F → F
  mpfr_sin : F → F
  mpfr_tan : F → F
  /-- The conversion `mpfr_get_z` with `MPFR_RNDN` -/
  mpfr_get_z : F → Int

/-- The `struct Value` of `calculator.h`. -/
structure Value (F : Type) where
  isF : Bool
  z : Int
  f : F
  deriving Repr, DecidableEq

/-- The `struct Tree`: `null` is the `NULL` pointer, `leaf` a node whose `op` is `NULL`,
`branch` a node made by the function `branch` (its `right` may be `null`). -/
inductive Tree (F : Type) where
  | null : Tree F
  | leaf (v : Value F) : Tree F
  | branch (op : Op) (left right : Tree F) : Tree F
  deriving Repr, DecidableEq

/-! ## calculator.c: leaf and character-literal lexers -/

variable {F : Type}

/-- Whether a tree pointer is `NULL`. -/
def Tree.isNull : Tree F → Bool
  | .null => true
  | _ => false

/-- The digit loop of `leaf` for `0b` and `0o` literals; the first argument bounds the
bytes left in the memory image (a read outside it yields `0`, which ends the loop). -/
def digitLoop (mem : List Nat) (base : Nat) : Nat → Nat → Int → Nat × Int
  | 0, p, z => (p, z)
  | n + 1, p, z =>
    let ch := peek mem p
    if ch ≥ 48 && ch < 48 + base then digitLoop mem base n (p + 1) (z * base + ((ch - 48 : Nat) : Int))
    else (p, z)

/-- The loop `for (i = 0; i < len; i++)` of `leaf` looking for a `.` in the scanned bytes. -/
def dotLoop (mem : List Nat) : Nat → Nat → Bool → Nat × Bool
  | 0, p, forcedFloat => (p, forcedFloat)
  | n + 1, p, forcedFloat => dotLoop mem n (p + 1) (if peek mem p == 46 then true else forcedFloat)

/-- The function `leaf`: the tree (`null` on failure), the reader and the error slot. -/
def leaf (mp : Mp F) (mem : List Nat) (reader : Reader) (errorMsg : Option (List Nat))
    (prev : Value F) : Tree F × Reader × Option (List Nat) :=
  let v : Value F := { isF := false, z := 0, f := mp.init }
  if peek mem reader.p == 36 then
    (.leaf { v with isF := prev.isF, f := prev.f, z := prev.z },
      { reader with p := reader.p + 1 }, errorMsg)
  else if peek mem reader.p == 112 && reader.p + 1 < reader.endp && peek mem (reader.p + 1) == 105 then
    (.leaf { v with isF := true, f := mp.pi }, { reader with p := reader.p + 2 }, errorMsg)
  else if peek mem reader.p == 48 && reader.p + 1 < reader.endp &&
      (peek mem (reader.p + 1) == 98 || peek mem (reader.p + 1) == 111) then
    let base := if peek mem (reader.p + 1) == 98 then 2 else 8
    let r := digitLoop mem base (mem.length - (reader.p + 2)) (reader.p + 2) 0
    (.leaf { v with isF := false, z := r.2 }, { reader with p := r.1 }, errorMsg)
  else
    match mp.sscanf mem reader.p with
    | none => (.null, reader, some (bytes "Unknown " ++ [39, peek mem reader.p, 39]))
    | some (f, len) =>
      if len == 0 then (.null, reader, some (bytes "Unknown " ++ [39, peek mem reader.p, 39]))
      else
        let r := dotLoop mem len reader.p false
        if mp.integer_p f && !r.2 then
          (.leaf { v with isF := false, f := f, z := mp.get_z f }, { reader with p := r.1 }, errorMsg)
        else (.leaf { v with isF := true, f := f }, { reader with p := r.1 }, errorMsg)

/-- The hexadecimal loop of `parseChar`; the first argument is the number of bytes left
before `end`. -/
def hexLoop (mem : List Nat) (endp : Nat) : Nat → Nat → Int → Nat × Int
  | 0, p, z => (p, z)
  | n + 1, p, z =>
    if p < endp then
      let c := peek mem p
      if c ≥ 48 && c ≤ 57 then hexLoop mem endp n (p + 1) (z * 16 + ((c - 48 : Nat) : Int))
      else if c ≥ 97 && c ≤ 102 then hexLoop mem endp n (p + 1) (z * 16 + ((c - 97 + 10 : Nat) : Int))
      else if c ≥ 65 && c ≤ 70 then hexLoop mem endp n (p + 1) (z * 16 + ((c - 65 + 10 : Nat) : Int))
      else (p, z)
    else (p, z)

/-- The octal loop of `parseChar`; the first argument is the number of bytes left before
`end`. -/
def octLoop (mem : List Nat) (endp : Nat) : Nat → Nat → Int → Nat × Int
  | 0, p, z => (p, z)
  | n + 1, p, z =>
    if p < endp then
      let c := peek mem p
      if c ≥ 48 && c ≤ 55 then octLoop mem endp n (p + 1) (z * 8 + ((c - 48 : Nat) : Int))
      else (p, z)
    else (p, z)

/-- The UTF-8 `switch (*reader->p & 0xf0)` of `parseChar`: the cursor and `val` (a
`uint32_t`).  No `case` matches the high nibbles `1` to `7`, `9` to `b` and `d`. -/
def utf8 (mem : List Nat) (p : Nat) : Nat × Nat :=
  let hi := peek mem p &&& 0xf0
  if hi == 0x00 || hi == 0x80 then (p + 1, charToU32 (peek mem p))
  else if hi == 0xc0 then
    (p + 2, (((peek mem p &&& 0x1f) <<< 6) ||| (peek mem (p + 1) &&& 0x3f)) % 4294967296)
  else if hi == 0xe0 then
    (p + 3, (((peek mem p &&& 0x1f) <<< 12) ||| ((peek mem (p + 1) &&& 0x3f) <<< 6) |||
      (peek mem (p + 2) &&& 0x3f)) % 4294967296)
  else if hi == 0xf0 then
    (p + 4, (((peek mem p &&& 0xf) <<< 18) ||| ((peek mem (p + 1) &&& 0x3f) <<< 12) |||
      ((peek mem (p + 2) &&& 0x3f) <<< 6) ||| (peek mem (p + 3) &&& 0x3f)) % 4294967296)
  else (p, 0)

/-- The `switch (*reader->p)` of `parseChar` behind a backslash, entered with the cursor
`p` on the byte after the backslash: the cursor and the integer set in `v.z`. -/
def escape (mem : List Nat) (endp : Nat) (p : Nat) : Nat × Int :=
  let c := peek mem p
  if c == 97 then (p + 1, 7)
  else if c == 98 then (p + 1, 8)
  else if c == 102 then (p + 1, 0xc)
  else if c == 110 then (p + 1, 0xa)
  else if c == 114 then (p + 1, 0xd)
  else if c == 116 then (p + 1, 9)
  else if c == 118 then (p + 1, 0xb)
  else if c == 92 then (p + 1, 0x5c)
  else if c == 39 then (p + 1, 0x27)
  else if c == 120 || c == 117 || c == 85 then hexLoop mem endp (endp - (p + 1)) (p + 1) 0
  else octLoop mem endp (endp - p) p 0

/-- The function `parseChar`: the tree (`null` on failure), the reader and the error slot. -/
def parseChar (mp : Mp F) (mem : List Nat) (reader : Reader) (errorMsg : Option (List Nat)) :
    Tree F × Reader × Option (List Nat) :=
  let v : Value F := { isF := false, z := 0, f := mp.init }
  if reader.p < reader.endp && peek mem reader.p != 39 then
    if peek mem reader.p == 92 then
      if reader.p + 1 ≥ reader.endp then
        (.null, { reader with p := reader.p + 1 }, some (bytes "Unclosed " ++ [39]))
      else
        let r := escape mem reader.endp (reader.p + 1)
        (.leaf { v with z := r.2 }, { reader with p := r.1 }, errorMsg)
    else
      let r := utf8 mem reader.p
      (.leaf { v with z := (r.2 : Int) }, { reader with p := r.1 }, errorMsg)
  else (.leaf v, reader, errorMsg)

/-! ## calculator.c: parser -/

/-- The function `branch`. -/
def branch (op : Op) (left right : Tree F) : Tree F := .branch op left right

/-- The result of a parser function: `none` when the bound on the call depth (the first
argument of `parse`, `parseLoop` and `primary`) is used up, else the returned tree (`null`
on failure), the reader and the error slot. -/
abbrev Parsed (F : Type) := Option (Tree F × Reader × Option (List Nat))

/-- The local `subprec` of `parse`: `op->prec`, incremented for a left-associative `op`. -/
def subprec (op : Op) : Nat := if op.assoc == Left then op.prec + 1 else op.prec

mutual

/-- The function `parse` up to its `while` loop. -/
def parse (mp : Mp F) (g : Globals) (mem : List Nat) (prev : Value F) :
    Nat → Nat → Reader → Option (List Nat) → Parsed F
  | 0, _, _, _ => none
  | fuel + 1, prec, reader, errorMsg =>
    match primary mp g mem prev fuel reader errorMsg with
    | none => none
    | some (t, reader, errorMsg) =>
      if t.isNull then some (.null, reader, errorMsg)
      else
        parseLoop mp g mem prev fuel prec t (next g mem reader).1 (next g mem reader).2 errorMsg

/-- The `while` loop of `parse`, entered with the tree `t` and the peeked `token`. -/
def parseLoop (mp : Mp F) (g : Globals) (mem : List Nat) (prev : Value F) :
    Nat → Nat → Tree F → Reader → Token → Option (List Nat) → Parsed F
  | 0, _, _, _, _, _ => none
  | fuel + 1, prec, t, reader, token, errorMsg =>
    match bTreeSearch g.binaries (djb2 mem token.start token.len) with
    | none => some (t, reader, errorMsg)
    | some op =>
      if op.prec ≥ prec then
        match parse mp g mem prev fuel (subprec op) (consume reader token) errorMsg with
        | none => none
        | some (r, reader, errorMsg) =>
          if r.isNull then some (.null, reader, errorMsg)
          else
            parseLoop mp g mem prev fuel prec (branch op t r) (next g mem reader).1
              (next g mem reader).2 errorMsg
      else some (t, reader, errorMsg)

/-- The function `primary`. -/
def primary (mp : Mp F) (g : Globals) (mem : List Nat) (prev : Value F) :
    Nat → Reader → Option (List Nat) → Parsed F
  | 0, _, _ => none
  | fuel + 1, reader, errorMsg =>
    if (next g mem reader).2.len == 0 then
      some (.null, (next g mem reader).1, some (bytes "Unexpected end"))
    else
      match bTreeSearch g.unaries
        (djb2 mem (next g mem reader).2.start (next g mem reader).2.len) with
      | some op =>
        match parse mp g mem prev fuel op.prec
          (consume (next g mem reader).1 (next g mem reader).2) errorMsg with
        | none => none
        | some (t, reader, errorMsg) =>
          if t.isNull then some (.null, reader, errorMsg)
          else some (branch op t .null, reader, errorMsg)
      | none =>
        if peek mem (next g mem reader).2.start == 40 then
          match parse mp g mem prev fuel 0
            (consume (next g mem reader).1 (next g mem reader).2) errorMsg with
          | none => none
          | some (t, reader, errorMsg) =>
            if t.isNull then some (.null, reader, errorMsg)
            else if !(expect mem reader errorMsg 41).2.2 then
              some (.null, (expect mem reader errorMsg 41).1, (expect mem reader errorMsg 41).2.1)
            else some (t, (expect mem reader errorMsg 41).1, (expect mem reader errorMsg 41).2.1)
        else if peek mem (next g mem reader).2.start == 39 then
          match parseChar mp mem (consume (next g mem reader).1 (next g mem reader).2) errorMsg with
          | (t, reader, errorMsg) =>
            if t.isNull then some (.null, reader, errorMsg)
            else if !(expect mem reader errorMsg 39).2.2 then
              some (.null, (expect mem reader errorMsg 39).1, (expect mem reader errorMsg 39).2.1)
            else some (t, (expect mem reader errorMsg 39).1, (expect mem reader errorMsg 39).2.1)
        else some (leaf mp mem (next g mem reader).1 errorMsg prev)

end

/-! ## mpextras.c and the GMP integer functions -/

/-- The function `mpf_tdiv_r` of `mpextras.c`: `num - floor(num / den) * den`. -/
def mpf_tdiv_r (mp : Mp F) (num den : F) : Option F :=
  (mp.div num den).map fun tmp => mp.sub num (mp.mul (mp.floor tmp) den)

/-- The function `mpf_pow` of `mpextras.c`. -/
def mpf_pow (mp : Mp F) (base exp : F) : F := mp.mpfr_pow base exp

/-- The function `mpf_sqrt` of `mpextras.c`. -/
def mpf_sqrt (mp : Mp F) (op : F) : F := mp.mpfr_sqrt op

/-- The function `mpf_cos` of `mpextras.c`. -/
def mpf_cos (mp : Mp F) (op : F) : F := mp.mpfr_cos op

/-- The function `mpf_sin` of `mpextras.c`. -/
def mpf_sin (mp : Mp F) (op : F) : F := mp.mpfr_sin op

/-- The function `mpf_tan` of `mpextras.c`. -/
def mpf_tan (mp : Mp F) (op : F) : F := mp.mpfr_tan op

/-- The function `mpf_round` of `mpextras.c`. -/
def mpf_round (mp : Mp F) (op : F) : Int := mp.mpfr_get_z op

/-- The GMP macro `mpz_div`, which `gmp.h` defines as `mpz_fdiv_q` (the quotient rounded
towards minus infinity); `none` when the library aborts on a zero divisor. -/
def mpz_div (n d : Int) : Option Int := if d = 0 then none else some (Int.fdiv n d)

/-- The GMP function `mpz_tdiv_r` (the remainder of the quotient rounded towards zero);
`none` when the library aborts on a zero divisor. -/
def mpz_tdiv_r (n d : Int) : Option Int := if d = 0 then none else some (Int.tmod n d)

/-- The GMP function `mpz_get_si`: the value when it fits a `long`, else the low 63 bits of
the magnitude with the sign of the operand; for a negative operand the library computes
`-1 - ((|z| - 1) & LONG_MAX)`, so a negative multiple of `2 ^ 63` gives `LONG_MIN`. -/
def mpz_get_si (z : Int) : Int :=
  if z < 0 then -1 - (((z.natAbs - 1) % 9223372036854775808 : Nat) : Int)
  else ((z.natAbs % 9223372036854775808 : Nat) : Int)

/-- The conversion of a `long` to `mp_bitcnt_t` (`unsigned long`). -/
def toBitcnt (x : Int) : Nat := (x % 18446744073709551616).toNat

/-- The GMP function `mpz_mul_2exp`. -/
def mpz_mul_2exp (z : Int) (p : Nat) : Int := z * 2 ^ p

/-- The GMP macro `mpz_div_2exp`, which `gmp.h` defines as `mpz_fdiv_q_2exp`. -/
def mpz_div_2exp (z : Int) (p : Nat) : Int := Int.fdiv z (2 ^ p)

/-! ## calculator.c: evaluator -/

/-- The shift amount `p` of the `SHL` and `SHR` cases. -/
def shiftCount (mp : Mp F) (r : Value F) : Nat :=
  if r.isF then toBitcnt (mp.get_si r.f) else toBitcnt (mpz_get_si r.z)

/-- The cases `OR`, `XOR` and `AND` of `eval`, for the integer function `op`. -/
def evalBitwise (mp : Mp F) (op : Int → Int → Int) (l r : Value F) : Value F :=
  let l := if l.isF then { l with z := mp.get_z l.f, isF := false } else l
  let r := if r.isF then { r with z := mp.get_z r.f } else r
  { l with z := op l.z r.z }

/-- The cases `ADD`, `SUB` and `MUL` of `eval`, for the float function `fop` and the
integer function `zop`. -/
def evalArith (mp : Mp F) (fop : F → F → F) (zop : Int → Int → Int) (l r : Value F) : Value F :=
  if l.isF then
    let r := if !r.isF then { r with f := mp.set_z r.z } else r
    { l with f := fop l.f r.f }
  else if r.isF then
    let l := { l with f := mp.set_z l.z, isF := true }
    { l with f := fop l.f r.f }
  else { l with z := zop l.z r.z }

/-- The cases `DIV` and `MOD` of `eval`, for the float function `fop` and the integer
function `zop`; `none` when the library aborts. -/
def evalDiv (mp : Mp F) (fop : F → F → Option F) (zop : Int → Int → Option Int)
    (l r : Value F) : Option (Value F) :=
  if l.isF then
    let r := if !r.isF then { r with f := mp.set_z r.z } else r
    (fop l.f r.f).map fun x => { l with f := x }
  else if r.isF then
    let l := { l with f := mp.set_z l.z, isF := true }
    (fop l.f r.f).map fun x => { l with f := x }
  else (zop l.z r.z).map fun x => { l with z := x }

/-- The cases `SQRT`, `COS`, `SIN` and `TAN` of `eval`, for the float function `fop`. -/
def evalFloat (mp : Mp F) (fop : F → F) (l : Value F) : Value F :=
  let l := if !l.isF then { l with f := mp.set_z l.z, isF := true } else l
  { l with f := fop l.f }

/-- The `switch` of `eval` on the evaluated operands; `r` is `none` when `tree->right` is
`NULL` (the local `r` is then not set).  The result is `none` when an unset `r` is read or
the library aborts; the flag tells whether the `switch` fell through to the assignment of
`"Unknown operator"`. -/
def evalSwitch (mp : Mp F) (output : Nat) (l : Value F) (r : Option (Value F)) :
    Option (Value F × Bool) :=
  if output = OR then r.map fun r => (evalBitwise mp Int.lor l r, false)
  else if output = XOR then r.map fun r => (evalBitwise mp Int.xor l r, false)
  else if output = AND then r.map fun r => (evalBitwise mp Int.land l r, false)
  else if output = SHL then r.map fun r =>
    (if l.isF then { l with f := mp.mul_2exp l.f (shiftCount mp r) }
      else { l with z := mpz_mul_2exp l.z (shiftCount mp r) }, false)
  else if output = SHR then r.map fun r =>
    (if l.isF then { l with f := mp.div_2exp l.f (shiftCount mp r) }
      else { l with z := mpz_div_2exp l.z (shiftCount mp r) }, false)
  else if output = ADD then r.map fun r => (evalArith mp mp.add (· + ·) l r, false)
  else if output = SUB then r.map fun r => (evalArith mp mp.sub (· - ·) l r, false)
  else if output = MUL then r.map fun r => (evalArith mp mp.mul (· * ·) l r, false)
  else if output = DIV then r.bind fun r => (evalDiv mp mp.div mpz_div l r).map fun v => (v, false)
  else if output = MOD then
    r.bind fun r => (evalDiv mp (mpf_tdiv_r mp) mpz_tdiv_r l r).map fun v => (v, false)
  else if output = NEG then
    some (if l.isF then { l with f := mp.neg l.f } else { l with z := -l.z }, false)
  else if output = POS then some (l, false)
  else if output = NOT then
    let l := if l.isF then { l with z := mp.get_z l.f, isF := false } else l
    some ({ l with z := Int.lnot l.z }, false)
  else if output = POW then r.map fun r =>
    let l := if !l.isF then { l with f := mp.set_z l.z, isF := true } else l
    let r := if !r.isF then { r with f := mp.set_z r.z } else r
    ({ l with f := mpf_pow mp l.f r.f }, false)
  else if output = SQRT then some (evalFloat mp (mpf_sqrt mp) l, false)
  else if output = COS then some (evalFloat mp (mpf_cos mp) l, false)
  else if output = SIN then some (evalFloat mp (mpf_sin mp) l, false)
  else if output = TAN then some (evalFloat mp (mpf_tan mp) l, false)
  else if output = FLOOR then
    some (if l.isF then { l with f := mp.floor l.f, z := mp.get_z (mp.floor l.f), isF := false }
      else l, false)
  else if output = CEIL then
    some (if l.isF then { l with f := mp.ceil l.f, z := mp.get_z (mp.ceil l.f), isF := false }
      else l, false)
  else if output = ROUND then
    some (if l.isF then { l with z := mpf_round mp l.f, isF := false } else l, false)
  else some (l, true)

/-- The end of `eval`: the assignment of `"Unknown operator"` when the `switch` fell
through. -/
def evalReturn (x : Option (Value F × Bool)) (errorMsg : Option (List Nat)) :
    Option (Value F × Option (List Nat)) :=
  x.map fun x => (x.1, if x.2 then some (bytes "Unknown operator") else errorMsg)

/-- The function `eval`: the value and the error slot, or `none` when the behaviour is
undefined (a `NULL` tree, an unset `r`) or the library aborts. -/
def eval (mp : Mp F) : Tree F → Option (List Nat) → Option (Value F × Option (List Nat))
  | .null, _ => none
  | .leaf v, errorMsg => some (v, errorMsg)
  | .branch op left right, errorMsg =>
    match eval mp left errorMsg with
    | none => none
    | some (l, errorMsg) =>
      if right.isNull then evalReturn (evalSwitch mp op.output l none) errorMsg
      else
        match eval mp right errorMsg with
        | none => none
        | some (r, errorMsg) => evalReturn (evalSwitch mp op.output l (some r)) errorMsg

/-- The `struct Value` that `calculate` returns: the local `v` is declared without an
initialiser, so its `isF` is unset (`none`) until it is assigned. -/
structure Returned (F : Type) where
  isF : Option Bool
  z : Int
  f : F
  deriving Repr, DecidableEq

/-- The function `calculate`, with the globals before and after the call; `none` when
`eval` does not return (the bound given to `parse` is never used up, see `parse_total`). -/
def calculate (mp : Mp F) (g : Globals) (expression : List Nat) (prev : Value F) :
    Option (Returned F × Globals) :=
  let g := if g.terminators.isEmpty then init g else g
  let g := { g with errorMsg := none }
  let reader : Reader := { p := 0, endp := strlen expression 0 }
  match parse mp g expression prev (3 * reader.endp + 2) 0 reader g.errorMsg with
  | none => none
  | some (tree, reader, errorMsg) =>
    let v : Returned F := { isF := none, z := 0, f := mp.init }
    if tree.isNull then some (v, { g with errorMsg := errorMsg })
    else if reader.p != reader.endp then
      some (v, { g with errorMsg := some (bytes "Expected operator") })
    else
      match eval mp tree errorMsg with
      | none => none
      | some (prev, errorMsg) =>
        some (if prev.isF then { v with isF := some prev.isF, f := prev.f }
          else { v with isF := some prev.isF, z := prev.z }, { g with errorMsg := errorMsg })

/-- The function `calcError`. -/
def calcError (g : Globals) : Option (List Nat) := g.errorMsg

/-! ## An exact instance of the arithmetic backend

The statements below hold for every backend `Mp F`.  To run the definitions on concrete
inputs, `exactMp` instantiates the float type with the rationals. -/

/-- A run of decimal digits at `p`: the cursor behind it and the number read, starting
from `acc`; the first argument bounds the bytes left in the memory image. -/
def scanDigits (mem : List Nat) : Nat → Nat → Nat → Nat × Nat
  | 0, p, acc => (p, acc)
  | n + 1, p, acc =>
    let c := peek mem p
    if c ≥ 48 && c ≤ 57 then scanDigits mem n (p + 1) (acc * 10 + (c - 48)) else (p, acc)

/-- Modelled from the spec: `gmp_sscanf` with `"%Ff%n"` is GMP library code, not part of
the sources; the spec gives the accepted pattern as `[digits][.digits][eEexp]`.  The
result is the number read and the count of bytes taken, or `none` when the mantissa has
no digit; an `e` or `E` that no exponent digit follows is not taken. -/
def scanFloat (mem : List Nat) (p : Nat) : Option (ℚ × Nat) :=
  let a := scanDigits mem (mem.length - p) p 0
  let b := if peek mem a.1 == 46 then scanDigits mem (mem.length - (a.1 + 1)) (a.1 + 1) a.2
    else a
  let digits := if peek mem a.1 == 46 then (a.1 - p) + (b.1 - (a.1 + 1)) else a.1 - p
  let mant : ℚ := (b.2 : ℚ) / 10 ^ (if peek mem a.1 == 46 then b.1 - (a.1 + 1) else 0)
  if digits == 0 then none
  else if peek mem b.1 == 101 || peek mem b.1 == 69 then
    let neg := peek mem (b.1 + 1) == 45
    let s := if peek mem (b.1 + 1) == 45 || peek mem (b.1 + 1) == 43 then b.1 + 2 else b.1 + 1
    let e := scanDigits mem (mem.length - s) s 0
    if e.1 == s then some (mant, b.1 - p)
    else some (if neg then mant / 10 ^ e.2 else mant * 10 ^ e.2, e.1 - p)
  else some (mant, b.1 - p)

/-- The truncation of a rational towards zero. -/
def truncQ (q : ℚ) : Int := Int.tdiv q.num q.den

/-- The backend over the rationals: the arithmetic is exact (no working precision), and
the MPFR functions, which have no exact rational counterpart, are stand-ins (`mpfr_pow` is
exact for an integer exponent). -/
def exactMp : Mp ℚ where
  init := 0
  pi := 3141592653589793 / 1000000000000000
  sscanf := scanFloat
  integer_p := fun q => q.den == 1
  get_z := truncQ
  set_z := fun z => (z : ℚ)
  get_si := fun q => mpz_get_si (truncQ q)
  mul_2exp := fun q n => q * 2 ^ n
  div_2exp := fun q n => q / 2 ^ n
  add := fun a b => a + b
  sub := fun a b => a - b
  mul := fun a b => a * b
  div := fun a b => if b = 0 then none else some (a / b)
  neg := fun a => -a
  floor := fun a => (Rat.floor a : ℚ)
  ceil := fun a => (Rat.ceil a : ℚ)
  mpfr_pow := fun a b => a ^ truncQ b
  mpfr_sqrt := fun a => a
  mpfr_cos := fun _ => 1
  mpfr_sin := fun a => a
  mpfr_tan := fun a => a
  mpfr_get_z := fun a => Rat.floor (a + 1 / 2)

/-! ## Vocabulary of the statements -/

/-- The states of the globals in which `calculate` can be called: the start state, or the
tables built by `init` together with whatever message an earlier call left. -/
def Globals.Reachable (g : Globals) : Prop :=
  g = Globals.start ∨ ∃ m, g = { init Globals.start with errorMsg := m }

/-- The key and data slots in use in a B-tree, over all nodes. -/
def entries : BTreeNode α → List (Nat × Option α)
  | .null => []
  | .node n k d c0 c1 c2 c3 _ =>
    (List.range n).map (fun i => (k.getD i 0, d.getD i none)) ++
      (entries c0 ++ (entries c1 ++ (entries c2 ++ entries c3)))

/-- A reader of `mem` as `calculate` builds it and the parser moves it: `end` is the
terminating NUL and the cursor is not behind it. -/
def Reader.Valid (mem : List Nat) (r : Reader) : Prop := r.endp = strlen mem 0 ∧ r.p ≤ r.endp

/-- Successive `next`/`consume` cycles, until `next` returns a zero-length token; the
reader at that point, or `none` when the first argument (a bound on the number of calls
of `next`) is used up. -/
def tokenize (g : Globals) (mem : List Nat) : Nat → Reader → Option Reader
  | 0, _ => none
  | n + 1, r =>
    if (next g mem r).2.len == 0 then some (next g mem r).1
    else tokenize g mem n (consume (next g mem r).1 (next g mem r).2)


/-- The opcodes that `init` registers with the associativity `Unary`. -/
def isUnaryOp (output : Nat) : Bool :=
  output == NEG || output == POS || output == NOT || output == SQRT || output == COS ||
    output == SIN || output == TAN || output == FLOOR || output == CEIL || output == ROUND

/-- The opcodes that `init` registers with the associativity `Left` or `Right`. -/
def isBinaryOp (output : Nat) : Bool :=
  output == OR || output == XOR || output == AND || output == SHL || output == SHR ||
    output == ADD || output == SUB || output == MUL || output == DIV || output == MOD ||
    output == POW

/-- A well-formed tree: at every branch the left child is present, and the right child is
absent under a unary opcode and present under a binary opcode. -/
def wellFormed : Tree F → Bool
  | .null => true
  | .leaf _ => true
  | .branch op left right =>
    !left.isNull && wellFormed left &&
      (if right.isNull then isUnaryOp op.output else isBinaryOp op.output && wellFormed right)

/-- What every return of `parse`, `primary`, `leaf` and `parseChar` satisfies, for the
reader `r` and error slot `e` at the call: `end` is unchanged and the cursor has not moved
back; a `NULL` tree comes with an error message; a tree comes with the error slot
unchanged and is well-formed. -/
def Returns (r : Reader) (e : Option (List Nat)) (res : Tree F × Reader × Option (List Nat)) :
    Prop :=
  res.2.1.endp = r.endp ∧ r.p ≤ res.2.1.p ∧
    (res.1.isNull = true → res.2.2 ≠ none) ∧
    (res.1.isNull = false → res.2.2 = e ∧ wellFormed res.1 = true)

/-- The table `unaries` holds unary opcodes only, the table `binaries` binary opcodes
only, and no operator stands under the hash of the empty token. -/
def Globals.TablesKnown (g : Globals) : Prop :=
  (∀ k op, bTreeSearch g.unaries k = some op → isUnaryOp op.output = true) ∧
    (∀ k op, bTreeSearch g.binaries k = some op → isBinaryOp op.output = true) ∧
    bTreeSearch g.binaries 5381 = none

/-- The opcodes whose result is float-tagged whatever the operands: `POW`, `SQRT`, `COS`,
`SIN`, `TAN`. -/
def isFloatOp (output : Nat) : Bool :=
  output == POW || output == SQRT || output == COS || output == SIN || output == TAN

/-- A tree without a float-tagged leaf and without a float opcode. -/
def integerOnly : Tree F → Bool
  | .null => true
  | .leaf v => !v.isF
  | .branch op left right => !isFloatOp op.output && integerOnly left && integerOnly right

/-- A tree with a float-tagged leaf or a float opcode. -/
def hasFloat : Tree F → Bool
  | .null => false
  | .leaf v => v.isF
  | .branch op left right => isFloatOp op.output || hasFloat left || hasFloat right

/-- The opcodes of the arithmetic operators and of the float functions: all but the
demoting `FLOOR`, `CEIL`, `ROUND`, the bitwise `OR`, `XOR`, `AND`, `NOT` and the shifts
`SHL`, `SHR`. -/
def isContagiousOp (output : Nat) : Bool :=
  output == ADD || output == SUB || output == MUL || output == DIV || output == MOD ||
    output == NEG || output == POS || isFloatOp output

/-- A tree all of whose operators are arithmetic operators or float functions. -/
def contagious : Tree F → Bool
  | .null => true
  | .leaf _ => true
  | .branch op left right => isContagiousOp op.output && contagious left && contagious right

/-- The number that a digit string denotes in a base: `d` holds the digit bytes, the most
significant first, and `val` gives the value of a digit byte. -/
def valueOf (base : Nat) (val : Nat → Nat) (d : List Nat) : Int :=
  ((Nat.ofDigits base (d.reverse.map val) : Nat) : Int)

/-- The value of a decimal digit byte `0` to `9`. -/
def decDigit (c : Nat) : Nat := c - 48

/-- Whether a byte is a digit of the base (at most 10). -/
def isDigitOf (base : Nat) (c : Nat) : Bool := 48 ≤ c && c < 48 + base

/-- Whether a byte is a hexadecimal digit, of either case. -/
def isHexDigit (c : Nat) : Bool :=
  (48 ≤ c && c ≤ 57) || (97 ≤ c && c ≤ 102) || (65 ≤ c && c ≤ 70)

/-- The value of a hexadecimal digit byte. -/
def hexDigit (c : Nat) : Nat := if c ≤ 57 then c - 48 else if 97 ≤ c then c - 87 else c - 55

/-- The named escapes of a character literal as the specification lists them: the byte
after the backslash and the integer of the literal. -/
def namedEscapes : List (Nat × Int) :=
  [(97, 7), (98, 8), (102, 12), (110, 10), (114, 13), (116, 9), (118, 11), (92, 92), (39, 39)]

/-- The bytes that `printValue` of `main.c` stores in its array `utf` (of `uint8_t`) for
the `uint32_t` `v`: the UTF-8 encoding of the code point `v`. -/
def utf8Bytes (v : Nat) : List Nat :=
  if v < 0x80 then [v % 256]
  else if v < 0x800 then [(0xc0 ||| (v >>> 6)) % 256, (0x80 ||| (v &&& 0x3f)) % 256]
  else if v < 0x10000 then
    [(0xe0 ||| (v >>> 12)) % 256, (0x80 ||| ((v >>> 6) &&& 0x3f)) % 256,
      (0x80 ||| (v &&& 0x3f)) % 256]
  else
    [(0xf0 ||| (v >>> 18)) % 256, (0x80 ||| ((v >>> 12) &&& 0x3f)) % 256,
      (0x80 ||| ((v >>> 6) &&& 0x3f)) % 256, (0x80 ||| (v &&& 0x3f)) % 256]

/-- A run of hexadecimal digits at `p`: the cursor behind it and the number read, starting
from `acc`; the first argument bounds the bytes left in the memory image. -/
def scanHexDigits (mem : List Nat) : Nat → Nat → Nat → Nat × Nat
  | 0, p, acc => (p, acc)
  | n + 1, p, acc =>
    if isHexDigit (peek mem p) then scanHexDigits mem n (p + 1) (acc * 16 + hexDigit (peek mem p))
    else (p, acc)

/-- A scanner that reads what `scanFloat` reads and, as `gmp_sscanf` of the GMP library
does under `"%Ff"`, a hexadecimal integer behind the prefix `0x` or `0X` (`none` when no
digit follows the prefix). -/
def scanFloatHex (mem : List Nat) (p : Nat) : Option (ℚ × Nat) :=
  if peek mem p == 48 && (peek mem (p + 1) == 120 || peek mem (p + 1) == 88) then
    let r := scanHexDigits mem (mem.length - (p + 2)) (p + 2) 0
    if r.1 == p + 2 then none else some ((r.2 : ℚ), r.1 - p)
  else scanFloat mem p

/-- The backend `exactMp` with the scanner that also reads hexadecimal integers. -/
def hexMp : Mp ℚ := { exactMp with sscanf := scanFloatHex }

/-- The scanner of the backend reads, at the index `p` of `mem`, a literal of `len` bytes
without a `.` that denotes the integer `n`. -/
def Mp.scans (mp : Mp F) (mem : List Nat) (p len : Nat) (n : Int) : Prop :=
  ∃ f, mp.sscanf mem p = some (f, len) ∧ mp.integer_p f = true ∧ mp.get_z f = n

/-- The operators that `init` registers, in the order of its calls of `add`: the lexeme
and the record. -/
def registered : List (List Nat × Op) :=
  [(bytes "|", ⟨0, Left, OR⟩), (bytes "^", ⟨1, Left, XOR⟩), (bytes "&", ⟨2, Left, AND⟩),
    (bytes "<<", ⟨3, Left, SHL⟩), (bytes ">>", ⟨3, Left, SHR⟩), (bytes "+", ⟨4, Left, ADD⟩),
    (bytes "-", ⟨4, Left, SUB⟩), (bytes "*", ⟨5, Left, MUL⟩), (bytes "/", ⟨5, Left, DIV⟩),
    (bytes "%", ⟨5, Left, MOD⟩), (bytes "-", ⟨5, Unary, NEG⟩), (bytes "+", ⟨5, Unary, POS⟩),
    (bytes "~", ⟨6, Unary, NOT⟩), (bytes "**", ⟨7, Right, POW⟩), (bytes "sqrt", ⟨8, Unary, SQRT⟩),
    (bytes "cos", ⟨8, Unary, COS⟩), (bytes "sin", ⟨8, Unary, SIN⟩), (bytes "tan", ⟨8, Unary, TAN⟩),
    (bytes "floor", ⟨8, Unary, FLOOR⟩), (bytes "ceil", ⟨8, Unary, CEIL⟩),
    (bytes "round", ⟨8, Unary, ROUND⟩)]

/-- Exact string lookup in the unary namespace, as the specification words it: the record
of the registered unary operator whose lexeme is the byte string `tok`. -/
def exactUnary (tok : List Nat) : Option Op :=
  (registered.find? fun row => row.1 == tok && row.2.assoc == Unary).map fun row => row.2

/-- Exact string lookup in the binary namespace, as the specification words it: the record
of the registered binary operator whose lexeme is the byte string `tok`. -/
def exactBinary (tok : List Nat) : Option Op :=
  (registered.find? fun row => row.1 == tok && row.2.assoc != Unary).map fun row => row.2

/-- The bytes of a token. -/
def tokenBytes (mem : List Nat) (tok : Token) : List Nat := (mem.drop tok.start).take tok.len

/-- The tree that stands for `U a B c` when the operand of the unary operator `u` ends
where an operator of lower precedence begins: `(U a) B c` when `prec(B) < prec(U)`, else
`U (a B c)`. -/
def extentTree (u b : Op) (a c : Tree F) : Tree F :=
  if b.prec < u.prec then .branch b (.branch u a .null) c else .branch u (.branch b a c) .null

/-- The text `U 2 B 3` for the lexemes `U` and `B`, with single blanks. -/
def extentText (u b : List Nat) : List Nat := u ++ bytes " 2 " ++ b ++ bytes " 3"

/-- Whether `parse(0)` on the text `U 2 B 3` returns the tree `extentTree` with the cursor
at `end` and no error, on the backend `exactMp`. -/
def extentHolds (u b : List Nat × Op) : Bool :=
  parse exactMp (init Globals.start) (extentText u.1 b.1) ⟨false, 0, 0⟩
      (3 * (extentText u.1 b.1).length + 2) 0 ⟨0, (extentText u.1 b.1).length⟩ none ==
    some (extentTree u.2 b.2 (.leaf ⟨false, 2, 2⟩) (.leaf ⟨false, 3, 3⟩),
      ⟨(extentText u.1 b.1).length, (extentText u.1 b.1).length⟩, none)

/-- A tree in which every branch has its left child, has no right child exactly under a
record of associativity `Unary` (with a unary opcode), and has a right child exactly
under a record of associativity `Left` or `Right` (with a binary opcode). -/
def arityFormed : Tree F → Bool
  | .null => true
  | .leaf _ => true
  | .branch op left right =>
    !left.isNull && arityFormed left &&
      (if right.isNull then op.assoc == Unary && isUnaryOp op.output
        else (op.assoc == Left || op.assoc == Right) && isBinaryOp op.output &&
          arityFormed right)

/-- Whether the `case` of an opcode in the `switch` of `eval` reads the local `r`: with
`r` unset the `switch` has no result exactly then. -/
def readsRight (mp : Mp F) (output : Nat) : Bool :=
  (evalSwitch mp output ⟨false, 0, mp.init⟩ none).isNone

/-- Whether an opcode falls through the `switch` of `eval` to the assignment of
`"Unknown operator"`. -/
def fallsThrough (mp : Mp F) (output : Nat) : Bool :=
  match evalSwitch mp output ⟨false, 0, mp.init⟩ (some ⟨false, 1, mp.init⟩) with
  | some (_, flag) => flag
  | none => false

/-- A tree at no branch of which `eval` reads the `r` of an absent right child or falls
through to `"Unknown operator"`. -/
def evalSafe (mp : Mp F) : Tree F → Bool
  | .null => true
  | .leaf _ => true
  | .branch op left right =>
    evalSafe mp left && evalSafe mp right && !(right.isNull && readsRight mp op.output) &&
      !fallsThrough mp op.output

/-- The table `unaries` holds records of associativity `Unary` with unary opcodes, the
table `binaries` records of associativity `Left` or `Right` with binary opcodes. -/
def Globals.TablesArity (g : Globals) : Prop :=
  (∀ k op, bTreeSearch g.unaries k = some op →
    op.assoc = Unary ∧ isUnaryOp op.output = true) ∧
  (∀ k op, bTreeSearch g.binaries k = some op →
    (op.assoc = Left ∨ op.assoc = Right) ∧ isBinaryOp op.output = true)

/-- The entries of a tree in use (the first `numKeys` slots of each node and the children
around them), from left to right. -/
def inorder : BTreeNode α → List (Nat × Option α)
  | .null => []
  | .node n k d c0 c1 c2 c3 _ =>
    match n with
    | 0 => inorder c0
    | 1 => inorder c0 ++ (k.getD 0 0, d.getD 0 none) :: inorder c1
    | 2 => inorder c0 ++ (k.getD 0 0, d.getD 0 none) ::
        (inorder c1 ++ (k.getD 1 0, d.getD 1 none) :: inorder c2)
    | _ => inorder c0 ++ (k.getD 0 0, d.getD 0 none) ::
        (inorder c1 ++ (k.getD 1 0, d.getD 1 none) ::
          (inorder c2 ++ (k.getD 2 0, d.getD 2 none) :: inorder c3))

/-- A tree of `h` levels below the root in which every leaf is at the same depth: each
node has from 1 to 3 keys in arrays of three slots, a leaf has no child, and a node that
is no leaf has a child on each side of each key. -/
def Bal : Nat → BTreeNode α → Prop
  | _, .null => False
  | 0, .node n k d c0 c1 c2 c3 l =>
    l = true ∧ k.length = 3 ∧ d.length = 3 ∧ 1 ≤ n ∧ n ≤ 3 ∧
      c0 = .null ∧ c1 = .null ∧ c2 = .null ∧ c3 = .null
  | h + 1, .node n k d c0 c1 c2 c3 l =>
    l = false ∧ k.length = 3 ∧ d.length = 3 ∧ 1 ≤ n ∧ n ≤ 3 ∧
      Bal h c0 ∧ Bal h c1 ∧ (2 ≤ n → Bal h c2) ∧ (3 ≤ n → Bal h c3)

/-- A list of entries with strictly increasing keys. -/
def Ordered (l : List (Nat × Option α)) : Prop := l.Pairwise fun a b => a.1 < b.1

/-- The data of the first entry of a list that holds the key. -/
def lookup (key : Nat) : List (Nat × Option α) → Option α
  | [] => none
  | e :: l => if e.1 = key then e.2 else lookup key l

/-- The insertion of an entry into a list of entries with increasing keys, before the
first entry with a greater key. -/
def ins (key : Nat) (v : Option α) : List (Nat × Option α) → List (Nat × Option α)
  | [] => [(key, v)]
  | e :: l => if key < e.1 then (key, v) :: e :: l else e :: ins key v l

/-- The node that `splitChild` allocates for the upper half of `child`. -/
def upperHalf (child : BTreeNode α) : BTreeNode α :=
  let nd : BTreeNode α := (newNode child.isLeaf).setNumKeys (BTREE_ORDER / 2 - 1)
  let nd := moveKeys child (BTREE_ORDER / 2) (BTREE_ORDER / 2 - 1) nd
  if !child.isLeaf then moveChildren child (BTREE_ORDER / 2) (BTREE_ORDER / 2) nd else nd

/-- Whether every node in use holds at most 3 keys, in strictly increasing order. -/
def nodeSorted : BTreeNode α → Bool
  | .null => true
  | .node n k _ c0 c1 c2 c3 l =>
    decide (n ≤ 3) && (decide (n < 2) || decide (k.getD 0 0 < k.getD 1 0)) &&
      (decide (n < 3) || decide (k.getD 1 0 < k.getD 2 0)) &&
      (l || (nodeSorted c0 && (decide (n < 1) || nodeSorted c1) &&
        (decide (n < 2) || nodeSorted c2) && (decide (n < 3) || nodeSorted c3)))

/-- The tree that successive calls of `bTreeInsert` build from the `NULL` root. -/
def build (kvs : List (Nat × α)) : BTreeNode α :=
  kvs.foldl (fun t kv => bTreeInsert t kv.1 kv.2) .null

/-- The opcodes whose result is integer-tagged whatever the operands: the bitwise `OR`,
`XOR`, `AND`, `NOT` and `FLOOR`, `CEIL`, `ROUND`. -/
def isDemotingOp (output : Nat) : Bool :=
  output == OR || output == XOR || output == AND || output == NOT || output == FLOOR ||
    output == CEIL || output == ROUND

/-- The opcodes whose result has the tag of the left operand: the shifts `SHL`, `SHR` and
the unary `NEG`, `POS`. -/
def isLeftTagOp (output : Nat) : Bool :=
  output == SHL || output == SHR || output == NEG || output == POS

/-- The tag of the result of an operator, from the tags of its operands (`true` is
float): float under `**`, sqrt, cos, sin, tan; integer under `|`, `^`, `&`, `~`, floor,
ceil, round; the tag of the left operand under `<<`, `>>` and the unary `-`, `+`; and
under `+ - * / %` float when an operand is float. -/
def opTag (output : Nat) (l r : Bool) : Bool :=
  if isFloatOp output then true
  else if isDemotingOp output then false
  else if isLeftTagOp output then l
  else l || r

/-- The tag of the value of a tree, by the rule `opTag` at every branch. -/
def resultTag : Tree F → Bool
  | .null => false
  | .leaf v => v.isF
  | .branch op left right => opTag op.output (resultTag left) (resultTag right)

/-! ## Tokenizer lemmas -/

theorem peek_eq_zero_of_length_le (mem : List Nat) (p : Nat) (h : mem.length ≤ p) :
    peek mem p = 0 := by
  unfold peek
  simp [List.getD, List.getElem?_eq_none h]

theorem drop_eq_cons_peek (mem : List Nat) (p : Nat) (h : peek mem p ≠ 0) :
    mem.drop p = peek mem p :: mem.drop (p + 1) := by
  have hp : p < mem.length := by
    by_contra hc
    exact h (peek_eq_zero_of_length_le mem p (Nat.le_of_not_lt hc))
  rw [List.drop_eq_getElem_cons hp]
  unfold peek
  simp [List.getD, List.getElem?_eq_getElem hp]

theorem strlen_succ (mem : List Nat) (p : Nat) (h : peek mem p ≠ 0) :
    strlen mem p = strlen mem (p + 1) + 1 := by
  unfold strlen
  rw [drop_eq_cons_peek mem p h, List.takeWhile_cons]
  simp [h]

theorem strlen_eq_zero (mem : List Nat) (p : Nat) (h : peek mem p = 0) : strlen mem p = 0 := by
  unfold strlen
  by_cases hp : p < mem.length
  · rw [List.drop_eq_getElem_cons hp]
    have : mem[p] = 0 := by
      unfold peek at h
      simpa [List.getD, List.getElem?_eq_getElem hp] using h
    simp [List.takeWhile_cons, this]
  · rw [List.drop_eq_nil_of_le (Nat.le_of_not_lt hp)]
    simp

theorem strlen_drop (mem : List Nat) (s : Nat) (h : s ≤ strlen mem 0) :
    strlen mem s = strlen mem 0 - s := by
  induction s with
  | zero => simp
  | succ s ih =>
    have hs : s < strlen mem 0 := h
    have ih := ih (Nat.le_of_lt hs)
    have hne : peek mem s ≠ 0 := by
      intro hz
      rw [strlen_eq_zero mem s hz] at ih
      omega
    rw [strlen_succ mem s hne] at ih
    omega

theorem strlen_ge_of_matchAt (t mem : List Nat) (p : Nat) (hm : matchAt t mem p = true)
    (h0 : ∀ c ∈ t, c ≠ 0) : t.length ≤ strlen mem p := by
  induction t generalizing p with
  | nil => simp
  | cons c cs ih =>
    simp only [matchAt, Bool.and_eq_true, beq_iff_eq] at hm
    have hc : c ≠ 0 := h0 c (List.mem_cons_self _ _)
    have hne : peek mem p ≠ 0 := by rw [hm.1]; exact hc
    rw [strlen_succ mem p hne]
    have := ih (p + 1) hm.2 (fun x hx => h0 x (List.mem_cons_of_mem _ hx))
    simp only [List.length_cons]
    omega

theorem findLoop_spec (needle mem : List Nat) (h : Nat) (n i : Nat) :
    findLoop needle mem h n i = -1 ∨
      ∃ k : Nat, findLoop needle mem h n i = (k : Int) ∧ i ≤ k ∧ k < i + n ∧
        matchAt needle mem (h + k) = true := by
  induction n generalizing i with
  | zero => left; rfl
  | succ n ih =>
    unfold findLoop
    by_cases hm : matchAt needle mem (h + i) = true
    · right
      exact ⟨i, by simp [hm], Nat.le_refl _, by omega, hm⟩
    · simp only [hm, Bool.false_eq_true, if_false]
      rcases ih (i + 1) with h1 | ⟨k, hk, h1, h2, h3⟩
      · left; exact h1
      · right; exact ⟨k, hk, by omega, by omega, h3⟩

theorem findLoop_zero (needle mem : List Nat) (h n : Nat)
    (hm : matchAt needle mem h = true) : findLoop needle mem h (n + 1) 0 = 0 := by
  unfold findLoop
  simp [hm]

theorem findIndexOf_spec (t mem : List Nat) (p : Nat) :
    findIndexOf t mem p = -1 ∨
      ∃ k : Nat, findIndexOf t mem p = (k : Int) ∧ k + t.length ≤ strlen mem p ∧
        matchAt t mem (p + k) = true := by
  unfold findIndexOf
  by_cases hlt : strlen mem p < t.length
  · left; simp [hlt]
  · simp only [hlt, if_false]
    rcases findLoop_spec t mem p (strlen mem p - t.length + 1) 0 with h1 | ⟨k, hk, _, h2, h3⟩
    · left; exact h1
    · right; exact ⟨k, hk, by omega, h3⟩

theorem findIndexOf_zero (t mem : List Nat) (p : Nat) (hm : matchAt t mem p = true)
    (hfit : t.length ≤ strlen mem p) : findIndexOf t mem p = 0 := by
  unfold findIndexOf
  have : ¬ strlen mem p < t.length := by omega
  simp only [this, if_false]
  exact findLoop_zero t mem p _ hm

theorem matchAt_of_findIndexOf_zero (t mem : List Nat) (p : Nat)
    (h : findIndexOf t mem p = 0) : matchAt t mem p = true := by
  rcases findIndexOf_spec t mem p with h1 | ⟨k, hk, _, h3⟩
  · rw [h] at h1; omega
  · rw [h] at hk
    have : k = 0 := by omega
    subst this
    simpa using h3

/-- The terminator loop returns either its initial state or the offset and length of a
terminator that occurs at that offset. -/
theorem nextLoop_found (mem : List Nat) (p : Nat) (ts : List (List Nat)) (pos : Int) (len : Nat) :
    nextLoop mem p ts pos len = (pos, len) ∨
      ∃ t ∈ ts, findIndexOf t mem p = (nextLoop mem p ts pos len).1 ∧
        (nextLoop mem p ts pos len).1 > -1 ∧ t.length = (nextLoop mem p ts pos len).2 := by
  induction ts generalizing pos len with
  | nil => left; rfl
  | cons t ts ih =>
    have lift : ∀ pos' len', (nextLoop mem p ts pos' len' = (pos', len') ∨
        ∃ t' ∈ ts, findIndexOf t' mem p = (nextLoop mem p ts pos' len').1 ∧
          (nextLoop mem p ts pos' len').1 > -1 ∧ t'.length = (nextLoop mem p ts pos' len').2) →
        (pos' = pos ∧ len' = len ∨ findIndexOf t mem p = pos' ∧ pos' > -1 ∧ t.length = len') →
        (nextLoop mem p ts pos' len' = (pos, len) ∨
          ∃ t' ∈ t :: ts, findIndexOf t' mem p = (nextLoop mem p ts pos' len').1 ∧
            (nextLoop mem p ts pos' len').1 > -1 ∧ t'.length = (nextLoop mem p ts pos' len').2) := by
      intro pos' len' h1 h2
      rcases h1 with h1 | ⟨t', ht', h⟩
      · rcases h2 with ⟨rfl, rfl⟩ | ⟨ha, hb, hc⟩
        · left; exact h1
        · right
          refine ⟨t, List.mem_cons_self _ _, ?_⟩
          rw [h1]; exact ⟨ha, hb, hc⟩
      · right; exact ⟨t', List.mem_cons_of_mem _ ht', h⟩
    unfold nextLoop
    simp only
    split_ifs with h1 h2 h3 h4
    · have h3' : pos = findIndexOf t mem p := by simpa using h3
      exact lift pos t.length (ih pos t.length) (Or.inr ⟨h3'.symm, by rw [h3']; exact h1, rfl⟩)
    · exact lift pos len (ih pos len) (Or.inl ⟨rfl, rfl⟩)
    · exact lift _ t.length (ih _ t.length) (Or.inr ⟨rfl, h1, rfl⟩)
    · exact lift pos len (ih pos len) (Or.inl ⟨rfl, rfl⟩)
    · exact lift pos len (ih pos len) (Or.inl ⟨rfl, rfl⟩)

/-- When a terminator occurs at offset 0 (or the loop state already stands at offset 0),
the terminator loop ends at offset 0 with the longest of the lengths at offset 0. -/
theorem nextLoop_zero (mem : List Nat) (p : Nat) (ts : List (List Nat)) (pos : Int) (len : Nat)
    (hpos : -1 ≤ pos) (h : pos = 0 ∨ ∃ t ∈ ts, findIndexOf t mem p = 0) :
    (nextLoop mem p ts pos len).1 = 0 ∧
      (∀ t ∈ ts, findIndexOf t mem p = 0 → t.length ≤ (nextLoop mem p ts pos len).2) ∧
      (pos = 0 → len ≤ (nextLoop mem p ts pos len).2) ∧
      ((pos = 0 ∧ (nextLoop mem p ts pos len).2 = len) ∨
        ∃ t ∈ ts, findIndexOf t mem p = 0 ∧ t.length = (nextLoop mem p ts pos len).2) := by
  induction ts generalizing pos len with
  | nil =>
    rcases h with h | ⟨t, ht, _⟩
    · exact ⟨h, fun t ht => absurd ht (List.not_mem_nil t), fun _ => Nat.le_refl _, Or.inl ⟨h, rfl⟩⟩
    · exact absurd ht (List.not_mem_nil t)
  | cons t ts ih =>
    have ho : -1 ≤ findIndexOf t mem p := by
      rcases findIndexOf_spec t mem p with h1 | ⟨k, hk, _⟩ <;> omega
    -- the state after the first cell, and how it relates to the state before
    have key : ∀ pos' len', -1 ≤ pos' → nextLoop mem p (t :: ts) pos len = nextLoop mem p ts pos' len' →
        (pos' = 0 ∨ ∃ t' ∈ ts, findIndexOf t' mem p = 0) →
        (findIndexOf t mem p = 0 → pos' = 0 ∧ t.length ≤ len') →
        (pos = 0 → pos' = 0 ∧ len ≤ len') →
        (pos' = 0 → (pos = 0 ∧ len' = len) ∨ (findIndexOf t mem p = 0 ∧ t.length = len')) →
        (nextLoop mem p (t :: ts) pos len).1 = 0 ∧
          (∀ t' ∈ t :: ts, findIndexOf t' mem p = 0 → t'.length ≤ (nextLoop mem p (t :: ts) pos len).2) ∧
          (pos = 0 → len ≤ (nextLoop mem p (t :: ts) pos len).2) ∧
          ((pos = 0 ∧ (nextLoop mem p (t :: ts) pos len).2 = len) ∨
            ∃ t' ∈ t :: ts, findIndexOf t' mem p = 0 ∧
              t'.length = (nextLoop mem p (t :: ts) pos len).2) := by
      intro pos' len' hp' heq h' ht hpz hback
      obtain ⟨r1, r2, r3, r4⟩ := ih pos' len' hp' h'
      rw [heq]
      refine ⟨r1, ?_, ?_, ?_⟩
      · intro t' ht' hz
        rcases List.mem_cons.mp ht' with rfl | hmem
        · have := ht hz
          have := r3 this.1
          omega
        · exact r2 t' hmem hz
      · intro hz
        have := hpz hz
        have := r3 this.1
        omega
      · rcases r4 with ⟨hz, hl⟩ | ⟨t', ht', hz, hl⟩
        · rcases hback hz with ⟨h1, h2⟩ | ⟨h1, h2⟩
          · left; exact ⟨h1, by rw [hl, h2]⟩
          · right; exact ⟨t, List.mem_cons_self _ _, h1, by rw [hl, h2]⟩
        · right; exact ⟨t', List.mem_cons_of_mem _ ht', hz, hl⟩
    have hrest : ¬ findIndexOf t mem p = 0 → (pos = 0 ∨ ∃ t' ∈ ts, findIndexOf t' mem p = 0) := by
      intro hne
      rcases h with h | ⟨t', ht', hz⟩
      · exact Or.inl h
      · rcases List.mem_cons.mp ht' with rfl | hmem
        · exact absurd hz hne
        · exact Or.inr ⟨t', hmem, hz⟩
    have hrest' : (pos = 0 ∨ findIndexOf t mem p = 0) ∨ ∃ t' ∈ ts, findIndexOf t' mem p = 0 := by
      rcases h with h | ⟨t', ht', hz⟩
      · exact Or.inl (Or.inl h)
      · rcases List.mem_cons.mp ht' with rfl | hmem
        · exact Or.inl (Or.inr hz)
        · exact Or.inr ⟨t', hmem, hz⟩
    by_cases h1 : findIndexOf t mem p > -1
    · by_cases h2 : (pos == -1 || decide (pos ≥ findIndexOf t mem p)) = true
      · by_cases h3 : (pos == findIndexOf t mem p) = true
        · have h3' : pos = findIndexOf t mem p := by simpa using h3
          by_cases h4 : t.length > len
          · refine key pos t.length hpos ?_ ?_ ?_ ?_ ?_
            · conv => lhs; unfold nextLoop
              simp only [h1, h2, h3, h4, if_true]
            · rcases hrest' with (h | h) | h
              · exact Or.inl h
              · exact Or.inl (by omega)
              · exact Or.inr h
            · intro hz; exact ⟨by omega, Nat.le_refl _⟩
            · intro hz; exact ⟨hz, by omega⟩
            · intro hz; right; exact ⟨by omega, rfl⟩
          · refine key pos len hpos ?_ ?_ ?_ ?_ ?_
            · conv => lhs; unfold nextLoop
              simp only [h1, h2, h3, h4, if_true, if_false]
            · rcases hrest' with (h | h) | h
              · exact Or.inl h
              · exact Or.inl (by omega)
              · exact Or.inr h
            · intro hz; exact ⟨by omega, by omega⟩
            · intro hz; exact ⟨hz, Nat.le_refl _⟩
            · intro hz; left; exact ⟨hz, rfl⟩
        · have h3' : pos ≠ findIndexOf t mem p := by simpa using h3
          have h2' : pos = -1 ∨ pos ≥ findIndexOf t mem p := by simpa using h2
          have hpne : pos ≠ 0 := by omega
          refine key (findIndexOf t mem p) t.length ho ?_ ?_ ?_ ?_ ?_
          · conv => lhs; unfold nextLoop
            simp only [h1, h2, h3, if_true, if_false]
            simp
          · rcases hrest' with (h | h) | h
            · exact absurd h hpne
            · exact Or.inl h
            · exact Or.inr h
          · intro hz; exact ⟨hz, Nat.le_refl _⟩
          · intro hz; exact absurd hz hpne
          · intro hz; right; exact ⟨hz, rfl⟩
      · have h2' : ¬ (pos = -1 ∨ pos ≥ findIndexOf t mem p) := by simpa using h2
        have hne : ¬ findIndexOf t mem p = 0 := by omega
        refine key pos len hpos ?_ (hrest hne) ?_ ?_ ?_
        · conv => lhs; unfold nextLoop
          simp only [h1, h2, if_true, if_false]
          simp
        · intro hz; exact absurd hz hne
        · intro hz; exact ⟨hz, Nat.le_refl _⟩
        · intro hz; left; exact ⟨hz, rfl⟩
    · have hne : ¬ findIndexOf t mem p = 0 := by omega
      refine key pos len hpos ?_ (hrest hne) ?_ ?_ ?_
      · conv => lhs; unfold nextLoop
        simp only [h1, if_false]
      · intro hz; exact absurd hz hne
      · intro hz; exact ⟨hz, Nat.le_refl _⟩
      · intro hz; left; exact ⟨hz, rfl⟩

theorem skipSpace_ge (mem : List Nat) (endp n p : Nat) : p ≤ skipSpace mem endp n p := by
  induction n generalizing p with
  | zero => exact Nat.le_refl _
  | succ n ih =>
    unfold skipSpace
    split_ifs
    · exact Nat.le_trans (Nat.le_succ p) (ih (p + 1))
    · exact Nat.le_refl _

theorem skipSpace_le (mem : List Nat) (endp n p : Nat) (h : p ≤ endp) :
    skipSpace mem endp n p ≤ endp := by
  induction n generalizing p with
  | zero => exact h
  | succ n ih =>
    unfold skipSpace
    split_ifs with hc
    · have : p < endp := by simp at hc; exact hc.1
      exact ih (p + 1) this
    · exact h

theorem next_fst (g : Globals) (mem : List Nat) (r : Reader) :
    (next g mem r).1 = ⟨skipSpace mem r.endp (r.endp - r.p) r.p, r.endp⟩ := by
  unfold next
  simp only
  split_ifs <;> rfl

theorem next_start (g : Globals) (mem : List Nat) (r : Reader) :
    (next g mem r).2.start = (next g mem r).1.p := by
  unfold next
  simp only
  split_ifs <;> rfl

theorem next_len (g : Globals) (mem : List Nat) (r : Reader) :
    (next g mem r).2.len =
      if (next g mem r).1.p ≥ r.endp then 0
      else if (nextLoop mem (next g mem r).1.p g.terminators (-1) 0).1 < 0 then
        r.endp - (next g mem r).1.p
      else (nextLoop mem (next g mem r).1.p g.terminators (-1) 0).2 := by
  rw [next_fst]
  unfold next
  simp only
  split_ifs <;> rfl

theorem next_endp (g : Globals) (mem : List Nat) (r : Reader) : (next g mem r).1.endp = r.endp := by
  rw [next_fst]

theorem next_p_ge (g : Globals) (mem : List Nat) (r : Reader) : r.p ≤ (next g mem r).1.p := by
  rw [next_fst]
  exact skipSpace_ge _ _ _ _

/-- A token of non-zero length is returned only with the cursor before `end`. -/
theorem next_len_pos (g : Globals) (mem : List Nat) (r : Reader)
    (h : (next g mem r).2.len ≠ 0) : (next g mem r).1.p < r.endp := by
  rw [next_len] at h
  by_contra hc
  have : (next g mem r).1.p ≥ r.endp := Nat.le_of_not_lt hc
  simp [this] at h

theorem terminators_nonzero :
    ∀ t ∈ (init Globals.start).terminators, ∀ c ∈ t, c ≠ 0 := by decide!

theorem terminators_nonempty :
    ∀ t ∈ (init Globals.start).terminators, t.length ≠ 0 := by decide!

/-- C3. Earliest-then-longest tokenization: when the cursor after the whitespace skip is
before `end` and some terminator lexeme occurs at offset 0 of the remaining input, `next`
returns a token that starts at the cursor and whose length is the greatest length of the
terminator lexemes occurring at offset 0; at `<<2` the token is `<<` and at `**3` it is
`**`. -/
theorem next_earliest_longest (mem : List Nat) (r : Reader)
    (hcur : (next (init Globals.start) mem r).1.p < r.endp)
    (hocc : ∃ t ∈ (init Globals.start).terminators,
      matchAt t mem (next (init Globals.start) mem r).1.p = true) :
    (next (init Globals.start) mem r).2.start = (next (init Globals.start) mem r).1.p ∧
      (∃ t ∈ (init Globals.start).terminators,
        matchAt t mem (next (init Globals.start) mem r).1.p = true ∧
          t.length = (next (init Globals.start) mem r).2.len) ∧
      (∀ t ∈ (init Globals.start).terminators,
        matchAt t mem (next (init Globals.start) mem r).1.p = true →
          t.length ≤ (next (init Globals.start) mem r).2.len) ∧
      (next (init Globals.start) (bytes "<<2") ⟨0, 3⟩).2 = ⟨0, 2⟩ ∧
      (next (init Globals.start) (bytes "**3") ⟨0, 3⟩).2 = ⟨0, 2⟩ := by
  have hzero : ∀ t ∈ (init Globals.start).terminators,
      matchAt t mem (next (init Globals.start) mem r).1.p = true →
        findIndexOf t mem (next (init Globals.start) mem r).1.p = 0 := fun t ht hm =>
    findIndexOf_zero t mem _ hm (strlen_ge_of_matchAt t mem _ hm (terminators_nonzero t ht))
  obtain ⟨t0, ht0, hm0⟩ := hocc
  obtain ⟨z1, z2, _, z4⟩ := nextLoop_zero mem (next (init Globals.start) mem r).1.p
    (init Globals.start).terminators (-1) 0 (by omega) (Or.inr ⟨t0, ht0, hzero t0 ht0 hm0⟩)
  have hlen : (next (init Globals.start) mem r).2.len =
      (nextLoop mem (next (init Globals.start) mem r).1.p
        (init Globals.start).terminators (-1) 0).2 := by
    rw [next_len]
    have h1 : ¬ (next (init Globals.start) mem r).1.p ≥ r.endp := by omega
    simp only [h1, if_false, z1]
    simp
  refine ⟨next_start _ _ _, ?_, ?_, by decide!, by decide!⟩
  · rcases z4 with ⟨hneg, _⟩ | ⟨t, ht, hz, hl⟩
    · omega
    · exact ⟨t, ht, matchAt_of_findIndexOf_zero t mem _ hz, by rw [hlen]; exact hl⟩
  · intro t ht hm
    rw [hlen]
    exact z2 t ht (hzero t ht hm)

theorem next_earliest_longest_witness :
    (next (init Globals.start) (bytes " <<2") ⟨0, 4⟩).1.p < 4 ∧
      (∃ t ∈ (init Globals.start).terminators,
        matchAt t (bytes " <<2") (next (init Globals.start) (bytes " <<2") ⟨0, 4⟩).1.p = true) ∧
      (next (init Globals.start) (bytes " <<2") ⟨0, 4⟩).2.start =
        (next (init Globals.start) (bytes " <<2") ⟨0, 4⟩).1.p :=
  ⟨by decide!, ⟨bytes "<<", by decide!, by decide!⟩,
    (next_earliest_longest (bytes " <<2") ⟨0, 4⟩ (by decide!)
      ⟨bytes "<<", by decide!, by decide!⟩).1⟩

/-- C4 (failing input). At `12+3` the earliest terminator occurrence is `+` at offset 2,
and `next` returns a token of length 1, the length of the lexeme `+`, not the two bytes
`12` that precede it. -/
theorem next_run_length :
    findIndexOf (bytes "+") (bytes "12+3") 0 = 2 ∧
      (∀ t ∈ (init Globals.start).terminators,
        findIndexOf t (bytes "12+3") 0 = -1 ∨ 2 ≤ findIndexOf t (bytes "12+3") 0) ∧
      next (init Globals.start) (bytes "12+3") ⟨0, 4⟩ = (⟨0, 4⟩, ⟨0, 1⟩) := by
  decide!

theorem next_p_le (g : Globals) (mem : List Nat) (r : Reader) (h : r.p ≤ r.endp) :
    (next g mem r).1.p ≤ r.endp := by
  rw [next_fst]
  exact skipSpace_le _ _ _ _ h

/-- A non-empty token ends at or before `end`. -/
theorem next_fit (mem : List Nat) (r : Reader) (hr : r.Valid mem) (g : Globals) :
    (next g mem r).1.p + (next g mem r).2.len ≤ r.endp := by
  have hle := next_p_le g mem r hr.2
  by_cases hlt : (next g mem r).1.p < r.endp
  · rw [next_len]
    have h1 : ¬ (next g mem r).1.p ≥ r.endp := by omega
    simp only [h1, if_false]
    split_ifs with h2
    · omega
    · rcases nextLoop_found mem (next g mem r).1.p g.terminators (-1) 0 with h3 | ⟨t, _, h3, _, h5⟩
      · rw [h3] at h2
        exact absurd (by decide) h2
      · rcases findIndexOf_spec t mem (next g mem r).1.p with h6 | ⟨k, _, h7, _⟩
        · rw [h6] at h3; omega
        · rw [strlen_drop mem _ (by rw [← hr.1]; exact hle), ← hr.1] at h7
          omega
  · rw [next_len]
    have h1 : (next g mem r).1.p ≥ r.endp := by omega
    simp only [h1, if_true]
    omega

/-- With the registered terminators, a zero-length token is returned only at `end`. -/
theorem next_len_zero (mem : List Nat) (r : Reader)
    (h : (next (init Globals.start) mem r).2.len = 0) :
    r.endp ≤ (next (init Globals.start) mem r).1.p := by
  by_contra hc
  rw [next_len] at h
  have h1 : ¬ (next (init Globals.start) mem r).1.p ≥ r.endp := hc
  simp only [h1, if_false] at h
  split_ifs at h with h2
  · omega
  · rcases nextLoop_found mem (next (init Globals.start) mem r).1.p
      (init Globals.start).terminators (-1) 0 with h3 | ⟨t, ht, _, _, h5⟩
    · rw [h3] at h2
      exact absurd (by decide) h2
    · exact terminators_nonempty t ht (by rw [h5]; exact h)

theorem next_at_end (g : Globals) (mem : List Nat) (r : Reader) (h : r.endp ≤ r.p) :
    (next g mem r).2.len = 0 := by
  rw [next_len]
  have := next_p_ge g mem r
  have h1 : (next g mem r).1.p ≥ r.endp := by omega
  simp [h1]

theorem tokenize_terminates (mem : List Nat) (n : Nat) (r : Reader) (hr : r.Valid mem)
    (hn : r.endp - r.p < n) :
    ∃ r', tokenize (init Globals.start) mem n r = some r' ∧ r'.p = r.endp ∧
      r'.endp = r.endp := by
  induction n generalizing r with
  | zero => omega
  | succ n ih =>
    unfold tokenize
    by_cases h0 : (next (init Globals.start) mem r).2.len = 0
    · refine ⟨(next (init Globals.start) mem r).1, by simp [h0], ?_, next_endp _ _ _⟩
      have h1 := next_len_zero mem r h0
      have h2 := next_p_le (init Globals.start) mem r hr.2
      omega
    · have hfit := next_fit mem r hr (init Globals.start)
      have hge := next_p_ge (init Globals.start) mem r
      have hv : (consume (next (init Globals.start) mem r).1
          (next (init Globals.start) mem r).2).Valid mem := by
        refine ⟨?_, ?_⟩
        · show (next (init Globals.start) mem r).1.endp = _
          rw [next_endp]; exact hr.1
        · show (next (init Globals.start) mem r).1.p + _ ≤ (next (init Globals.start) mem r).1.endp
          rw [next_endp]; exact hfit
      have hlt : (consume (next (init Globals.start) mem r).1
          (next (init Globals.start) mem r).2).endp -
          (consume (next (init Globals.start) mem r).1
            (next (init Globals.start) mem r).2).p < n := by
        show (next (init Globals.start) mem r).1.endp -
          ((next (init Globals.start) mem r).1.p + (next (init Globals.start) mem r).2.len) < n
        rw [next_endp]
        omega
      obtain ⟨r', h1, h2, h3⟩ := ih _ hv hlt
      have he : (consume (next (init Globals.start) mem r).1
          (next (init Globals.start) mem r).2).endp = r.endp := by
        show (next (init Globals.start) mem r).1.endp = _
        rw [next_endp]
      refine ⟨r', ?_, ?_, ?_⟩
      · simp only [beq_iff_eq, h0, if_false]
        exact h1
      · rw [h2, he]
      · rw [h3, he]

/-- C5. Tokenization is total: on a reader of the input, a `next`/`consume` cycle that
returns a non-empty token moves the cursor forward by at least one byte and not beyond
`end`, and iterating the cycles reaches a zero-length token after at most
`end - p + 1` calls of `next`, with the cursor exactly at `end`. -/
theorem tokenization_total (mem : List Nat) (r : Reader) (hr : r.Valid mem) :
    ((next (init Globals.start) mem r).2.len ≠ 0 →
        r.p + 1 ≤ (consume (next (init Globals.start) mem r).1
          (next (init Globals.start) mem r).2).p ∧
        (consume (next (init Globals.start) mem r).1
          (next (init Globals.start) mem r).2).p ≤ r.endp) ∧
      ∃ r', tokenize (init Globals.start) mem (r.endp - r.p + 1) r = some r' ∧
        r'.p = r.endp ∧ (next (init Globals.start) mem r').2.len = 0 := by
  refine ⟨?_, ?_⟩
  · intro h0
    have hfit := next_fit mem r hr (init Globals.start)
    have hge := next_p_ge (init Globals.start) mem r
    refine ⟨?_, hfit⟩
    show r.p + 1 ≤ (next (init Globals.start) mem r).1.p + (next (init Globals.start) mem r).2.len
    omega
  · obtain ⟨r', h1, h2, h3⟩ := tokenize_terminates mem (r.endp - r.p + 1) r hr (by omega)
    exact ⟨r', h1, h2, next_at_end _ mem r' (by omega)⟩

theorem tokenization_total_witness :
    (⟨0, 4⟩ : Reader).Valid (bytes "12+3") ∧
      ∃ r', tokenize (init Globals.start) (bytes "12+3") (4 - 0 + 1) ⟨0, 4⟩ = some r' ∧
        r'.p = 4 ∧ (next (init Globals.start) (bytes "12+3") r').2.len = 0 :=
  ⟨⟨by decide, by decide⟩, (tokenization_total (bytes "12+3") ⟨0, 4⟩ ⟨by decide, by decide⟩).2⟩


/-! ## B-tree search and the operator tables -/

theorem entries_mem_of_slot (n : Nat) (k : List Nat) (d : List (Option α))
    (c0 c1 c2 c3 : BTreeNode α) (l : Bool) (i : Nat) (hi : i < n) :
    (k.getD i 0, d.getD i none) ∈ entries (BTreeNode.node n k d c0 c1 c2 c3 l) := by
  unfold entries
  apply List.mem_append_left
  exact List.mem_map.mpr ⟨i, List.mem_range.mpr hi, rfl⟩

/-- What `bTreeSearch` returns is the data of a slot in use that holds the key. -/
theorem bTreeSearch_mem (t : BTreeNode α) (key : Nat) (x : α)
    (h : bTreeSearch t key = some x) : (key, some x) ∈ entries t := by
  induction t with
  | null => simp [bTreeSearch] at h
  | node n k d c0 c1 c2 c3 l ih0 ih1 ih2 ih3 =>
    unfold bTreeSearch at h
    simp only at h
    split_ifs at h with h1 h2
    · simp only [Bool.and_eq_true, decide_eq_true_eq, beq_iff_eq] at h1
      have := entries_mem_of_slot n k d c0 c1 c2 c3 l _ h1.1
      simp only [BTreeNode.datum, BTreeNode.data] at h
      simp only [BTreeNode.key, BTreeNode.keys] at h1
      rw [h, ← h1.2] at this
      exact this
    · split at h
      · unfold entries
        exact List.mem_append_right _ (List.mem_append_left _ (ih0 h))
      · unfold entries
        exact List.mem_append_right _ (List.mem_append_right _ (List.mem_append_left _ (ih1 h)))
      · unfold entries
        exact List.mem_append_right _ (List.mem_append_right _
          (List.mem_append_right _ (List.mem_append_left _ (ih2 h))))
      · unfold entries
        exact List.mem_append_right _ (List.mem_append_right _
          (List.mem_append_right _ (List.mem_append_right _ (ih3 h))))
      · simp at h

theorem tables_known : (init Globals.start).TablesKnown := by
  have hu : ∀ e ∈ entries (init Globals.start).unaries, ∀ op, e.2 = some op →
      isUnaryOp op.output = true := by
    decide!
  have hb : ∀ e ∈ entries (init Globals.start).binaries, ∀ op, e.2 = some op →
      isBinaryOp op.output = true := by
    decide!
  refine ⟨?_, ?_, by decide!⟩
  · intro k op h
    exact hu _ (bTreeSearch_mem _ k op h) op rfl
  · intro k op h
    exact hb _ (bTreeSearch_mem _ k op h) op rfl

/-! ## Parser lemmas: what the parser functions return -/

theorem digitLoop_ge (mem : List Nat) (base n p : Nat) (z : Int) :
    p ≤ (digitLoop mem base n p z).1 := by
  induction n generalizing p z with
  | zero => exact Nat.le_refl _
  | succ n ih =>
    unfold digitLoop
    simp only
    split_ifs
    · exact Nat.le_trans (Nat.le_succ p) (ih (p + 1) _)
    · exact Nat.le_refl _

theorem dotLoop_fst (mem : List Nat) (n p : Nat) (b : Bool) : (dotLoop mem n p b).1 = p + n := by
  induction n generalizing p b with
  | zero => rfl
  | succ n ih =>
    unfold dotLoop
    rw [ih]
    omega

theorem hexLoop_ge (mem : List Nat) (endp n p : Nat) (z : Int) :
    p ≤ (hexLoop mem endp n p z).1 := by
  induction n generalizing p z with
  | zero => exact Nat.le_refl _
  | succ n ih =>
    unfold hexLoop
    simp only
    split_ifs
    · exact Nat.le_trans (Nat.le_succ p) (ih (p + 1) _)
    · exact Nat.le_trans (Nat.le_succ p) (ih (p + 1) _)
    · exact Nat.le_trans (Nat.le_succ p) (ih (p + 1) _)
    · exact Nat.le_refl _
    · exact Nat.le_refl _

theorem octLoop_ge (mem : List Nat) (endp n p : Nat) (z : Int) :
    p ≤ (octLoop mem endp n p z).1 := by
  induction n generalizing p z with
  | zero => exact Nat.le_refl _
  | succ n ih =>
    unfold octLoop
    simp only
    split_ifs
    · exact Nat.le_trans (Nat.le_succ p) (ih (p + 1) _)
    · exact Nat.le_refl _
    · exact Nat.le_refl _

theorem utf8_ge (mem : List Nat) (p : Nat) : p ≤ (utf8 mem p).1 := by
  unfold utf8
  simp only
  split_ifs <;> simp

theorem expect_spec (mem : List Nat) (r : Reader) (e : Option (List Nat)) (c : Nat) :
    (expect mem r e c).1.endp = r.endp ∧ r.p ≤ (expect mem r e c).1.p ∧
      ((expect mem r e c).2.2 = false → (expect mem r e c).2.1 ≠ none) ∧
      ((expect mem r e c).2.2 = true → (expect mem r e c).2.1 = e) := by
  unfold expect
  split_ifs <;> simp

theorem leaf_returns (mp : Mp F) (mem : List Nat) (r : Reader) (e : Option (List Nat))
    (prev : Value F) : Returns r e (leaf mp mem r e prev) := by
  unfold leaf
  simp only
  split_ifs
  all_goals unfold Returns
  all_goals first
    | (simp [Tree.isNull, wellFormed]; done)
    | (simp [Tree.isNull, wellFormed]
       exact Nat.le_trans (by omega) (digitLoop_ge _ _ _ _ _))
    | (split
       · simp [Tree.isNull]
       · split_ifs <;> simp [Tree.isNull, wellFormed, dotLoop_fst])

theorem le_ite_fst {c : Prop} [Decidable c] {p : Nat} {a b : Nat × Int} (ha : p ≤ a.1)
    (hb : p ≤ b.1) : p ≤ (if c then a else b).1 := by
  by_cases h : c
  · rw [if_pos h]; exact ha
  · rw [if_neg h]; exact hb

theorem escape_ge (mem : List Nat) (endp p : Nat) : p ≤ (escape mem endp p).1 := by
  unfold escape
  simp only
  repeat' apply le_ite_fst
  all_goals first
    | exact octLoop_ge mem endp _ p 0
    | exact Nat.le_trans (Nat.le_succ p) (hexLoop_ge mem endp _ (p + 1) 0)
    | exact Nat.le_succ p

theorem parseChar_returns (mp : Mp F) (mem : List Nat) (r : Reader) (e : Option (List Nat)) :
    Returns r e (parseChar mp mem r e) := by
  unfold parseChar
  simp only
  split_ifs
  all_goals unfold Returns
  all_goals first
    | (simp [Tree.isNull, wellFormed]; done)
    | (simp [Tree.isNull, wellFormed]
       first
        | exact Nat.le_trans (Nat.le_succ _) (escape_ge mem r.endp (r.p + 1))
        | exact utf8_ge _ _)

theorem Returns.chain {r r' : Reader} {e : Option (List Nat)}
    {res : Tree F × Reader × Option (List Nat)} (h1 : r'.endp = r.endp) (h2 : r.p ≤ r'.p)
    (h : Returns r' e res) : Returns r e res :=
  ⟨h.1.trans h1, Nat.le_trans h2 h.2.1, h.2.2.1, h.2.2.2⟩

theorem Returns.null {r r' : Reader} {e e' : Option (List Nat)} {t : Tree F}
    (h : Returns r e (t, r', e')) (ht : t.isNull = true) :
    Returns r e ((.null : Tree F), r', e') :=
  ⟨h.1, h.2.1, fun _ => h.2.2.1 ht, fun hn => by simp [Tree.isNull] at hn⟩

theorem consume_next_endp (g : Globals) (mem : List Nat) (r : Reader) :
    (consume (next g mem r).1 (next g mem r).2).endp = r.endp := by
  show (next g mem r).1.endp = r.endp
  exact next_endp g mem r

theorem consume_next_p (g : Globals) (mem : List Nat) (r : Reader) :
    r.p ≤ (consume (next g mem r).1 (next g mem r).2).p := by
  show r.p ≤ (next g mem r).1.p + _
  exact Nat.le_trans (next_p_ge g mem r) (Nat.le_add_right _ _)

/-- The tail of the `(` and `'` cases of `primary`: the call of `expect` behind a tree. -/
theorem expect_returns (mem : List Nat) (r r' : Reader) (e e' : Option (List Nat)) (t : Tree F)
    (c : Nat) (res : Tree F × Reader × Option (List Nat)) (h : Returns r e (t, r', e'))
    (ht : t.isNull = false)
    (hres : (if !(expect mem r' e' c).2.2 then
        some ((.null : Tree F), (expect mem r' e' c).1, (expect mem r' e' c).2.1)
      else some (t, (expect mem r' e' c).1, (expect mem r' e' c).2.1)) = some res) :
    Returns r e res := by
  obtain ⟨x1, x2, x3, x4⟩ := expect_spec mem r' e' c
  obtain ⟨h1, h2, _, h4⟩ := h
  have h4 := h4 ht
  cases hb : (expect mem r' e' c).2.2
  · simp only [hb, Bool.not_false, if_true, Option.some.injEq] at hres
    subst hres
    exact ⟨x1.trans h1, Nat.le_trans h2 x2, fun _ => x3 hb, fun hn => by simp [Tree.isNull] at hn⟩
  · simp only [hb, Bool.not_true, Bool.false_eq_true, if_false, Option.some.injEq] at hres
    subst hres
    exact ⟨x1.trans h1, Nat.le_trans h2 x2, fun hn => by simp [ht] at hn,
      fun _ => ⟨(x4 hb).trans h4.1, h4.2⟩⟩

/-- Every return of `parse`, of `primary` and of the loop of `parse` leaves `end` in place,
does not move the cursor back, and comes either with a `NULL` tree and an error message
or with a well-formed tree and the error slot as it was. -/
theorem parser_returns (mp : Mp F) (g : Globals) (hg : g.TablesKnown) (mem : List Nat)
    (prev : Value F) (fuel : Nat) :
    (∀ prec r e res, parse mp g mem prev fuel prec r e = some res → Returns r e res) ∧
      (∀ r e res, primary mp g mem prev fuel r e = some res → Returns r e res) ∧
      (∀ prec t r tok e res, t.isNull = false → wellFormed t = true →
        parseLoop mp g mem prev fuel prec t r tok e = some res → Returns r e res) := by
  induction fuel with
  | zero =>
    refine ⟨?_, ?_, ?_⟩
    · intro prec r e res h; simp [parse] at h
    · intro r e res h; simp [primary] at h
    · intro prec t r tok e res _ _ h; simp [parseLoop] at h
  | succ fuel ih =>
    obtain ⟨ihParse, ihPrimary, ihLoop⟩ := ih
    refine ⟨?_, ?_, ?_⟩
    · -- parse
      intro prec r e res h
      simp only [parse] at h
      cases hp : primary mp g mem prev fuel r e with
      | none => simp [hp] at h
      | some x =>
        obtain ⟨t, r1, e1⟩ := x
        have h1 := ihPrimary r e _ hp
        simp only [hp] at h
        cases ht : t.isNull
        · simp only [ht, Bool.false_eq_true, if_false] at h
          have h2 := ihLoop prec t _ _ e1 res ht (h1.2.2.2 ht).2 h
          have h3 : Returns r1 e1 res :=
            Returns.chain (next_endp g mem r1) (next_p_ge g mem r1) h2
          have h4 := (h1.2.2.2 ht).1
          simp only at h4
          rw [h4] at h3
          exact Returns.chain h1.1 h1.2.1 h3
        · simp only [ht, if_true, Option.some.injEq] at h
          subst h
          exact Returns.null h1 ht
    · -- primary
      intro r e res h
      simp only [primary] at h
      by_cases h0 : ((next g mem r).2.len == 0) = true
      · simp only [h0, if_true, Option.some.injEq] at h
        subst h
        exact ⟨next_endp g mem r, next_p_ge g mem r, fun _ => by simp,
          fun hn => by simp [Tree.isNull] at hn⟩
      · simp only [h0, Bool.false_eq_true, if_false] at h
        cases hu : bTreeSearch g.unaries (djb2 mem (next g mem r).2.start (next g mem r).2.len) with
        | some op =>
          simp only [hu] at h
          cases hp : parse mp g mem prev fuel op.prec (consume (next g mem r).1 (next g mem r).2) e with
          | none => simp [hp] at h
          | some x =>
            obtain ⟨t, r1, e1⟩ := x
            have h1 := Returns.chain (consume_next_endp g mem r) (consume_next_p g mem r)
              (ihParse _ _ _ _ hp)
            simp only [hp] at h
            cases ht : t.isNull
            · simp only [ht, Bool.false_eq_true, if_false, Option.some.injEq] at h
              subst h
              refine ⟨h1.1, h1.2.1, fun hn => by simp [branch, Tree.isNull] at hn, fun _ => ?_⟩
              refine ⟨(h1.2.2.2 ht).1, ?_⟩
              have hk := (h1.2.2.2 ht).2
              simp only at hk
              have hn : (Tree.null : Tree F).isNull = true := rfl
              simp [branch, wellFormed, ht, hn, hk, hg.1 _ _ hu]
            · simp only [ht, if_true, Option.some.injEq] at h
              subst h
              exact Returns.null h1 ht
        | none =>
          simp only [hu] at h
          by_cases hparen : (peek mem (next g mem r).2.start == 40) = true
          · simp only [hparen, if_true] at h
            cases hp : parse mp g mem prev fuel 0 (consume (next g mem r).1 (next g mem r).2) e with
            | none => simp [hp] at h
            | some x =>
              obtain ⟨t, r1, e1⟩ := x
              have h1 := Returns.chain (consume_next_endp g mem r) (consume_next_p g mem r)
                (ihParse _ _ _ _ hp)
              simp only [hp] at h
              cases ht : t.isNull
              · simp only [ht, Bool.false_eq_true, if_false] at h
                exact expect_returns mem r r1 e e1 t 41 res h1 ht h
              · simp only [ht, if_true, Option.some.injEq] at h
                subst h
                exact Returns.null h1 ht
          · simp only [hparen, Bool.false_eq_true, if_false] at h
            by_cases hquote : (peek mem (next g mem r).2.start == 39) = true
            · simp only [hquote, if_true] at h
              have h1 := Returns.chain (consume_next_endp g mem r) (consume_next_p g mem r)
                (parseChar_returns mp mem (consume (next g mem r).1 (next g mem r).2) e)
              generalize parseChar mp mem (consume (next g mem r).1 (next g mem r).2) e = x at h h1
              obtain ⟨t, r1, e1⟩ := x
              simp only at h
              cases ht : t.isNull
              · simp only [ht, Bool.false_eq_true, if_false] at h
                exact expect_returns mem r r1 e e1 t 39 res h1 ht h
              · simp only [ht, if_true, Option.some.injEq] at h
                subst h
                exact Returns.null h1 ht
            · simp only [hquote, Bool.false_eq_true, if_false, Option.some.injEq] at h
              subst h
              exact Returns.chain (next_endp g mem r) (next_p_ge g mem r)
                (leaf_returns mp mem (next g mem r).1 e prev)
    · -- the loop of parse
      intro prec t r tok e res ht hk h
      simp only [parseLoop] at h
      cases hb : bTreeSearch g.binaries (djb2 mem tok.start tok.len) with
      | none =>
        simp only [hb, Option.some.injEq] at h
        subst h
        exact ⟨rfl, Nat.le_refl _, fun hn => by simp [ht] at hn, fun _ => ⟨rfl, hk⟩⟩
      | some op =>
        simp only [hb] at h
        by_cases hprec : op.prec ≥ prec
        · simp only [hprec, if_true] at h
          cases hp : parse mp g mem prev fuel (subprec op) (consume r tok) e with
          | none => simp [hp] at h
          | some x =>
            obtain ⟨t2, r1, e1⟩ := x
            have h1 : Returns r e (t2, r1, e1) :=
              Returns.chain (show (consume r tok).endp = r.endp from rfl)
                (show r.p ≤ (consume r tok).p from Nat.le_add_right _ _) (ihParse _ _ _ _ hp)
            simp only [hp] at h
            cases ht2 : t2.isNull
            · simp only [ht2, Bool.false_eq_true, if_false] at h
              have hk2 := (h1.2.2.2 ht2).2
              simp only at hk2
              have h2 := ihLoop prec (branch op t t2) _ _ e1 res (by simp [branch, Tree.isNull])
                (by simp [branch, wellFormed, ht, ht2, hk, hk2, hg.2.1 _ _ hb]) h
              have h3 : Returns r1 e1 res :=
                Returns.chain (next_endp g mem r1) (next_p_ge g mem r1) h2
              have h4 := (h1.2.2.2 ht2).1
              simp only at h4
              rw [h4] at h3
              exact Returns.chain h1.1 h1.2.1 h3
            · simp only [ht2, if_true, Option.some.injEq] at h
              subst h
              exact Returns.null h1 ht2
        · simp only [hprec, if_false, Option.some.injEq] at h
          subst h
          exact ⟨rfl, Nat.le_refl _, fun hn => by simp [ht] at hn, fun _ => ⟨rfl, hk⟩⟩

theorem next_tok_at_end (g : Globals) (mem : List Nat) (r : Reader) :
    (next g mem r).1.endp ≤ (next g mem r).1.p → (next g mem r).2.len = 0 := by
  intro h
  by_contra hc
  have := next_len_pos g mem r hc
  rw [next_endp] at h
  omega

/-- The parser functions return whenever the bound on the call depth is at least three
times the number of bytes left (plus 2 for `parse`, plus 1 for `primary` and the loop). -/
theorem parser_total (mp : Mp F) (g : Globals) (hg : g.TablesKnown) (mem : List Nat)
    (prev : Value F) (fuel : Nat) :
    (∀ prec r e, 3 * (r.endp - r.p) + 2 ≤ fuel →
        ∃ res, parse mp g mem prev fuel prec r e = some res) ∧
      (∀ r e, 3 * (r.endp - r.p) + 1 ≤ fuel → ∃ res, primary mp g mem prev fuel r e = some res) ∧
      (∀ prec t r tok e, (r.endp ≤ r.p → tok.len = 0) → 3 * (r.endp - r.p) + 1 ≤ fuel →
        ∃ res, parseLoop mp g mem prev fuel prec t r tok e = some res) := by
  induction fuel with
  | zero =>
    refine ⟨?_, ?_, ?_⟩
    · intro prec r e h; omega
    · intro r e h; omega
    · intro prec t r tok e _ h; omega
  | succ fuel ih =>
    obtain ⟨ihParse, ihPrimary, ihLoop⟩ := ih
    refine ⟨?_, ?_, ?_⟩
    · intro prec r e hf
      simp only [parse]
      obtain ⟨x, hp⟩ := ihPrimary r e (by omega)
      obtain ⟨t, r1, e1⟩ := x
      have h1 := (parser_returns mp g hg mem prev fuel).2.1 r e _ hp
      simp only [hp]
      cases ht : t.isNull
      · simp only [Bool.false_eq_true, if_false]
        have hend : (next g mem r1).1.endp = r.endp := (next_endp g mem r1).trans h1.1
        have hp1 : r.p ≤ (next g mem r1).1.p := Nat.le_trans h1.2.1 (next_p_ge g mem r1)
        exact ihLoop prec t _ _ e1 (next_tok_at_end g mem r1) (by rw [hend]; omega)
      · exact ⟨_, rfl⟩
    · intro r e hf
      simp only [primary]
      by_cases h0 : ((next g mem r).2.len == 0) = true
      · exact ⟨_, if_pos h0⟩
      · simp only [h0, Bool.false_eq_true, if_false]
        have hlen : (next g mem r).2.len ≠ 0 := by simpa using h0
        have hlt := next_len_pos g mem r hlen
        have hge := next_p_ge g mem r
        have hfuel : 3 * ((consume (next g mem r).1 (next g mem r).2).endp -
            (consume (next g mem r).1 (next g mem r).2).p) + 2 ≤ fuel := by
          show 3 * ((next g mem r).1.endp - ((next g mem r).1.p + (next g mem r).2.len)) + 2 ≤ fuel
          rw [next_endp]
          omega
        cases hu : bTreeSearch g.unaries (djb2 mem (next g mem r).2.start (next g mem r).2.len) with
        | some op =>
          simp only
          obtain ⟨x, hp⟩ := ihParse op.prec _ e hfuel
          obtain ⟨t, r1, e1⟩ := x
          simp only [hp]
          cases ht : t.isNull
          · exact ⟨_, rfl⟩
          · exact ⟨_, rfl⟩
        | none =>
          simp only
          by_cases hparen : (peek mem (next g mem r).2.start == 40) = true
          · simp only [hparen, if_true]
            obtain ⟨x, hp⟩ := ihParse 0 _ e hfuel
            obtain ⟨t, r1, e1⟩ := x
            simp only [hp]
            cases ht : t.isNull
            · cases hb : (expect mem r1 e1 41).2.2
              · exact ⟨_, rfl⟩
              · exact ⟨_, rfl⟩
            · exact ⟨_, rfl⟩
          · simp only [hparen, Bool.false_eq_true, if_false]
            by_cases hquote : (peek mem (next g mem r).2.start == 39) = true
            · simp only [hquote, if_true]
              generalize parseChar mp mem (consume (next g mem r).1 (next g mem r).2) e = x
              obtain ⟨t, r1, e1⟩ := x
              simp only
              cases ht : t.isNull
              · cases hb : (expect mem r1 e1 39).2.2
                · exact ⟨_, rfl⟩
                · exact ⟨_, rfl⟩
              · exact ⟨_, rfl⟩
            · exact ⟨_, if_neg hquote⟩
    · intro prec t r tok e htok hf
      simp only [parseLoop]
      cases hb : bTreeSearch g.binaries (djb2 mem tok.start tok.len) with
      | none => exact ⟨_, rfl⟩
      | some op =>
        simp only
        by_cases hprec : op.prec ≥ prec
        · simp only [hprec, if_true]
          have hlen : tok.len ≠ 0 := by
            intro hz
            rw [hz] at hb
            have : djb2 mem tok.start 0 = 5381 := rfl
            rw [this, hg.2.2] at hb
            exact absurd hb (by simp)
          have hlt : r.p < r.endp := by
            by_contra hc
            exact hlen (htok (Nat.le_of_not_lt hc))
          obtain ⟨x, hp⟩ := ihParse (subprec op) (consume r tok) e (by
            show 3 * (r.endp - (r.p + tok.len)) + 2 ≤ fuel
            omega)
          obtain ⟨t2, r1, e1⟩ := x
          have h1 := (parser_returns mp g hg mem prev fuel).1 _ _ _ _ hp
          simp only [hp]
          cases ht2 : t2.isNull
          · simp only [Bool.false_eq_true, if_false]
            have hend : (next g mem r1).1.endp = r.endp := (next_endp g mem r1).trans h1.1
            have hp1 : r.p + tok.len ≤ (next g mem r1).1.p :=
              Nat.le_trans h1.2.1 (next_p_ge g mem r1)
            exact ihLoop prec _ _ _ e1 (next_tok_at_end g mem r1) (by rw [hend]; omega)
          · exact ⟨_, rfl⟩
        · exact ⟨_, if_neg hprec⟩

/-- The call of `parse` in `calculate` returns: the bound `3 * strlen + 2` is never
used up. -/
theorem parse_total (mp : Mp F) (g : Globals) (hg : g.TablesKnown) (e : List Nat) (prev : Value F)
    (m : Option (List Nat)) :
    ∃ t r err, parse mp g e prev (3 * strlen e 0 + 2) 0 ⟨0, strlen e 0⟩ m = some (t, r, err) ∧
      Returns ⟨0, strlen e 0⟩ m (t, r, err) := by
  obtain ⟨⟨t, r, err⟩, h⟩ :=
    (parser_total mp g hg e prev (3 * strlen e 0 + 2)).1 0 ⟨0, strlen e 0⟩ m (by simp)
  exact ⟨t, r, err, h, (parser_returns mp g hg e prev _).1 _ _ _ _ h⟩


/-! ## The evaluator and the error slot -/

theorem evalSwitch_flag (mp : Mp F) (output : Nat) (l : Value F) (r : Option (Value F))
    (x : Value F × Bool) (ho : output ≤ 20) (h : evalSwitch mp output l r = some x) :
    x.2 = false := by
  unfold evalSwitch at h
  interval_cases output <;>
    simp [OR, XOR, AND, SHL, SHR, ADD, SUB, MUL, DIV, MOD, NEG, POS, NOT, POW, SQRT, COS, SIN, TAN,
      FLOOR, CEIL, ROUND, Option.bind_eq_some] at h <;>
    first
      | (obtain ⟨_, _, rfl⟩ := h; rfl)
      | (obtain ⟨_, _, _, _, rfl⟩ := h; rfl)

theorem evalReturn_error (x : Option (Value F × Bool)) (e : Option (List Nat))
    (res : Value F × Option (List Nat)) (hx : ∀ y, x = some y → y.2 = false)
    (h : evalReturn x e = some res) : res.2 = e := by
  unfold evalReturn at h
  cases x with
  | none => simp at h
  | some y =>
    have := hx y rfl
    simp only [Option.map_some', this, Bool.false_eq_true, if_false, Option.some.injEq] at h
    rw [← h]

theorem output_le_of_unary (o : Nat) (h : isUnaryOp o = true) : o ≤ 20 := by
  simp [isUnaryOp, NEG, POS, NOT, SQRT, COS, SIN, TAN, FLOOR, CEIL, ROUND] at h
  omega

theorem output_le_of_binary (o : Nat) (h : isBinaryOp o = true) : o ≤ 20 := by
  simp [isBinaryOp, OR, XOR, AND, SHL, SHR, ADD, SUB, MUL, DIV, MOD, POW] at h
  omega

/-- On a well-formed tree `eval` leaves the error slot as it was. -/
theorem eval_error (mp : Mp F) (t : Tree F) (e : Option (List Nat))
    (res : Value F × Option (List Nat)) (hk : wellFormed t = true) (h : eval mp t e = some res) :
    res.2 = e := by
  induction t generalizing e res with
  | null => simp [eval] at h
  | leaf v =>
    simp only [eval, Option.some.injEq] at h
    rw [← h]
  | branch op left right ihl ihr =>
    simp only [wellFormed, Bool.and_eq_true, Bool.not_eq_true'] at hk
    obtain ⟨⟨_, hkl⟩, hkr⟩ := hk
    simp only [eval] at h
    cases hl : eval mp left e with
    | none => simp [hl] at h
    | some x =>
      obtain ⟨l, e1⟩ := x
      have h1 : e1 = e := ihl e _ hkl hl
      subst h1
      simp only [hl] at h
      cases hn : right.isNull
      · simp only [hn, Bool.false_eq_true, if_false, Bool.and_eq_true] at h hkr
        cases hr : eval mp right e1 with
        | none => simp [hr] at h
        | some y =>
          obtain ⟨r, e2⟩ := y
          have h2 : e2 = e1 := ihr e1 _ hkr.2 hr
          subst h2
          simp only [hr] at h
          exact evalReturn_error _ _ _
            (fun y hy => evalSwitch_flag mp _ _ _ y (output_le_of_binary _ hkr.1) hy) h
      · simp only [hn, if_true] at h hkr
        exact evalReturn_error _ _ _
          (fun y hy => evalSwitch_flag mp _ _ _ y (output_le_of_unary _ hkr) hy) h

/-! ## calculate -/

theorem tables_errorMsg :
    (⟨(init Globals.start).unaries, (init Globals.start).binaries,
      (init Globals.start).terminators, none⟩ : Globals) = init Globals.start := by
  decide!

theorem tables_terminators : (init Globals.start).terminators.isEmpty = false := by decide!

/-- The globals as `calculate` holds them at its call of `parse`, for a state in which
the tables are built. -/
theorem calculate_of_tables (mp : Mp F) (g : Globals) (m : Option (List Nat))
    (hg : (if g.terminators.isEmpty then init g else g) =
      ⟨(init Globals.start).unaries, (init Globals.start).binaries,
        (init Globals.start).terminators, m⟩)
    (e : List Nat) (prev : Value F) :
    calculate mp g e prev =
      match parse mp (init Globals.start) e prev (3 * strlen e 0 + 2) 0 ⟨0, strlen e 0⟩ none with
      | none => none
      | some (t, r, err) =>
        if t.isNull then
          some (⟨none, 0, mp.init⟩, { init Globals.start with errorMsg := err })
        else if r.p != r.endp then
          some (⟨none, 0, mp.init⟩,
            { init Globals.start with errorMsg := some (bytes "Expected operator") })
        else
          match eval mp t err with
          | none => none
          | some (prev, errorMsg) =>
            some (if prev.isF then ⟨some prev.isF, 0, prev.f⟩
              else ⟨some prev.isF, prev.z, mp.init⟩,
              { init Globals.start with errorMsg := errorMsg }) := by
  unfold calculate
  simp only
  rw [hg]
  simp only
  rw [tables_errorMsg]

theorem reachable_tables (g : Globals) (hg : g.Reachable) :
    ∃ m, (if g.terminators.isEmpty then init g else g) =
      ⟨(init Globals.start).unaries, (init Globals.start).binaries,
        (init Globals.start).terminators, m⟩ := by
  rcases hg with rfl | ⟨m, rfl⟩
  · exact ⟨none, by rw [tables_errorMsg]; rfl⟩
  · refine ⟨m, ?_⟩
    have : ({ init Globals.start with errorMsg := m } : Globals).terminators.isEmpty = false :=
      tables_terminators
    rw [this]
    rfl

theorem reachable_tables_set (g : Globals) (hg : g.Reachable) (m : Option (List Nat)) :
    (if ({ g with errorMsg := m } : Globals).terminators.isEmpty then init { g with errorMsg := m }
      else { g with errorMsg := m }) =
      ⟨(init Globals.start).unaries, (init Globals.start).binaries,
        (init Globals.start).terminators, m⟩ := by
  rcases hg with rfl | ⟨m', rfl⟩
  · rfl
  · have : ({ ({ init Globals.start with errorMsg := m' } : Globals) with
        errorMsg := m } : Globals).terminators.isEmpty = false := tables_terminators
    rw [this]
    rfl

/-- C6. Error channel: the result of `calculate`, error slot included, is the same
whatever message an earlier call left in the slot; after the call `calcError` is null
exactly when the call of `parse` returned a tree with the cursor at `end`; and when it
returned a tree with input left, the message is `Expected operator`. -/
theorem error_channel (mp : Mp F) (g : Globals) (hg : g.Reachable) (e : List Nat)
    (prev : Value F) :
    (∀ m, calculate mp { g with errorMsg := m } e prev = calculate mp g e prev) ∧
      ∃ t r err,
        parse mp (init Globals.start) e prev (3 * strlen e 0 + 2) 0 ⟨0, strlen e 0⟩ none =
          some (t, r, err) ∧
        ∀ v g', calculate mp g e prev = some (v, g') →
          (calcError g' = none ↔ (t.isNull = false ∧ r.p = r.endp)) ∧
          (t.isNull = false → r.p ≠ r.endp →
            calcError g' = some (bytes "Expected operator")) := by
  obtain ⟨m0, hm0⟩ := reachable_tables g hg
  refine ⟨?_, ?_⟩
  · intro m
    rw [calculate_of_tables mp _ m (reachable_tables_set g hg m) e prev,
      calculate_of_tables mp g m0 hm0 e prev]
  · obtain ⟨t, r, err, hp, hret⟩ := parse_total mp (init Globals.start) tables_known e prev none
    refine ⟨t, r, err, hp, ?_⟩
    intro v g' hc
    rw [calculate_of_tables mp g m0 hm0 e prev, hp] at hc
    simp only at hc
    cases ht : t.isNull
    · have hk := hret.2.2.2 ht
      simp only at hk
      simp only [ht, Bool.false_eq_true, if_false] at hc
      by_cases hpe : r.p = r.endp
      · have hne : (r.p != r.endp) = false := by simp [hpe]
        simp only [hne, Bool.false_eq_true, if_false] at hc
        cases hev : eval mp t err with
        | none => simp [hev] at hc
        | some x =>
          obtain ⟨pv, e2⟩ := x
          have he2 : e2 = err := eval_error mp t err _ hk.2 hev
          simp only [hev, Option.some.injEq, Prod.mk.injEq] at hc
          refine ⟨?_, fun _ h => absurd hpe h⟩
          rw [← hc.2]
          simp [calcError, he2, hk.1, hpe]
      · have hne : (r.p != r.endp) = true := by simp [hpe]
        simp only [hne, if_true, Option.some.injEq, Prod.mk.injEq] at hc
        rw [← hc.2]
        simp [calcError, hpe]
    · have hk := hret.2.2.1 ht
      simp only at hk
      simp only [ht, if_true, Option.some.injEq, Prod.mk.injEq] at hc
      rw [← hc.2]
      simp [calcError, hk]

theorem error_channel_witness :
    Globals.start.Reachable ∧
      (∀ m, calculate exactMp { Globals.start with errorMsg := m } (bytes "1 + 2 3") ⟨false, 0, 0⟩ =
        calculate exactMp Globals.start (bytes "1 + 2 3") ⟨false, 0, 0⟩) ∧
      ∃ t r err,
        parse exactMp (init Globals.start) (bytes "1 + 2 3") ⟨false, 0, 0⟩
          (3 * strlen (bytes "1 + 2 3") 0 + 2) 0 ⟨0, strlen (bytes "1 + 2 3") 0⟩ none =
            some (t, r, err) ∧
        ∀ v g', calculate exactMp Globals.start (bytes "1 + 2 3") ⟨false, 0, 0⟩ = some (v, g') →
          (calcError g' = none ↔ (t.isNull = false ∧ r.p = r.endp)) ∧
          (t.isNull = false → r.p ≠ r.endp →
            calcError g' = some (bytes "Expected operator")) :=
  ⟨Or.inl rfl, error_channel exactMp Globals.start (Or.inl rfl) (bytes "1 + 2 3") ⟨false, 0, 0⟩⟩

/-- C7 (what the code does on a failing call). When the call of `parse` returns a `NULL`
tree or leaves input, `calculate` returns the integer payload 0 and the float payload of
`mpf_init` and sets an error message, and the tag `isF` of the returned value is never
assigned. -/
theorem failing_call_value (mp : Mp F) (g : Globals) (hg : g.Reachable) (e : List Nat)
    (prev : Value F) (t : Tree F) (r : Reader) (err : Option (List Nat))
    (hp : parse mp (init Globals.start) e prev (3 * strlen e 0 + 2) 0 ⟨0, strlen e 0⟩ none =
      some (t, r, err))
    (hfail : t.isNull = true ∨ r.p ≠ r.endp) :
    ∃ g', calculate mp g e prev = some (⟨none, 0, mp.init⟩, g') ∧ calcError g' ≠ none := by
  obtain ⟨m0, hm0⟩ := reachable_tables g hg
  have hret := (parser_returns mp (init Globals.start) tables_known e prev _).1 _ _ _ _ hp
  rw [calculate_of_tables mp g m0 hm0 e prev, hp]
  simp only
  cases ht : t.isNull
  · rcases hfail with h | h
    · rw [ht] at h; exact absurd h (by simp)
    · have hne : (r.p != r.endp) = true := by simp [h]
      simp only [Bool.false_eq_true, if_false, hne, if_true]
      exact ⟨_, rfl, by simp [calcError]⟩
  · have hk := hret.2.2.1 ht
    simp only at hk
    simp only [if_true]
    exact ⟨_, rfl, by simpa [calcError] using hk⟩

theorem failing_call_value_witness :
    Globals.start.Reachable ∧
      parse exactMp (init Globals.start) (bytes "1 +") ⟨false, 0, 0⟩
        (3 * strlen (bytes "1 +") 0 + 2) 0 ⟨0, strlen (bytes "1 +") 0⟩ none =
          some (.null, ⟨3, 3⟩, some (bytes "Unexpected end")) ∧
      ∃ g', calculate exactMp Globals.start (bytes "1 +") ⟨false, 0, 0⟩ =
        some (⟨none, 0, 0⟩, g') ∧ calcError g' ≠ none :=
  ⟨Or.inl rfl, by decide!,
    failing_call_value exactMp Globals.start (Or.inl rfl) (bytes "1 +") ⟨false, 0, 0⟩ .null ⟨3, 3⟩
      (some (bytes "Unexpected end")) (by decide!) (Or.inl rfl)⟩

/-- The call of `parse` in `calculate` on the text `$`. -/
theorem sigil_parse (mp : Mp F) (v : Value F) :
    parse mp (init Globals.start) (bytes "$") v (3 * strlen (bytes "$") 0 + 2) 0
      ⟨0, strlen (bytes "$") 0⟩ none = some (.leaf v, ⟨1, 1⟩, none) := by
  have hs : strlen (bytes "$") 0 = 1 := by decide
  have n0 : next (init Globals.start) (bytes "$") ⟨0, 1⟩ = (⟨0, 1⟩, ⟨0, 1⟩) := by decide!
  have n1 : next (init Globals.start) (bytes "$") ⟨1, 1⟩ = (⟨1, 1⟩, ⟨1, 0⟩) := by decide!
  have u0 : bTreeSearch (init Globals.start).unaries (djb2 (bytes "$") 0 1) = none := by decide!
  have b1 : bTreeSearch (init Globals.start).binaries (djb2 (bytes "$") 1 0) = none := by decide!
  have p0 : peek (bytes "$") 0 = 36 := by decide
  rw [hs]
  simp [parse, primary, parseLoop, leaf, n0, n1, u0, b1, p0, Tree.isNull]

/-- C8. Sigil idempotence: for every value `v`, `calculate` on the text `$` with the
previous result `v` reports no error and returns a value with the tag of `v` and the
live payload of `v` (the float payload when `v` is float-tagged, else the integer
payload). -/
theorem sigil_idempotent (mp : Mp F) (g : Globals) (hg : g.Reachable) (v : Value F) :
    ∃ r g', calculate mp g (bytes "$") v = some (r, g') ∧ calcError g' = none ∧
      r.isF = some v.isF ∧ (if v.isF then r.f = v.f else r.z = v.z) := by
  obtain ⟨m0, hm0⟩ := reachable_tables g hg
  rw [calculate_of_tables mp g m0 hm0 (bytes "$") v, sigil_parse]
  cases hf : v.isF <;> simp [Tree.isNull, eval, hf, calcError] <;>
    exact ⟨_, _, ⟨rfl, rfl⟩, rfl, rfl, rfl⟩

theorem sigil_idempotent_witness :
    Globals.start.Reachable ∧
      ∃ r g', calculate exactMp Globals.start (bytes "$") ⟨true, 0, 1 / 2⟩ = some (r, g') ∧
        calcError g' = none ∧ r.isF = some true ∧
        (if (⟨true, 0, 1 / 2⟩ : Value ℚ).isF then r.f = 1 / 2 else r.z = 0) :=
  ⟨Or.inl rfl, sigil_idempotent exactMp Globals.start (Or.inl rfl) ⟨true, 0, 1 / 2⟩⟩


/-! ## Tags of the evaluated value -/

theorem isNull_eq_true (t : Tree F) (h : t.isNull = true) : t = .null := by
  cases t <;> simp [Tree.isNull] at h ⊢

/-- A successful call of `calculate`: the call of `parse` gave a tree with the cursor at
`end`, `eval` returned, and the returned value carries the tag and the live payload of
the evaluated one. -/
theorem calculate_ok (mp : Mp F) (g : Globals) (hg : g.Reachable) (e : List Nat) (prev : Value F)
    (t : Tree F) (r : Reader) (err : Option (List Nat))
    (hp : parse mp (init Globals.start) e prev (3 * strlen e 0 + 2) 0 ⟨0, strlen e 0⟩ none =
      some (t, r, err))
    (v : Returned F) (g' : Globals) (hc : calculate mp g e prev = some (v, g'))
    (hok : calcError g' = none) :
    t.isNull = false ∧ r.p = r.endp ∧ wellFormed t = true ∧
      ∃ pv e2, eval mp t err = some (pv, e2) ∧ v.isF = some pv.isF := by
  obtain ⟨m0, hm0⟩ := reachable_tables g hg
  have hret := (parser_returns mp (init Globals.start) tables_known e prev _).1 _ _ _ _ hp
  rw [calculate_of_tables mp g m0 hm0 e prev, hp] at hc
  simp only at hc
  cases ht : t.isNull
  · have hk := hret.2.2.2 ht
    simp only at hk
    simp only [ht, Bool.false_eq_true, if_false] at hc
    by_cases hpe : r.p = r.endp
    · have hne : (r.p != r.endp) = false := by simp [hpe]
      simp only [hne, Bool.false_eq_true, if_false] at hc
      cases hev : eval mp t err with
      | none => simp [hev] at hc
      | some x =>
        obtain ⟨pv, e2⟩ := x
        simp only [hev, Option.some.injEq, Prod.mk.injEq] at hc
        refine ⟨rfl, hpe, hk.2, pv, e2, rfl, ?_⟩
        rw [← hc.1]
        cases pv.isF <;> rfl
    · have hne : (r.p != r.endp) = true := by simp [hpe]
      simp only [hne, if_true, Option.some.injEq, Prod.mk.injEq] at hc
      rw [← hc.2] at hok
      simp [calcError] at hok
  · have hk := hret.2.2.1 ht
    simp only at hk
    simp only [ht, if_true, Option.some.injEq, Prod.mk.injEq] at hc
    rw [← hc.2] at hok
    exact absurd hok hk

/-- An opcode outside the 21 known ones falls through the `switch` of `eval`. -/
theorem evalSwitch_unknown (mp : Mp F) (output : Nat) (l : Value F) (r : Option (Value F))
    (ho : 20 < output) : evalSwitch mp output l r = some (l, true) := by
  have e0 : ¬ output = OR := by unfold OR; omega
  have e1 : ¬ output = XOR := by unfold XOR; omega
  have e2 : ¬ output = AND := by unfold AND; omega
  have e3 : ¬ output = SHL := by unfold SHL; omega
  have e4 : ¬ output = SHR := by unfold SHR; omega
  have e5 : ¬ output = ADD := by unfold ADD; omega
  have e6 : ¬ output = SUB := by unfold SUB; omega
  have e7 : ¬ output = MUL := by unfold MUL; omega
  have e8 : ¬ output = DIV := by unfold DIV; omega
  have e9 : ¬ output = MOD := by unfold MOD; omega
  have e10 : ¬ output = NEG := by unfold NEG; omega
  have e11 : ¬ output = POS := by unfold POS; omega
  have e12 : ¬ output = NOT := by unfold NOT; omega
  have e13 : ¬ output = POW := by unfold POW; omega
  have e14 : ¬ output = SQRT := by unfold SQRT; omega
  have e15 : ¬ output = COS := by unfold COS; omega
  have e16 : ¬ output = SIN := by unfold SIN; omega
  have e17 : ¬ output = TAN := by unfold TAN; omega
  have e18 : ¬ output = FLOOR := by unfold FLOOR; omega
  have e19 : ¬ output = CEIL := by unfold CEIL; omega
  have e20 : ¬ output = ROUND := by unfold ROUND; omega
  unfold evalSwitch
  rw [if_neg e0, if_neg e1, if_neg e2, if_neg e3, if_neg e4, if_neg e5, if_neg e6, if_neg e7, if_neg e8, if_neg e9, if_neg e10, if_neg e11, if_neg e12, if_neg e13, if_neg e14, if_neg e15, if_neg e16, if_neg e17, if_neg e18, if_neg e19, if_neg e20]

theorem evalSwitch_int (mp : Mp F) (output : Nat) (l : Value F) (r : Option (Value F))
    (x : Value F × Bool) (ho : isFloatOp output = false) (hl : l.isF = false)
    (hr : ∀ rv, r = some rv → rv.isF = false) (h : evalSwitch mp output l r = some x) :
    x.1.isF = false := by
  by_cases hle : output ≤ 20
  · unfold evalSwitch at h
    cases r with
    | none =>
      interval_cases output <;>
        simp [OR, XOR, AND, SHL, SHR, ADD, SUB, MUL, DIV, MOD, NEG, POS, NOT, POW, SQRT, COS, SIN,
          TAN, FLOOR, CEIL, ROUND, isFloatOp, hl] at h ho <;>
        (subst h; simp [hl])
    | some rv =>
      have hrv := hr rv rfl
      interval_cases output <;>
        simp [OR, XOR, AND, SHL, SHR, ADD, SUB, MUL, DIV, MOD, NEG, POS, NOT, POW, SQRT, COS, SIN,
          TAN, FLOOR, CEIL, ROUND, isFloatOp, evalBitwise, evalArith, evalDiv, hl, hrv,
          Option.map_eq_some'] at h ho <;>
        first
          | (subst h; simp [hl])
          | (obtain ⟨_, _, rfl⟩ := h; simp [hl])
  · rw [evalSwitch_unknown mp output l r (by omega)] at h
    simp only [Option.some.injEq] at h
    rw [← h]
    exact hl

theorem evalReturn_value (x : Option (Value F × Bool)) (e : Option (List Nat))
    (res : Value F × Option (List Nat)) (h : evalReturn x e = some res) :
    ∃ y, x = some y ∧ res.1 = y.1 := by
  unfold evalReturn at h
  cases x with
  | none => simp at h
  | some y =>
    simp only [Option.map_some', Option.some.injEq] at h
    exact ⟨y, rfl, by rw [← h]⟩

/-- A tree without float-tagged leaf and without float opcode evaluates to an
integer-tagged value. -/
theorem eval_integerOnly (mp : Mp F) (t : Tree F) (e : Option (List Nat))
    (res : Value F × Option (List Nat)) (hi : integerOnly t = true)
    (h : eval mp t e = some res) : res.1.isF = false := by
  induction t generalizing e res with
  | null => simp [eval] at h
  | leaf v =>
    simp only [eval, Option.some.injEq] at h
    rw [← h]
    simpa [integerOnly] using hi
  | branch op left right ihl ihr =>
    simp only [integerOnly, Bool.and_eq_true, Bool.not_eq_true'] at hi
    obtain ⟨⟨ho, hil⟩, hir⟩ := hi
    simp only [eval] at h
    cases hl : eval mp left e with
    | none => simp [hl] at h
    | some x =>
      obtain ⟨l, e1⟩ := x
      have h1 : l.isF = false := ihl e _ hil hl
      simp only [hl] at h
      cases hn : right.isNull
      · simp only [hn, Bool.false_eq_true, if_false] at h
        cases hr : eval mp right e1 with
        | none => simp [hr] at h
        | some y =>
          obtain ⟨r, e2⟩ := y
          have h2 : r.isF = false := ihr e1 _ hir hr
          simp only [hr] at h
          obtain ⟨y, hy, hv⟩ := evalReturn_value _ _ _ h
          rw [hv]
          exact evalSwitch_int mp _ l (some r) y ho h1
            (fun rv hrv => by rw [← Option.some.inj hrv]; exact h2) hy
      · simp only [hn, if_true] at h
        obtain ⟨y, hy, hv⟩ := evalReturn_value _ _ _ h
        rw [hv]
        exact evalSwitch_int mp _ l none y ho h1 (fun rv hrv => by simp at hrv) hy

/-- C9 (amended). Type-preservation: when `calculate` reports no error and the tree of
the expression has no float-tagged leaf (no literal with a `.`, no other float literal,
no `pi`, and no `$` that stands for a float-tagged previous result) and none of the
operators `**`, sqrt, sin, cos, tan, the returned value is integer-tagged. -/
theorem type_preservation (mp : Mp F) (g : Globals) (hg : g.Reachable) (e : List Nat)
    (prev : Value F) (t : Tree F) (r : Reader) (err : Option (List Nat))
    (hp : parse mp (init Globals.start) e prev (3 * strlen e 0 + 2) 0 ⟨0, strlen e 0⟩ none =
      some (t, r, err))
    (hi : integerOnly t = true) (v : Returned F) (g' : Globals)
    (hc : calculate mp g e prev = some (v, g')) (hok : calcError g' = none) :
    v.isF = some false := by
  obtain ⟨_, _, _, pv, e2, hev, hv⟩ := calculate_ok mp g hg e prev t r err hp v g' hc hok
  rw [hv, eval_integerOnly mp t err _ hi hev]

theorem type_preservation_witness :
    Globals.start.Reachable ∧
      parse exactMp (init Globals.start) (bytes "7 / 2 + $") ⟨false, 3, 0⟩
        (3 * strlen (bytes "7 / 2 + $") 0 + 2) 0 ⟨0, strlen (bytes "7 / 2 + $") 0⟩ none =
          some (.branch ⟨4, Left, ADD⟩
            (.branch ⟨5, Left, DIV⟩ (.leaf ⟨false, 7, 7⟩) (.leaf ⟨false, 2, 2⟩))
            (.leaf ⟨false, 3, 0⟩), ⟨9, 9⟩, none) ∧
      integerOnly (Tree.branch ⟨4, Left, ADD⟩
        (.branch ⟨5, Left, DIV⟩ (.leaf ⟨false, 7, 7⟩) (.leaf ⟨false, 2, 2⟩))
        (.leaf (⟨false, 3, 0⟩ : Value ℚ))) = true ∧
      calculate exactMp Globals.start (bytes "7 / 2 + $") ⟨false, 3, 0⟩ =
        some (⟨some false, 6, 0⟩, init Globals.start) ∧
      calcError (init Globals.start) = none ∧
      (⟨some false, 6, 0⟩ : Returned ℚ).isF = some false :=
  ⟨Or.inl rfl, by decide!, by decide!, by decide!, by decide!,
    type_preservation exactMp Globals.start (Or.inl rfl) (bytes "7 / 2 + $") ⟨false, 3, 0⟩
      (.branch ⟨4, Left, ADD⟩
        (.branch ⟨5, Left, DIV⟩ (.leaf ⟨false, 7, 7⟩) (.leaf ⟨false, 2, 2⟩)) (.leaf ⟨false, 3, 0⟩))
      ⟨9, 9⟩ none (by decide!) (by decide!) ⟨some false, 6, 0⟩ (init Globals.start) (by decide!)
      (by decide!)⟩

/-- C9 (counterexample). On the text `$`, which holds no `.`, no literal and no operator,
with a float-tagged previous result, `calculate` reports no error and returns a
float-tagged value. -/
theorem type_preservation_counterexample :
    (calculate exactMp Globals.start (bytes "$") ⟨true, 0, 1 / 2⟩).map
        (fun x => (x.1.isF, calcError x.2)) = some (some true, none) ∧
      parse exactMp (init Globals.start) (bytes "$") ⟨true, 0, 1 / 2⟩
        (3 * strlen (bytes "$") 0 + 2) 0 ⟨0, strlen (bytes "$") 0⟩ none =
          some (.leaf ⟨true, 0, 1 / 2⟩, ⟨1, 1⟩, none) ∧
      46 ∉ bytes "$" := by
  decide!

theorem evalSwitch_contagious_binary (mp : Mp F) (output : Nat) (l rv : Value F)
    (x : Value F × Bool) (hc : isContagiousOp output = true) (hb : isBinaryOp output = true)
    (h : evalSwitch mp output l (some rv) = some x) :
    x.1.isF = (isFloatOp output || l.isF || rv.isF) := by
  have hle := output_le_of_binary output hb
  unfold evalSwitch at h
  interval_cases output <;>
    simp [OR, XOR, AND, SHL, SHR, ADD, SUB, MUL, DIV, MOD, NEG, POS, NOT, POW, SQRT, COS, SIN,
      TAN, FLOOR, CEIL, ROUND, isFloatOp, isContagiousOp, isBinaryOp] at h hc hb ⊢ <;>
    cases hl : l.isF <;> cases hr : rv.isF <;>
    simp [evalArith, evalDiv, hl, hr, Option.map_eq_some'] at h ⊢ <;>
    first
      | (subst h; simp [hl, hr])
      | (obtain ⟨_, _, rfl⟩ := h; simp [hl, hr])

theorem evalSwitch_contagious_unary (mp : Mp F) (output : Nat) (l : Value F)
    (x : Value F × Bool) (hc : isContagiousOp output = true) (hu : isUnaryOp output = true)
    (h : evalSwitch mp output l none = some x) :
    x.1.isF = (isFloatOp output || l.isF) := by
  have hle := output_le_of_unary output hu
  unfold evalSwitch at h
  interval_cases output <;>
    simp [OR, XOR, AND, SHL, SHR, ADD, SUB, MUL, DIV, MOD, NEG, POS, NOT, POW, SQRT, COS, SIN,
      TAN, FLOOR, CEIL, ROUND, isFloatOp, isContagiousOp, isUnaryOp] at h hc hu ⊢ <;>
    cases hl : l.isF <;>
    (try simp [evalFloat, hl] at h ⊢) <;>
    (subst h; simp [hl])

/-- On a well-formed tree of arithmetic operators and float functions, the evaluated
value is float-tagged exactly when the tree holds a float-tagged leaf or a float
opcode. -/
theorem eval_contagious (mp : Mp F) (t : Tree F) (e : Option (List Nat))
    (res : Value F × Option (List Nat)) (hw : wellFormed t = true) (hc : contagious t = true)
    (h : eval mp t e = some res) : res.1.isF = hasFloat t := by
  induction t generalizing e res with
  | null => simp [eval] at h
  | leaf v =>
    simp only [eval, Option.some.injEq] at h
    rw [← h]
    rfl
  | branch op left right ihl ihr =>
    simp only [wellFormed, Bool.and_eq_true, Bool.not_eq_true'] at hw
    obtain ⟨⟨_, hwl⟩, hwr⟩ := hw
    simp only [contagious, Bool.and_eq_true] at hc
    obtain ⟨⟨hco, hcl⟩, hcr⟩ := hc
    simp only [eval] at h
    cases hl : eval mp left e with
    | none => simp [hl] at h
    | some x =>
      obtain ⟨l, e1⟩ := x
      have h1 : l.isF = hasFloat left := ihl e _ hwl hcl hl
      simp only [hl] at h
      cases hn : right.isNull
      · simp only [hn, Bool.false_eq_true, if_false, Bool.and_eq_true] at h hwr
        cases hr : eval mp right e1 with
        | none => simp [hr] at h
        | some y =>
          obtain ⟨r, e2⟩ := y
          have h2 : r.isF = hasFloat right := ihr e1 _ hwr.2 hcr hr
          simp only [hr] at h
          obtain ⟨y, hy, hv⟩ := evalReturn_value _ _ _ h
          rw [hv, evalSwitch_contagious_binary mp _ l r y hco hwr.1 hy, h1, h2]
          rfl
      · simp only [hn, if_true] at h hwr
        obtain ⟨y, hy, hv⟩ := evalReturn_value _ _ _ h
        rw [hv, evalSwitch_contagious_unary mp _ l y hco hwr hy, h1, isNull_eq_true right hn]
        simp [hasFloat]

/-- The tag that the `switch` of `eval` gives under a binary opcode. -/
theorem evalSwitch_tag_binary (mp : Mp F) (output : Nat) (l rv : Value F)
    (x : Value F × Bool) (hb : isBinaryOp output = true)
    (h : evalSwitch mp output l (some rv) = some x) :
    x.1.isF = opTag output l.isF rv.isF := by
  have hle := output_le_of_binary output hb
  unfold evalSwitch at h
  interval_cases output <;>
    simp [OR, XOR, AND, SHL, SHR, ADD, SUB, MUL, DIV, MOD, NEG, POS, NOT, POW, SQRT, COS, SIN,
      TAN, FLOOR, CEIL, ROUND, isFloatOp, isDemotingOp, isLeftTagOp, opTag, isBinaryOp]
      at h hb ⊢ <;>
    cases hl : l.isF <;> cases hr : rv.isF <;>
    simp [evalArith, evalDiv, evalBitwise, hl, hr, Option.map_eq_some'] at h ⊢ <;>
    first
      | (subst h; simp [hl, hr])
      | (obtain ⟨_, _, rfl⟩ := h; simp [hl, hr])

/-- The tag that the `switch` of `eval` gives under a unary opcode. -/
theorem evalSwitch_tag_unary (mp : Mp F) (output : Nat) (l : Value F)
    (x : Value F × Bool) (hu : isUnaryOp output = true)
    (h : evalSwitch mp output l none = some x) :
    x.1.isF = opTag output l.isF false := by
  have hle := output_le_of_unary output hu
  unfold evalSwitch at h
  interval_cases output <;>
    simp [OR, XOR, AND, SHL, SHR, ADD, SUB, MUL, DIV, MOD, NEG, POS, NOT, POW, SQRT, COS, SIN,
      TAN, FLOOR, CEIL, ROUND, isFloatOp, isDemotingOp, isLeftTagOp, opTag, isUnaryOp]
      at h hu ⊢ <;>
    cases hl : l.isF <;>
    (try simp [evalFloat, hl] at h ⊢) <;>
    (subst h; simp [hl])

/-- On a well-formed tree, the evaluated value has the tag `resultTag`. -/
theorem eval_tag (mp : Mp F) (t : Tree F) (e : Option (List Nat))
    (res : Value F × Option (List Nat)) (hw : wellFormed t = true)
    (h : eval mp t e = some res) : res.1.isF = resultTag t := by
  induction t generalizing e res with
  | null => simp [eval] at h
  | leaf v =>
    simp only [eval, Option.some.injEq] at h
    rw [← h]
    rfl
  | branch op left right ihl ihr =>
    simp only [wellFormed, Bool.and_eq_true, Bool.not_eq_true'] at hw
    obtain ⟨⟨_, hwl⟩, hwr⟩ := hw
    simp only [eval] at h
    cases hl : eval mp left e with
    | none => simp [hl] at h
    | some x =>
      obtain ⟨l, e1⟩ := x
      have h1 : l.isF = resultTag left := ihl e _ hwl hl
      simp only [hl] at h
      cases hn : right.isNull
      · simp only [hn, Bool.false_eq_true, if_false, Bool.and_eq_true] at h hwr
        cases hr : eval mp right e1 with
        | none => simp [hr] at h
        | some y =>
          obtain ⟨r, e2⟩ := y
          have h2 : r.isF = resultTag right := ihr e1 _ hwr.2 hr
          simp only [hr] at h
          obtain ⟨y, hy, hv⟩ := evalReturn_value _ _ _ h
          rw [hv, evalSwitch_tag_binary mp _ l r y hwr.1 hy, h1, h2]
          rfl
      · simp only [hn, if_true] at h hwr
        obtain ⟨y, hy, hv⟩ := evalReturn_value _ _ _ h
        rw [hv, evalSwitch_tag_unary mp _ l y hwr hy, h1, isNull_eq_true right hn]
        rfl

/-- A branch under a demoting opcode is integer-tagged, whatever its operands. -/
theorem resultTag_demoting (op : Op) (left right : Tree F)
    (h : isDemotingOp op.output = true) : resultTag (.branch op left right) = false := by
  have hf : isFloatOp op.output = false := by
    simp only [isDemotingOp, OR, XOR, AND, NOT, FLOOR, CEIL, ROUND, Bool.or_eq_true,
      beq_iff_eq] at h
    simp only [isFloatOp, POW, SQRT, COS, SIN, TAN, Bool.or_eq_false_iff, beq_eq_false_iff_ne,
      ne_eq]
    omega
  simp [resultTag, opTag, hf, h]

/-- A branch under a shift or a unary sign has the tag of its left operand. -/
theorem resultTag_leftTag (op : Op) (left right : Tree F)
    (h : isLeftTagOp op.output = true) :
    resultTag (.branch op left right) = resultTag left := by
  have h' := h
  simp only [isLeftTagOp, SHL, SHR, NEG, POS, Bool.or_eq_true, beq_iff_eq] at h'
  have hf : isFloatOp op.output = false := by
    simp only [isFloatOp, POW, SQRT, COS, SIN, TAN, Bool.or_eq_false_iff, beq_eq_false_iff_ne,
      ne_eq]
    omega
  have hd : isDemotingOp op.output = false := by
    simp only [isDemotingOp, OR, XOR, AND, NOT, FLOOR, CEIL, ROUND, Bool.or_eq_false_iff,
      beq_eq_false_iff_ne, ne_eq]
    omega
  simp [resultTag, opTag, hf, hd, h]

/-- C10 (amended). Float contagion: when `calculate` reports no error, the tag of the
returned value is `resultTag` of the parsed tree: float under `**`, sqrt, cos, sin, tan;
integer under the bitwise `|`, `^`, `&`, `~` and under floor, ceil, round (they demote,
whatever the operands); the tag of the left operand under the shifts `<<`, `>>` and the
unary `-`, `+`; and under `+ - * / %` float when an operand is float.  So when every
operator of the expression is an arithmetic operator (`+ - * / %`, unary `-` `+`) or one
of `**`, sqrt, sin, cos, tan, and the expression holds a float operand or one of `**`,
sqrt, sin, cos, tan, the returned value is float-tagged. -/
theorem float_contagion (mp : Mp F) (g : Globals) (hg : g.Reachable) (e : List Nat)
    (prev : Value F) (t : Tree F) (r : Reader) (err : Option (List Nat))
    (hp : parse mp (init Globals.start) e prev (3 * strlen e 0 + 2) 0 ⟨0, strlen e 0⟩ none =
      some (t, r, err))
    (v : Returned F) (g' : Globals)
    (hcalc : calculate mp g e prev = some (v, g')) (hok : calcError g' = none) :
    v.isF = some (resultTag t) ∧
      (contagious t = true → hasFloat t = true → v.isF = some true) ∧
      (∀ (op : Op) (left right : Tree F), isDemotingOp op.output = true →
        resultTag (.branch op left right) = false) ∧
      (∀ (op : Op) (left right : Tree F), isLeftTagOp op.output = true →
        resultTag (.branch op left right) = resultTag left) := by
  obtain ⟨_, _, hw, pv, e2, hev, hv⟩ := calculate_ok mp g hg e prev t r err hp v g' hcalc hok
  refine ⟨?_, fun hc hf => ?_, resultTag_demoting, resultTag_leftTag⟩
  · rw [hv, eval_tag mp t err _ hw hev]
  · rw [hv, eval_contagious mp t err _ hw hc hev, hf]

theorem float_contagion_witness :
    Globals.start.Reachable ∧
      parse exactMp (init Globals.start) (bytes "-7 / 2.") ⟨false, 0, 0⟩
        (3 * strlen (bytes "-7 / 2.") 0 + 2) 0 ⟨0, strlen (bytes "-7 / 2.") 0⟩ none =
          some (.branch ⟨5, Unary, NEG⟩
            (.branch ⟨5, Left, DIV⟩ (.leaf ⟨false, 7, 7⟩) (.leaf ⟨true, 0, 2⟩)) .null,
            ⟨7, 7⟩, none) ∧
      contagious (Tree.branch ⟨5, Unary, NEG⟩
        (.branch ⟨5, Left, DIV⟩ (.leaf ⟨false, 7, 7⟩) (.leaf (⟨true, 0, 2⟩ : Value ℚ)))
        .null) = true ∧
      hasFloat (Tree.branch ⟨5, Unary, NEG⟩
        (.branch ⟨5, Left, DIV⟩ (.leaf ⟨false, 7, 7⟩) (.leaf (⟨true, 0, 2⟩ : Value ℚ)))
        .null) = true ∧
      calculate exactMp Globals.start (bytes "-7 / 2.") ⟨false, 0, 0⟩ =
        some (⟨some true, 0, -7 / 2⟩, init Globals.start) ∧
      calcError (init Globals.start) = none ∧
      (⟨some true, 0, -7 / 2⟩ : Returned ℚ).isF = some true ∧
      parse exactMp (init Globals.start) (bytes "1.5 | 2") ⟨false, 0, 0⟩
        (3 * strlen (bytes "1.5 | 2") 0 + 2) 0 ⟨0, strlen (bytes "1.5 | 2") 0⟩ none =
          some (.branch ⟨0, Left, OR⟩ (.leaf ⟨true, 0, 3 / 2⟩) (.leaf ⟨false, 2, 2⟩),
            ⟨7, 7⟩, none) ∧
      calculate exactMp Globals.start (bytes "1.5 | 2") ⟨false, 0, 0⟩ =
        some (⟨some false, 3, 0⟩, init Globals.start) ∧
      (⟨some false, 3, 0⟩ : Returned ℚ).isF =
        some (resultTag (Tree.branch ⟨0, Left, OR⟩ (.leaf (⟨true, 0, 3 / 2⟩ : Value ℚ))
          (.leaf ⟨false, 2, 2⟩))) :=
  ⟨Or.inl rfl, by decide!, by decide!, by decide!, by decide!, by decide!,
    (float_contagion exactMp Globals.start (Or.inl rfl) (bytes "-7 / 2.") ⟨false, 0, 0⟩
      (.branch ⟨5, Unary, NEG⟩
        (.branch ⟨5, Left, DIV⟩ (.leaf ⟨false, 7, 7⟩) (.leaf ⟨true, 0, 2⟩)) .null)
      ⟨7, 7⟩ none (by decide!) ⟨some true, 0, -7 / 2⟩
      (init Globals.start) (by decide!) (by decide!)).2.1 (by decide!) (by decide!),
    by decide!, by decide!,
    (float_contagion exactMp Globals.start (Or.inl rfl) (bytes "1.5 | 2") ⟨false, 0, 0⟩
      (.branch ⟨0, Left, OR⟩ (.leaf ⟨true, 0, 3 / 2⟩) (.leaf ⟨false, 2, 2⟩))
      ⟨7, 7⟩ none (by decide!) ⟨some false, 3, 0⟩
      (init Globals.start) (by decide!) (by decide!)).1⟩

/-- C10 (counterexample). The expressions `1.5 | 2`, `~1.5` and `1 << 1.5` hold a float
operand and apply none of floor, ceil, round; `calculate` reports no error on them and
returns an integer-tagged value (3, -2 and 2). -/
theorem float_contagion_counterexample :
    (calculate exactMp Globals.start (bytes "1.5 | 2") ⟨false, 0, 0⟩).map
        (fun x => (x.1.isF, x.1.z, calcError x.2)) = some (some false, 3, none) ∧
      (calculate exactMp Globals.start (bytes "~1.5") ⟨false, 0, 0⟩).map
        (fun x => (x.1.isF, x.1.z, calcError x.2)) = some (some false, -2, none) ∧
      (calculate exactMp Globals.start (bytes "1 << 1.5") ⟨false, 0, 0⟩).map
        (fun x => (x.1.isF, x.1.z, calcError x.2)) = some (some false, 2, none) ∧
      (parse exactMp (init Globals.start) (bytes "1.5 | 2") ⟨false, 0, 0⟩
        (3 * strlen (bytes "1.5 | 2") 0 + 2) 0 ⟨0, strlen (bytes "1.5 | 2") 0⟩ none).map
          (fun x => hasFloat x.1) = some true :=
  ⟨by decide!, by decide!, by decide!, by decide!⟩


/-! ## Operator lookup by hash: the failing inputs of the precedence and associativity claims -/

/-- C1 (failing input). The text `1 + 2 * 493575738` has the form `a OP1 b OP2 c` with
`prec(+) = 4 < prec(*) = 5`.  The token at the last literal is the literal itself, its
32-bit djb2 hash equals that of the lexeme `tan`, so `primary` takes it for the unary
operator `tan`, and `parse` returns a `NULL` tree with the message `Unexpected end`.  On
`1 + 2 * 3` the tree is `branch(+, 1, branch(*, 2, 3))`. -/
theorem precedence_failing_input :
    next (init Globals.start) (bytes "1 + 2 * 493575738") ⟨7, 17⟩ = (⟨8, 17⟩, ⟨8, 9⟩) ∧
      djb2 (bytes "1 + 2 * 493575738") 8 9 = djb2 (bytes "tan") 0 3 ∧
      bTreeSearch (init Globals.start).unaries (djb2 (bytes "1 + 2 * 493575738") 8 9) =
        some ⟨8, Unary, TAN⟩ ∧
      parse exactMp (init Globals.start) (bytes "1 + 2 * 493575738") ⟨false, 0, 0⟩
        (3 * strlen (bytes "1 + 2 * 493575738") 0 + 2) 0
        ⟨0, strlen (bytes "1 + 2 * 493575738") 0⟩ none =
          some (.null, ⟨17, 17⟩, some (bytes "Unexpected end")) ∧
      parse exactMp (init Globals.start) (bytes "1 + 2 * 3") ⟨false, 0, 0⟩
        (3 * strlen (bytes "1 + 2 * 3") 0 + 2) 0 ⟨0, strlen (bytes "1 + 2 * 3") 0⟩ none =
          some (.branch ⟨4, Left, ADD⟩ (.leaf ⟨false, 1, 1⟩)
            (.branch ⟨5, Left, MUL⟩ (.leaf ⟨false, 2, 2⟩) (.leaf ⟨false, 3, 3⟩)),
            ⟨9, 9⟩, none) :=
  ⟨by decide!, by decide!, by decide!, by decide!, by decide!⟩

/-- C2 (failing input). The texts `1 - 2 + 493575738` (two left-associative operators of
precedence 4) and `2 ** 3 ** 493575738` end in a literal whose djb2 hash equals that of
the lexeme `tan`; `parse` returns a `NULL` tree with the message `Unexpected end` on
both.  On `1 - 2 + 3` the tree is `branch(+, branch(-, 1, 2), 3)` and on `2 ** 3 ** 4` it
is `branch(**, 2, branch(**, 3, 4))`. -/
theorem associativity_failing_input :
    parse exactMp (init Globals.start) (bytes "1 - 2 + 493575738") ⟨false, 0, 0⟩
        (3 * strlen (bytes "1 - 2 + 493575738") 0 + 2) 0
        ⟨0, strlen (bytes "1 - 2 + 493575738") 0⟩ none =
          some (.null, ⟨17, 17⟩, some (bytes "Unexpected end")) ∧
      parse exactMp (init Globals.start) (bytes "2 ** 3 ** 493575738") ⟨false, 0, 0⟩
        (3 * strlen (bytes "2 ** 3 ** 493575738") 0 + 2) 0
        ⟨0, strlen (bytes "2 ** 3 ** 493575738") 0⟩ none =
          some (.null, ⟨19, 19⟩, some (bytes "Unexpected end")) ∧
      parse exactMp (init Globals.start) (bytes "1 - 2 + 3") ⟨false, 0, 0⟩
        (3 * strlen (bytes "1 - 2 + 3") 0 + 2) 0 ⟨0, strlen (bytes "1 - 2 + 3") 0⟩ none =
          some (.branch ⟨4, Left, ADD⟩
            (.branch ⟨4, Left, SUB⟩ (.leaf ⟨false, 1, 1⟩) (.leaf ⟨false, 2, 2⟩))
            (.leaf ⟨false, 3, 3⟩), ⟨9, 9⟩, none) ∧
      parse exactMp (init Globals.start) (bytes "2 ** 3 ** 4") ⟨false, 0, 0⟩
        (3 * strlen (bytes "2 ** 3 ** 4") 0 + 2) 0 ⟨0, strlen (bytes "2 ** 3 ** 4") 0⟩ none =
          some (.branch ⟨7, Right, POW⟩ (.leaf ⟨false, 2, 2⟩)
            (.branch ⟨7, Right, POW⟩ (.leaf ⟨false, 3, 3⟩) (.leaf ⟨false, 4, 4⟩)),
            ⟨11, 11⟩, none) :=
  ⟨by decide!, by decide!, by decide!, by decide!⟩

/-! ## The operator table -/

/-- C20. Operator table: after `init`, the lookup of the `djb2` hash of each of the 11
binary lexemes in the table `binaries` and of each of the 10 unary lexemes in the table
`unaries` returns the record with the precedence, associativity and opcode of the row of
that lexeme; `-` and `+` are `SUB` and `ADD` (precedence 4, `Left`) in `binaries` and
`NEG` and `POS` (precedence 5, `Unary`) in `unaries`. -/
theorem operator_table :
    (bTreeSearch (init Globals.start).binaries (djb2 (bytes "|") 0 1) = some ⟨0, Left, OR⟩ ∧
      bTreeSearch (init Globals.start).binaries (djb2 (bytes "^") 0 1) = some ⟨1, Left, XOR⟩ ∧
      bTreeSearch (init Globals.start).binaries (djb2 (bytes "&") 0 1) = some ⟨2, Left, AND⟩ ∧
      bTreeSearch (init Globals.start).binaries (djb2 (bytes "<<") 0 2) = some ⟨3, Left, SHL⟩ ∧
      bTreeSearch (init Globals.start).binaries (djb2 (bytes ">>") 0 2) = some ⟨3, Left, SHR⟩ ∧
      bTreeSearch (init Globals.start).binaries (djb2 (bytes "+") 0 1) = some ⟨4, Left, ADD⟩ ∧
      bTreeSearch (init Globals.start).binaries (djb2 (bytes "-") 0 1) = some ⟨4, Left, SUB⟩ ∧
      bTreeSearch (init Globals.start).binaries (djb2 (bytes "*") 0 1) = some ⟨5, Left, MUL⟩ ∧
      bTreeSearch (init Globals.start).binaries (djb2 (bytes "/") 0 1) = some ⟨5, Left, DIV⟩ ∧
      bTreeSearch (init Globals.start).binaries (djb2 (bytes "%") 0 1) = some ⟨5, Left, MOD⟩ ∧
      bTreeSearch (init Globals.start).binaries (djb2 (bytes "**") 0 2) = some ⟨7, Right, POW⟩) ∧
    (bTreeSearch (init Globals.start).unaries (djb2 (bytes "-") 0 1) = some ⟨5, Unary, NEG⟩ ∧
      bTreeSearch (init Globals.start).unaries (djb2 (bytes "+") 0 1) = some ⟨5, Unary, POS⟩ ∧
      bTreeSearch (init Globals.start).unaries (djb2 (bytes "~") 0 1) = some ⟨6, Unary, NOT⟩ ∧
      bTreeSearch (init Globals.start).unaries (djb2 (bytes "sqrt") 0 4) = some ⟨8, Unary, SQRT⟩ ∧
      bTreeSearch (init Globals.start).unaries (djb2 (bytes "cos") 0 3) = some ⟨8, Unary, COS⟩ ∧
      bTreeSearch (init Globals.start).unaries (djb2 (bytes "sin") 0 3) = some ⟨8, Unary, SIN⟩ ∧
      bTreeSearch (init Globals.start).unaries (djb2 (bytes "tan") 0 3) = some ⟨8, Unary, TAN⟩ ∧
      bTreeSearch (init Globals.start).unaries (djb2 (bytes "floor") 0 5) =
        some ⟨8, Unary, FLOOR⟩ ∧
      bTreeSearch (init Globals.start).unaries (djb2 (bytes "ceil") 0 4) = some ⟨8, Unary, CEIL⟩ ∧
      bTreeSearch (init Globals.start).unaries (djb2 (bytes "round") 0 5) =
        some ⟨8, Unary, ROUND⟩) := by
  refine ⟨⟨?_, ?_, ?_, ?_, ?_, ?_, ?_, ?_, ?_, ?_, ?_⟩, ?_, ?_, ?_, ?_, ?_, ?_, ?_, ?_, ?_, ?_⟩ <;>
    decide!

/-! ## Integer division and modulo -/

/-- The case `DIV` of `eval` on two integer-tagged leaves. -/
theorem eval_div_int (mp : Mp F) (a b : Int) (fa fb : F) (e : Option (List Nat)) :
    eval mp (.branch ⟨5, Left, DIV⟩ (.leaf ⟨false, a, fa⟩) (.leaf ⟨false, b, fb⟩)) e =
      if b = 0 then none else some (⟨false, Int.fdiv a b, fa⟩, e) := by
  by_cases hb : b = 0 <;>
    simp [eval, Tree.isNull, evalSwitch, evalReturn, evalDiv, mpz_div, hb, OR, XOR, AND, SHL, SHR,
      ADD, SUB, MUL, DIV]

/-- The case `MOD` of `eval` on two integer-tagged leaves. -/
theorem eval_mod_int (mp : Mp F) (a b : Int) (fa fb : F) (e : Option (List Nat)) :
    eval mp (.branch ⟨5, Left, MOD⟩ (.leaf ⟨false, a, fa⟩) (.leaf ⟨false, b, fb⟩)) e =
      if b = 0 then none else some (⟨false, Int.tmod a b, fa⟩, e) := by
  by_cases hb : b = 0 <;>
    simp [eval, Tree.isNull, evalSwitch, evalReturn, evalDiv, mpz_tdiv_r, hb, OR, XOR, AND, SHL,
      SHR, ADD, SUB, MUL, DIV, MOD]

theorem natAbs_tmod_lt (a b : Int) (hb : b ≠ 0) : (Int.tmod a b).natAbs < b.natAbs := by
  have h : (Int.tmod a b).natAbs = a.natAbs % b.natAbs := by
    cases a <;> cases b <;> simp [Int.tmod] <;> rfl
  rw [h]
  exact Nat.mod_lt _ (Int.natAbs_pos.mpr hb)

theorem tmod_nonpos (a b : Int) (ha : a ≤ 0) : Int.tmod a b ≤ 0 := by
  cases a with
  | ofNat m =>
    have hm : m = 0 := by
      have : (m : Int) ≤ 0 := ha
      omega
    subst hm
    cases b <;> simp [Int.tmod]
  | negSucc m => cases b <;> exact Int.neg_nonpos_of_nonneg (Int.ofNat_nonneg _)

theorem sign_tmod (a b : Int) : Int.tmod a b = 0 ∨ Int.sign (Int.tmod a b) = Int.sign a := by
  rcases Int.lt_trichotomy (Int.tmod a b) 0 with h | h | h
  · right
    have ha : a < 0 := by
      by_contra hn
      have := Int.tmod_nonneg b (Int.not_lt.mp hn)
      omega
    rw [Int.sign_eq_neg_one_of_neg h, Int.sign_eq_neg_one_of_neg ha]
  · exact Or.inl h
  · right
    have ha : 0 < a := by
      by_contra hn
      have := tmod_nonpos a b (Int.not_lt.mp hn)
      omega
    rw [Int.sign_eq_one_of_pos h, Int.sign_eq_one_of_pos ha]

/-- C11. Integer division: `eval` on `branch(DIV, leaf a, leaf b)` with integer-tagged
leaves and `b ≠ 0` yields the integer-tagged quotient rounded towards minus infinity
(`mpz_div` is `mpz_fdiv_q`), not the truncated one: `5 / 2` is `2`, and `(0-5) / 2` is
`-3` where the truncation of `-5 / 2` is `-2`. -/
theorem integer_division_floors (mp : Mp F) (fa fb : F) (e : Option (List Nat)) :
    (∀ a b : Int, eval mp (.branch ⟨5, Left, DIV⟩ (.leaf ⟨false, a, fa⟩) (.leaf ⟨false, b, fb⟩)) e =
      if b = 0 then none else some (⟨false, Int.fdiv a b, fa⟩, e)) ∧
    eval mp (.branch ⟨5, Left, DIV⟩ (.leaf ⟨false, -5, fa⟩) (.leaf ⟨false, 2, fb⟩)) e =
      some (⟨false, -3, fa⟩, e) ∧
    Int.tdiv (-5) 2 = -2 ∧
    calculate exactMp Globals.start (bytes "(0-5) / 2") ⟨false, 0, 0⟩ =
      some (⟨some false, -3, 0⟩, init Globals.start) ∧
    calculate exactMp Globals.start (bytes "5 / 2") ⟨false, 0, 0⟩ =
      some (⟨some false, 2, 0⟩, init Globals.start) := by
  refine ⟨fun a b => eval_div_int mp a b fa fb e, ?_, by decide, by decide!, by decide!⟩
  rw [eval_div_int]
  rfl

/-- C12. Integer modulo: for integers `a` and `b ≠ 0`, `eval` on
`branch(MOD, leaf a, leaf b)` with integer-tagged leaves yields the integer-tagged
`r = a - b * trunc(a / b)`; `|r| < |b|`, and `r` is zero or has the sign of `a`. -/
theorem integer_modulo (mp : Mp F) (a b : Int) (fa fb : F) (e : Option (List Nat))
    (hb : b ≠ 0) :
    eval mp (.branch ⟨5, Left, MOD⟩ (.leaf ⟨false, a, fa⟩) (.leaf ⟨false, b, fb⟩)) e =
        some (⟨false, a - b * Int.tdiv a b, fa⟩, e) ∧
      (a - b * Int.tdiv a b).natAbs < b.natAbs ∧
      (a - b * Int.tdiv a b = 0 ∨ Int.sign (a - b * Int.tdiv a b) = Int.sign a) := by
  rw [eval_mod_int, if_neg hb, ← Int.tmod_def]
  exact ⟨rfl, natAbs_tmod_lt a b hb, sign_tmod a b⟩

theorem integer_modulo_witness :
    (2 : Int) ≠ 0 ∧
      eval exactMp (.branch ⟨5, Left, MOD⟩ (.leaf ⟨false, -5, 0⟩) (.leaf ⟨false, 2, 0⟩)) none =
        some (⟨false, -5 - 2 * Int.tdiv (-5) 2, 0⟩, none) ∧
      (-5 - 2 * Int.tdiv (-5) 2 : Int).natAbs < (2 : Int).natAbs ∧
      ((-5 - 2 * Int.tdiv (-5) 2 : Int) = 0 ∨
        Int.sign (-5 - 2 * Int.tdiv (-5) 2) = Int.sign (-5)) :=
  ⟨by decide, integer_modulo exactMp (-5) 2 0 0 none (by decide)⟩

/-! ## Digit runs -/

theorem peek_of_drop (mem : List Nat) (p : Nat) (l : List Nat) (h : mem.drop p = l) :
    peek mem p = l.headD 0 := by
  subst h
  unfold peek
  cases hd : mem.drop p with
  | nil =>
    have : mem.length ≤ p := List.drop_eq_nil_iff.mp hd
    simp [List.getElem?_eq_none this]
  | cons a t =>
    have hp : p < mem.length := by
      by_contra hn
      have := List.drop_eq_nil_iff.mpr (Nat.le_of_not_lt hn)
      rw [this] at hd
      cases hd
    rw [List.drop_eq_getElem_cons hp] at hd
    injection hd with h1 h2
    simp [List.getElem?_eq_getElem hp, h1]

theorem drop_succ_of_drop (mem : List Nat) (p : Nat) (c : Nat) (t : List Nat)
    (h : mem.drop p = c :: t) : mem.drop (p + 1) = t := by
  have : mem.drop (p + 1) = (mem.drop p).drop 1 := by
    rw [List.drop_drop]
  rw [this, h]
  rfl

theorem drop_add_of_drop (mem : List Nat) (p : Nat) (l t : List Nat)
    (h : mem.drop p = l ++ t) : mem.drop (p + l.length) = t := by
  have : mem.drop (p + l.length) = (mem.drop p).drop l.length := by
    rw [List.drop_drop]
  rw [this, h]
  simp

/-- The left-to-right accumulation of a digit string from `z`. -/
theorem foldl_valueOf (base : Nat) (val : Nat → Nat) (d : List Nat) (z : Int) :
    d.foldl (fun acc c => acc * (base : Int) + ((val c : Nat) : Int)) z =
      z * (base : Int) ^ d.length + valueOf base val d := by
  induction d generalizing z with
  | nil => simp [valueOf]
  | cons c cs ih =>
    rw [List.foldl_cons, ih]
    unfold valueOf
    rw [List.reverse_cons, List.map_append, Nat.ofDigits_append]
    simp only [List.map_cons, List.map_nil, Nat.ofDigits_singleton, List.length_map,
      List.length_reverse, List.length_cons]
    push_cast
    ring

/-- The digit loop of `leaf` on a run `d` of digits of the base that a byte outside the
base (or the end of the memory image) follows. -/
theorem digitLoop_run (mem : List Nat) (base : Nat) (rest : List Nat)
    (hrest : isDigitOf base (rest.headD 0) = false) (d : List Nat) :
    ∀ (n p : Nat) (z : Int), mem.drop p = d ++ rest → (∀ c ∈ d, isDigitOf base c = true) →
      d.length ≤ n →
      digitLoop mem base n p z =
        (p + d.length, d.foldl (fun acc c => acc * (base : Int) + ((decDigit c : Nat) : Int)) z) := by
  induction d with
  | nil =>
    intro n p z hm _ _
    cases n with
    | zero => rfl
    | succ n =>
      have hp := peek_of_drop mem p _ hm
      simp only [List.nil_append] at hp
      unfold isDigitOf at hrest
      rw [← hp] at hrest
      simp only [digitLoop, ge_iff_le, hrest]
      rfl
  | cons c cs ih =>
    intro n p z hm hd hn
    cases n with
    | zero => simp at hn
    | succ n =>
      have hp : peek mem p = c := peek_of_drop mem p _ hm
      have hc := hd c (List.mem_cons_self _ _)
      unfold isDigitOf at hc
      simp only [digitLoop, ge_iff_le, hp, hc, if_true]
      rw [ih n (p + 1) _ (drop_succ_of_drop mem p c _ hm)
        (fun x hx => hd x (List.mem_cons_of_mem _ hx))
        (by simpa using hn)]
      simp only [List.length_cons, List.foldl_cons, decDigit]
      congr 1
      omega

/-- C19. Binary and octal literals: on `0b` followed by a string `d` of digits `0`-`1`,
and on `0o` followed by a string `d` of digits `0`-`7`, then a byte that is not a digit of
the base (or the end of the memory image), `leaf` yields the integer-tagged value of `d`
in base 2, respectively 8, and moves the cursor by `2 + |d|`: the loop takes the whole
digit run and stops at the first byte that is not a digit of the base. -/
theorem binary_octal_literals (mp : Mp F) (mem : List Nat) (r : Reader) (e : Option (List Nat))
    (prev : Value F) (x base : Nat) (d rest : List Nat)
    (hx : (x = 98 ∧ base = 2) ∨ (x = 111 ∧ base = 8))
    (hmem : mem.drop r.p = [48, x] ++ d ++ rest)
    (hend : r.p + 1 < r.endp)
    (hd : ∀ c ∈ d, isDigitOf base c = true)
    (hrest : isDigitOf base (rest.headD 0) = false) :
    leaf mp mem r e prev =
      (.leaf ⟨false, valueOf base decDigit d, mp.init⟩, ⟨r.p + 2 + d.length, r.endp⟩, e) := by
  have hmem0 : mem.drop r.p = 48 :: x :: (d ++ rest) := by simpa using hmem
  have h0 : peek mem r.p = 48 := peek_of_drop mem r.p _ hmem0
  have hmem1 := drop_succ_of_drop mem r.p 48 _ hmem0
  have h1 : peek mem (r.p + 1) = x := peek_of_drop mem (r.p + 1) _ hmem1
  have hmem2 : mem.drop (r.p + 2) = d ++ rest := drop_succ_of_drop mem (r.p + 1) x _ hmem1
  have hlen : d.length ≤ mem.length - (r.p + 2) := by
    have := congrArg List.length hmem2
    rw [List.length_drop, List.length_append] at this
    omega
  have hb : (if (peek mem (r.p + 1) == 98) = true then 2 else 8) = base := by
    rcases hx with ⟨hx, hb⟩ | ⟨hx, hb⟩ <;> simp [h1, hx, hb]
  have hc : (peek mem (r.p + 1) == 98 || peek mem (r.p + 1) == 111) = true := by
    rcases hx with ⟨hx, _⟩ | ⟨hx, _⟩ <;> simp [h1, hx]
  have hrun := digitLoop_run mem base rest hrest d _ (r.p + 2) 0 hmem2 hd hlen
  rw [foldl_valueOf, Int.zero_mul, Int.zero_add] at hrun
  unfold leaf
  simp only [h0, hc, hb, hrun, decide_eq_true hend]
  simp

theorem binary_octal_literals_witness :
    ((98 = 98 ∧ 2 = 2) ∨ (98 = 111 ∧ 2 = 8)) ∧
      (bytes "0b101 + 0o17").drop 0 = [48, 98] ++ bytes "101" ++ bytes " + 0o17" ∧
      0 + 1 < 12 ∧ (∀ c ∈ bytes "101", isDigitOf 2 c = true) ∧
      isDigitOf 2 ((bytes " + 0o17").headD 0) = false ∧
      leaf exactMp (bytes "0b101 + 0o17") ⟨0, 12⟩ none ⟨false, 0, 0⟩ =
        (.leaf ⟨false, 5, 0⟩, ⟨5, 12⟩, none) :=
  ⟨by decide, by decide, by decide, by decide, by decide,
    binary_octal_literals exactMp (bytes "0b101 + 0o17") ⟨0, 12⟩ none ⟨false, 0, 0⟩ 98 2
      (bytes "101") (bytes " + 0o17") (Or.inl ⟨rfl, rfl⟩) (by decide) (by decide) (by decide)
      (by decide)⟩

/-! ## Character literals: from the opening quote to the result of `calculate` -/

theorem matchAt_head (t mem : List Nat) (p : Nat) (hm : matchAt t mem p = true) :
    t = [] ∨ t.head? = some (peek mem p) := by
  cases t with
  | nil => exact Or.inl rfl
  | cons c cs =>
    right
    simp only [matchAt, Bool.and_eq_true, beq_iff_eq] at hm
    simp [hm.1]

theorem terminators_quote :
    ∀ t ∈ (init Globals.start).terminators, t.head? = some 39 → t.length = 1 := by decide!

theorem quote_terminator : [39] ∈ (init Globals.start).terminators := by decide!

/-- At a quote before `end`, `next` returns the one-byte token of the quote. -/
theorem next_quote (mem : List Nat) (r : Reader) (hq : peek mem r.p = 39) (hlt : r.p < r.endp) :
    next (init Globals.start) mem r = (r, ⟨r.p, 1⟩) := by
  have hs : skipSpace mem r.endp (r.endp - r.p) r.p = r.p := by
    obtain ⟨k, hk⟩ : ∃ k, r.endp - r.p = k + 1 := ⟨r.endp - r.p - 1, by omega⟩
    rw [hk]
    simp [skipSpace, hq, isspace]
  have hm : matchAt [39] mem r.p = true := by simp [matchAt, hq]
  have hz : findIndexOf [39] mem r.p = 0 :=
    findIndexOf_zero _ mem _ hm
      (strlen_ge_of_matchAt _ mem _ hm (terminators_nonzero _ quote_terminator))
  obtain ⟨z1, _, _, z4⟩ := nextLoop_zero mem r.p (init Globals.start).terminators (-1) 0
    (by omega) (Or.inr ⟨[39], quote_terminator, hz⟩)
  have hl : (nextLoop mem r.p (init Globals.start).terminators (-1) 0).2 = 1 := by
    rcases z4 with ⟨hneg, _⟩ | ⟨t, ht, hz, hl⟩
    · omega
    · rw [← hl]
      rcases matchAt_head t mem r.p (matchAt_of_findIndexOf_zero t mem _ hz) with h | h
      · exact absurd (by rw [h]; rfl) (terminators_nonempty t ht)
      · rw [hq] at h
        exact terminators_quote t ht h
  have hge : ¬ r.p ≥ r.endp := by omega
  unfold next
  simp only [hs, hge, if_false, z1, hl]
  simp

/-- At `end`, `next` returns the empty token. -/
theorem next_end (g : Globals) (mem : List Nat) (n : Nat) :
    next g mem ⟨n, n⟩ = (⟨n, n⟩, ⟨n, 0⟩) := by
  unfold next
  simp [skipSpace]

theorem djb2_quote (mem : List Nat) (p : Nat) (hq : peek mem p = 39) : djb2 mem p 1 = 177612 := by
  simp [djb2, djb2Loop, hq, charToU32]

theorem quote_not_unary : bTreeSearch (init Globals.start).unaries 177612 = none := by decide!

/-- The function `primary` at a quote: the quote is consumed, `parseChar` is called, and
`expect` asks for the closing quote. -/
theorem primary_quote (mp : Mp F) (mem : List Nat) (prev : Value F) (fuel : Nat) (r : Reader)
    (e : Option (List Nat)) (hq : peek mem r.p = 39) (hlt : r.p < r.endp) :
    primary mp (init Globals.start) mem prev (fuel + 1) r e =
      if (parseChar mp mem ⟨r.p + 1, r.endp⟩ e).1.isNull then
        some (.null, (parseChar mp mem ⟨r.p + 1, r.endp⟩ e).2.1,
          (parseChar mp mem ⟨r.p + 1, r.endp⟩ e).2.2)
      else if !(expect mem (parseChar mp mem ⟨r.p + 1, r.endp⟩ e).2.1
          (parseChar mp mem ⟨r.p + 1, r.endp⟩ e).2.2 39).2.2 then
        some (.null,
          (expect mem (parseChar mp mem ⟨r.p + 1, r.endp⟩ e).2.1
            (parseChar mp mem ⟨r.p + 1, r.endp⟩ e).2.2 39).1,
          (expect mem (parseChar mp mem ⟨r.p + 1, r.endp⟩ e).2.1
            (parseChar mp mem ⟨r.p + 1, r.endp⟩ e).2.2 39).2.1)
      else
        some ((parseChar mp mem ⟨r.p + 1, r.endp⟩ e).1,
          (expect mem (parseChar mp mem ⟨r.p + 1, r.endp⟩ e).2.1
            (parseChar mp mem ⟨r.p + 1, r.endp⟩ e).2.2 39).1,
          (expect mem (parseChar mp mem ⟨r.p + 1, r.endp⟩ e).2.1
            (parseChar mp mem ⟨r.p + 1, r.endp⟩ e).2.2 39).2.1) := by
  simp only [primary, next_quote mem r hq hlt, djb2_quote mem r.p hq, quote_not_unary, consume, hq]
  simp

/-- A literal that `parseChar` reads up to the closing quote at the last byte of the
text: `calculate` returns the integer that `parseChar` produced, with no error. -/
theorem calculate_quote_ok (mp : Mp F) (g : Globals) (hg : g.Reachable) (mem : List Nat)
    (prev : Value F) (n : Nat) (z : Int) (hlen : strlen mem 0 = n + 2) (h0 : peek mem 0 = 39)
    (hpc : parseChar mp mem ⟨1, n + 2⟩ none = (.leaf ⟨false, z, mp.init⟩, ⟨n + 1, n + 2⟩, none))
    (hq : peek mem (n + 1) = 39) :
    calculate mp g mem prev = some (⟨some false, z, mp.init⟩, init Globals.start) := by
  obtain ⟨m0, hm0⟩ := reachable_tables g hg
  have hf : 3 * (n + 2) + 2 = (3 * n + 6) + 1 + 1 := by omega
  have hprim := primary_quote mp mem prev (3 * n + 6) ⟨0, n + 2⟩ none h0 (by simp)
  simp only [Nat.zero_add, hpc, Tree.isNull, Bool.false_eq_true, if_false, expect, hq] at hprim
  simp only [bne_self_eq_false, Bool.false_eq_true, if_false, Bool.not_true] at hprim
  rw [calculate_of_tables mp g m0 hm0 mem prev, hlen, hf]
  simp only [parse, hprim, Tree.isNull, Bool.false_eq_true, if_false, next_end, parseLoop, djb2,
    djb2Loop, tables_known.2.2]
  simp [Tree.isNull, eval, tables_errorMsg]

/-- A literal after which `parseChar` leaves the cursor on a byte that is not a quote:
`calculate` fails with the message of `expect`. -/
theorem calculate_quote_unclosed (mp : Mp F) (g : Globals) (hg : g.Reachable) (mem : List Nat)
    (prev : Value F) (n q : Nat) (z : Int) (hlen : strlen mem 0 = n + 2) (h0 : peek mem 0 = 39)
    (hpc : parseChar mp mem ⟨1, n + 2⟩ none = (.leaf ⟨false, z, mp.init⟩, ⟨q, n + 2⟩, none))
    (hq : peek mem q ≠ 39) :
    calculate mp g mem prev = some (⟨none, 0, mp.init⟩,
      { init Globals.start with errorMsg := some (bytes "Expected " ++ [39, 39, 39]) }) := by
  obtain ⟨m0, hm0⟩ := reachable_tables g hg
  have hf : 3 * (n + 2) + 2 = (3 * n + 6) + 1 + 1 := by omega
  have hprim := primary_quote mp mem prev (3 * n + 6) ⟨0, n + 2⟩ none h0 (by simp)
  have hne : (peek mem q != 39) = true := by simp [hq]
  simp only [Nat.zero_add, hpc, Tree.isNull, Bool.false_eq_true, if_false, expect, hne,
    if_true, Bool.not_false] at hprim
  rw [calculate_of_tables mp g m0 hm0 mem prev, hlen, hf]
  simp only [parse, hprim, Tree.isNull, if_true]

theorem strlen_of_nonzero (l : List Nat) (h : ∀ c ∈ l, c ≠ 0) : strlen l 0 = l.length := by
  unfold strlen
  rw [List.drop_zero]
  induction l with
  | nil => rfl
  | cons a t ih =>
    have ha : (a != 0) = true := by simpa using h a (List.mem_cons_self _ _)
    rw [List.takeWhile_cons, ha]
    simp only [if_true, List.length_cons]
    rw [ih (fun c hc => h c (List.mem_cons_of_mem _ hc))]

/-! ## Escapes in character literals -/

/-- C14. Named escapes: for each escape letter `e` of `a b f n r t v \ '`, `parseChar`
on the literal made of a quote, a backslash, `e` and a quote yields the integer 7, 8, 12,
10, 13, 9, 11, 92, 39 respectively and leaves the cursor behind the one byte that follows
the backslash, and `calculate` on the literal returns that integer with no error. -/
theorem named_escapes (mp : Mp F) (g : Globals) (hg : g.Reachable) (prev : Value F)
    (x : Nat × Int) (hx : x ∈ namedEscapes) :
    parseChar mp [39, 92, x.1, 39] ⟨1, 4⟩ none = (.leaf ⟨false, x.2, mp.init⟩, ⟨3, 4⟩, none) ∧
      ∃ g', calculate mp g [39, 92, x.1, 39] prev = some (⟨some false, x.2, mp.init⟩, g') ∧
        calcError g' = none := by
  have hpc : parseChar mp [39, 92, x.1, 39] ⟨1, 4⟩ none =
      (.leaf ⟨false, x.2, mp.init⟩, ⟨3, 4⟩, none) := by
    simp only [namedEscapes, List.mem_cons, List.mem_singleton, List.not_mem_nil, or_false] at hx
    rcases hx with rfl | rfl | rfl | rfl | rfl | rfl | rfl | rfl | rfl <;>
      simp [parseChar, escape, peek]
  have hne : x.1 ≠ 0 := by
    simp only [namedEscapes, List.mem_cons, List.mem_singleton, List.not_mem_nil, or_false] at hx
    rcases hx with rfl | rfl | rfl | rfl | rfl | rfl | rfl | rfl | rfl <;> decide
  have hlen : strlen [39, 92, x.1, 39] 0 = 2 + 2 :=
    strlen_of_nonzero _ (by
      intro c hc
      simp only [List.mem_cons, List.mem_singleton, List.not_mem_nil, or_false] at hc
      rcases hc with rfl | rfl | rfl | rfl <;> first | exact hne | decide)
  exact ⟨hpc, _, calculate_quote_ok mp g hg _ prev 2 x.2 hlen rfl hpc rfl, rfl⟩

theorem named_escapes_witness :
    Globals.start.Reachable ∧ (110, 10) ∈ namedEscapes ∧
      parseChar exactMp [39, 92, 110, 39] ⟨1, 4⟩ none = (.leaf ⟨false, 10, 0⟩, ⟨3, 4⟩, none) ∧
      ∃ g', calculate exactMp Globals.start [39, 92, 110, 39] ⟨false, 0, 0⟩ =
          some (⟨some false, 10, 0⟩, g') ∧ calcError g' = none :=
  ⟨Or.inl rfl, by decide,
    named_escapes exactMp Globals.start (Or.inl rfl) ⟨false, 0, 0⟩ (110, 10) (by decide)⟩

theorem hexDigit_cast (c : Nat) (hc : isHexDigit c = true) :
    (if c ≥ 48 ∧ c ≤ 57 then ((c - 48 : Nat) : Int)
      else if c ≥ 97 ∧ c ≤ 102 then ((c - 97 + 10 : Nat) : Int)
      else ((c - 65 + 10 : Nat) : Int)) = ((hexDigit c : Nat) : Int) := by
  unfold isHexDigit at hc
  simp only [Bool.or_eq_true, Bool.and_eq_true, decide_eq_true_eq] at hc
  unfold hexDigit
  split_ifs <;> congr 1 <;> omega

/-- The hexadecimal loop of `parseChar` on a run `h` of hexadecimal digits before `end`
that a byte which is no hexadecimal digit follows. -/
theorem hexLoop_run (mem : List Nat) (endp : Nat) (rest : List Nat)
    (hrest : isHexDigit (rest.headD 0) = false) (h : List Nat) :
    ∀ (n p : Nat) (z : Int), mem.drop p = h ++ rest → (∀ c ∈ h, isHexDigit c = true) →
      h.length ≤ n → p + h.length ≤ endp →
      hexLoop mem endp n p z =
        (p + h.length, h.foldl (fun acc c => acc * ((16 : Nat) : Int) + ((hexDigit c : Nat) : Int)) z) := by
  induction h with
  | nil =>
    intro n p z hm _ _ _
    cases n with
    | zero => rfl
    | succ n =>
      have hp := peek_of_drop mem p _ hm
      simp only [List.nil_append] at hp
      unfold isHexDigit at hrest
      rw [← hp] at hrest
      simp only [Bool.or_eq_false_iff] at hrest
      simp only [hexLoop, ge_iff_le, hrest.1.1, hrest.1.2, hrest.2]
      simp
  | cons c cs ih =>
    intro n p z hm hd hn he
    cases n with
    | zero => simp at hn
    | succ n =>
      have hp : peek mem p = c := peek_of_drop mem p _ hm
      have hc := hd c (List.mem_cons_self _ _)
      have hv := hexDigit_cast c hc
      have hlt : p < endp := by
        simp only [List.length_cons] at he
        omega
      have hrec := ih n (p + 1) (z * 16 + ((hexDigit c : Nat) : Int))
        (drop_succ_of_drop mem p c _ hm) (fun x hx => hd x (List.mem_cons_of_mem _ hx))
        (by simpa using hn) (by simp only [List.length_cons] at he; omega)
      have hres : p + 1 + cs.length = p + (c :: cs).length := by
        simp only [List.length_cons]
        omega
      rw [hres] at hrec
      unfold isHexDigit at hc
      simp only [Bool.or_eq_true, Bool.and_eq_true, decide_eq_true_eq] at hc
      simp only [hexLoop, hlt, if_true, hp, ge_iff_le, List.foldl_cons]
      by_cases h1 : 48 ≤ c ∧ c ≤ 57
      · simp only [h1, if_true, and_self] at hv
        simp only [h1, decide_True, Bool.and_self, if_true, hv]
        exact hrec
      · by_cases h2 : 97 ≤ c ∧ c ≤ 102
        · have h1' : (decide (48 ≤ c) && decide (c ≤ 57)) = false := by
            simp only [Bool.and_eq_false_imp, decide_eq_true_eq, decide_eq_false_iff_not]
            omega
          simp only [ge_iff_le, h1, if_false, h2, if_true, and_self] at hv
          simp only [h1', Bool.false_eq_true, if_false, h2, decide_True, Bool.and_self, if_true, hv]
          exact hrec
        · have h1' : (decide (48 ≤ c) && decide (c ≤ 57)) = false := by
            simp only [Bool.and_eq_false_imp, decide_eq_true_eq, decide_eq_false_iff_not]
            omega
          have h2' : (decide (97 ≤ c) && decide (c ≤ 102)) = false := by
            simp only [Bool.and_eq_false_imp, decide_eq_true_eq, decide_eq_false_iff_not]
            omega
          have h3 : 65 ≤ c ∧ c ≤ 70 := by omega
          simp only [ge_iff_le, h1, if_false, h2] at hv
          simp only [h1', h2', Bool.false_eq_true, if_false, h3, decide_True, Bool.and_self,
            if_true, hv]
          exact hrec

/-- The octal loop of `parseChar` on a run `d` of octal digits before `end` that a byte
which is no octal digit follows. -/
theorem octLoop_run (mem : List Nat) (endp : Nat) (rest : List Nat)
    (hrest : isDigitOf 8 (rest.headD 0) = false) (d : List Nat) :
    ∀ (n p : Nat) (z : Int), mem.drop p = d ++ rest → (∀ c ∈ d, isDigitOf 8 c = true) →
      d.length ≤ n → p + d.length ≤ endp →
      octLoop mem endp n p z =
        (p + d.length, d.foldl (fun acc c => acc * ((8 : Nat) : Int) + ((decDigit c : Nat) : Int)) z) := by
  induction d with
  | nil =>
    intro n p z hm _ _ _
    cases n with
    | zero => rfl
    | succ n =>
      have hp := peek_of_drop mem p _ hm
      simp only [List.nil_append] at hp
      unfold isDigitOf at hrest
      rw [← hp] at hrest
      have hr : (decide (peek mem p ≥ 48) && decide (peek mem p ≤ 55)) = false := by
        simp only [Bool.and_eq_false_imp, decide_eq_true_eq, decide_eq_false_iff_not] at hrest ⊢
        omega
      simp only [octLoop, hr]
      simp
  | cons c cs ih =>
    intro n p z hm hd hn he
    cases n with
    | zero => simp at hn
    | succ n =>
      have hp : peek mem p = c := peek_of_drop mem p _ hm
      have hc := hd c (List.mem_cons_self _ _)
      have hlt : p < endp := by
        simp only [List.length_cons] at he
        omega
      have hrec := ih n (p + 1) (z * 8 + ((decDigit c : Nat) : Int))
        (drop_succ_of_drop mem p c _ hm) (fun x hx => hd x (List.mem_cons_of_mem _ hx))
        (by simpa using hn) (by simp only [List.length_cons] at he; omega)
      have hres : p + 1 + cs.length = p + (c :: cs).length := by
        simp only [List.length_cons]
        omega
      rw [hres] at hrec
      unfold isDigitOf at hc
      have hc' : (decide (c ≥ 48) && decide (c ≤ 55)) = true := by
        simp only [Bool.and_eq_true, decide_eq_true_eq] at hc ⊢
        omega
      simp only [octLoop, hlt, if_true, hp, hc', List.foldl_cons]
      exact hrec

theorem isHexDigit_ne_zero (c : Nat) (hc : isHexDigit c = true) : c ≠ 0 := by
  unfold isHexDigit at hc
  simp only [Bool.or_eq_true, Bool.and_eq_true, decide_eq_true_eq] at hc
  omega

theorem isDigitOf_ge (base c : Nat) (hc : isDigitOf base c = true) : 48 ≤ c ∧ c < 48 + base := by
  unfold isDigitOf at hc
  simpa using hc

/-- The literal of a hexadecimal escape: a quote, a backslash, one of `x`, `u`, `U`, the
hexadecimal digits `h` and a quote. -/
theorem hex_escape (mp : Mp F) (g : Globals) (hg : g.Reachable) (prev : Value F) (x : Nat)
    (h : List Nat) (hx : x = 120 ∨ x = 117 ∨ x = 85) (hh : ∀ c ∈ h, isHexDigit c = true) :
    calculate mp g (39 :: 92 :: x :: (h ++ [39])) prev =
      some (⟨some false, valueOf 16 hexDigit h, mp.init⟩, init Globals.start) := by
  have hx0 : x ≠ 0 := by rcases hx with rfl | rfl | rfl <;> decide
  have hlen : strlen (39 :: 92 :: x :: (h ++ [39])) 0 = (h.length + 2) + 2 := by
    rw [strlen_of_nonzero]
    · simp
    · intro c hc
      simp only [List.mem_cons, List.mem_append, List.mem_singleton, List.not_mem_nil,
        or_false] at hc
      rcases hc with rfl | rfl | rfl | hc | rfl
      · decide
      · decide
      · exact hx0
      · exact isHexDigit_ne_zero c (hh c hc)
      · decide
  have hd3 : (39 :: 92 :: x :: (h ++ [39])).drop 3 = h ++ [39] := rfl
  have hq : peek (39 :: 92 :: x :: (h ++ [39])) (h.length + 2 + 1) = 39 := by
    have := peek_of_drop _ _ _ (drop_add_of_drop _ 3 h [39] hd3)
    rw [show h.length + 2 + 1 = 3 + h.length by omega]
    exact this
  have hrun := hexLoop_run (39 :: 92 :: x :: (h ++ [39])) (h.length + 2 + 2) [39] (by decide) h
    (h.length + 2 + 2 - 3) 3 0 hd3 hh (by omega) (by omega)
  rw [foldl_valueOf, Int.zero_mul, Int.zero_add] at hrun
  have hesc : escape (39 :: 92 :: x :: (h ++ [39])) (h.length + 2 + 2) 2 =
      (3 + h.length, valueOf 16 hexDigit h) := by
    have hp2 : peek (39 :: 92 :: x :: (h ++ [39])) 2 = x := rfl
    unfold escape
    simp only [hp2]
    rcases hx with rfl | rfl | rfl <;> simpa using hrun
  have hpc : parseChar mp (39 :: 92 :: x :: (h ++ [39])) ⟨1, h.length + 2 + 2⟩ none =
      (.leaf ⟨false, valueOf 16 hexDigit h, mp.init⟩, ⟨h.length + 2 + 1, h.length + 2 + 2⟩,
        none) := by
    have hp1 : peek (39 :: 92 :: x :: (h ++ [39])) 1 = 92 := rfl
    have hlt : 1 < h.length + 2 + 2 := by omega
    have hge : ¬ 1 + 1 ≥ h.length + 2 + 2 := by omega
    unfold parseChar
    simp only [hp1, hlt, hge, hesc]
    simp
    omega
  exact calculate_quote_ok mp g hg _ prev (h.length + 2) _ hlen rfl hpc hq

/-- The literal of an octal escape: a quote, a backslash, the octal digits `d` (at least
one) and a quote. -/
theorem oct_escape (mp : Mp F) (g : Globals) (hg : g.Reachable) (prev : Value F)
    (c : Nat) (d : List Nat) (hd : ∀ x ∈ c :: d, isDigitOf 8 x = true) :
    calculate mp g (39 :: 92 :: c :: (d ++ [39])) prev =
      some (⟨some false, valueOf 8 decDigit (c :: d), mp.init⟩, init Globals.start) := by
  have hc := isDigitOf_ge 8 c (hd c (List.mem_cons_self _ _))
  have hlen : strlen (39 :: 92 :: c :: (d ++ [39])) 0 = (d.length + 2) + 2 := by
    rw [strlen_of_nonzero]
    · simp
    · intro y hy
      simp only [List.mem_cons, List.mem_append, List.mem_singleton, List.not_mem_nil,
        or_false] at hy
      rcases hy with rfl | rfl | rfl | hy | rfl
      · decide
      · decide
      · omega
      · have := isDigitOf_ge 8 y (hd y (List.mem_cons_of_mem _ hy))
        omega
      · decide
  have hd2 : (39 :: 92 :: c :: (d ++ [39])).drop 2 = (c :: d) ++ [39] := rfl
  have hq : peek (39 :: 92 :: c :: (d ++ [39])) (d.length + 2 + 1) = 39 := by
    have := peek_of_drop _ _ _ (drop_add_of_drop _ 2 (c :: d) [39] hd2)
    rw [show d.length + 2 + 1 = 2 + (c :: d).length by simp only [List.length_cons]; omega]
    exact this
  have hrun := octLoop_run (39 :: 92 :: c :: (d ++ [39])) (d.length + 2 + 2) [39] (by decide)
    (c :: d) (d.length + 2 + 2 - 2) 2 0 hd2 hd (by simp only [List.length_cons]; omega)
    (by simp only [List.length_cons]; omega)
  rw [foldl_valueOf, Int.zero_mul, Int.zero_add] at hrun
  have hesc : escape (39 :: 92 :: c :: (d ++ [39])) (d.length + 2 + 2) 2 =
      (2 + (c :: d).length, valueOf 8 decDigit (c :: d)) := by
    have hp2 : peek (39 :: 92 :: c :: (d ++ [39])) 2 = c := rfl
    have e1 : (c == 97) = false := by simp; omega
    have e2 : (c == 98) = false := by simp; omega
    have e3 : (c == 102) = false := by simp; omega
    have e4 : (c == 110) = false := by simp; omega
    have e5 : (c == 114) = false := by simp; omega
    have e6 : (c == 116) = false := by simp; omega
    have e7 : (c == 118) = false := by simp; omega
    have e8 : (c == 92) = false := by simp; omega
    have e9 : (c == 39) = false := by simp; omega
    have e10 : (c == 120) = false := by simp; omega
    have e11 : (c == 117) = false := by simp; omega
    have e12 : (c == 85) = false := by simp; omega
    unfold escape
    simp only [hp2, e1, e2, e3, e4, e5, e6, e7, e8, e9, e10, e11, e12, Bool.false_eq_true,
      if_false, Bool.or_self]
    exact hrun
  have hpc : parseChar mp (39 :: 92 :: c :: (d ++ [39])) ⟨1, d.length + 2 + 2⟩ none =
      (.leaf ⟨false, valueOf 8 decDigit (c :: d), mp.init⟩,
        ⟨d.length + 2 + 1, d.length + 2 + 2⟩, none) := by
    have hp1 : peek (39 :: 92 :: c :: (d ++ [39])) 1 = 92 := rfl
    have hlt : 1 < d.length + 2 + 2 := by omega
    have hge : ¬ 1 + 1 ≥ d.length + 2 + 2 := by omega
    unfold parseChar
    simp only [hp1, hlt, hge, hesc]
    simp
    omega
  exact calculate_quote_ok mp g hg _ prev (d.length + 2) _ hlen rfl hpc hq

/-- C15. Numeric escapes: for every string `h` of hexadecimal digits of either case
(possibly empty), `calculate` on the literals with `\x`, `\u` and `\U` followed by `h`
returns, with no error, the same integer, the base-16 value of `h` (0 for the empty
`h`); and for every non-empty string `d` of octal digits, `calculate` on the literal with
a backslash followed by `d` returns the base-8 value of `d`. -/
theorem numeric_escapes (mp : Mp F) (g : Globals) (hg : g.Reachable) (prev : Value F) :
    (∀ (x : Nat) (h : List Nat), x = 120 ∨ x = 117 ∨ x = 85 → (∀ c ∈ h, isHexDigit c = true) →
      ∃ g', calculate mp g ([39, 92, x] ++ h ++ [39]) prev =
        some (⟨some false, valueOf 16 hexDigit h, mp.init⟩, g') ∧ calcError g' = none) ∧
    valueOf 16 hexDigit [] = 0 ∧
    (∀ d : List Nat, d ≠ [] → (∀ c ∈ d, isDigitOf 8 c = true) →
      ∃ g', calculate mp g ([39, 92] ++ d ++ [39]) prev =
        some (⟨some false, valueOf 8 decDigit d, mp.init⟩, g') ∧ calcError g' = none) := by
  refine ⟨fun x h hx hh => ⟨_, hex_escape mp g hg prev x h hx hh, rfl⟩, rfl, ?_⟩
  intro d hd0 hd
  cases d with
  | nil => exact absurd rfl hd0
  | cons c cs => exact ⟨_, oct_escape mp g hg prev c cs hd, rfl⟩

theorem numeric_escapes_witness :
    Globals.start.Reachable ∧
      (∃ g', calculate exactMp Globals.start ([39, 92, 120] ++ bytes "41" ++ [39])
        ⟨false, 0, 0⟩ = some (⟨some false, 65, 0⟩, g') ∧ calcError g' = none) ∧
      (∃ g', calculate exactMp Globals.start ([39, 92] ++ bytes "101" ++ [39])
        ⟨false, 0, 0⟩ = some (⟨some false, 65, 0⟩, g') ∧ calcError g' = none) :=
  ⟨Or.inl rfl,
    (numeric_escapes exactMp Globals.start (Or.inl rfl) ⟨false, 0, 0⟩).1 120 (bytes "41")
      (Or.inl rfl) (by decide),
    (numeric_escapes exactMp Globals.start (Or.inl rfl) ⟨false, 0, 0⟩).2.2 (bytes "101")
      (by decide) (by decide)⟩

/-! ## UTF-8 in character literals -/

theorem lor_add (a b i : Nat) (hb : b < 2 ^ i) (ha : 2 ^ i ∣ a) : a ||| b = a + b := by
  obtain ⟨k, rfl⟩ := ha
  exact (Nat.mul_add_lt_is_or hb k).symm

theorem and_63 (n : Nat) : n &&& 63 = n % 64 := Nat.and_pow_two_sub_one_eq_mod n 6

theorem lead_three : ∀ x < 16, 224 ||| x = 224 + x ∧ (224 + x) &&& 240 = 224 ∧
    (224 + x) &&& 31 = x := by decide

theorem lead_four : ∀ x < 8, 240 ||| x = 240 + x ∧ (240 + x) &&& 240 = 240 ∧
    (240 + x) &&& 15 = x := by decide

theorem continuation : ∀ y < 64, 128 ||| y = 128 + y ∧ (128 + y) &&& 63 = y := by decide

/-- The three-byte case of the UTF-8 `switch`. -/
theorem utf8_three (mem : List Nat) (p x y z : Nat) (hx : x < 16) (hy : y < 64) (hz : z < 64)
    (h0 : peek mem p = 224 + x) (h1 : peek mem (p + 1) = 128 + y)
    (h2 : peek mem (p + 2) = 128 + z) : utf8 mem p = (p + 3, x * 4096 + y * 64 + z) := by
  have a1 : x <<< 12 ||| y <<< 6 = x * 4096 + y * 64 := by
    rw [Nat.shiftLeft_eq, Nat.shiftLeft_eq]
    exact lor_add _ _ 12 (by omega) ⟨x, by omega⟩
  have a2 : (x * 4096 + y * 64) ||| z = x * 4096 + y * 64 + z :=
    lor_add _ _ 6 (by omega) ⟨x * 64 + y, by omega⟩
  unfold utf8
  simp only [h0, h1, h2, (lead_three x hx).2.1, (lead_three x hx).2.2, (continuation y hy).2,
    (continuation z hz).2, a1, a2]
  simp
  omega

/-- The four-byte case of the UTF-8 `switch`. -/
theorem utf8_four (mem : List Nat) (p x y z w : Nat) (hx : x < 8) (hy : y < 64) (hz : z < 64)
    (hw : w < 64) (h0 : peek mem p = 240 + x) (h1 : peek mem (p + 1) = 128 + y)
    (h2 : peek mem (p + 2) = 128 + z) (h3 : peek mem (p + 3) = 128 + w) :
    utf8 mem p = (p + 4, x * 262144 + y * 4096 + z * 64 + w) := by
  have a1 : x <<< 18 ||| y <<< 12 = x * 262144 + y * 4096 := by
    rw [Nat.shiftLeft_eq, Nat.shiftLeft_eq]
    exact lor_add _ _ 18 (by omega) ⟨x, by omega⟩
  have a2 : (x * 262144 + y * 4096) ||| z <<< 6 = x * 262144 + y * 4096 + z * 64 := by
    rw [Nat.shiftLeft_eq]
    exact lor_add _ _ 12 (by omega) ⟨x * 64 + y, by omega⟩
  have a3 : (x * 262144 + y * 4096 + z * 64) ||| w = x * 262144 + y * 4096 + z * 64 + w :=
    lor_add _ _ 6 (by omega) ⟨x * 4096 + y * 64 + z, by omega⟩
  unfold utf8
  simp only [h0, h1, h2, h3, (lead_four x hx).2.1, (lead_four x hx).2.2, (continuation y hy).2,
    (continuation z hz).2, (continuation w hw).2, a1, a2, a3]
  simp
  omega

/-- The three bytes that `printValue` writes for a code point from `0x800` to `0xFFFF`. -/
theorem utf8Bytes_three (cp : Nat) (h1 : 0x800 ≤ cp) (h2 : cp < 0x10000) :
    utf8Bytes cp = [224 + cp / 4096, 128 + cp / 64 % 64, 128 + cp % 64] := by
  have c1 : ¬ cp < 0x80 := by omega
  have c2 : ¬ cp < 0x800 := by omega
  unfold utf8Bytes
  rw [if_neg c1, if_neg c2, if_pos h2]
  simp only [Nat.shiftRight_eq_div_pow, and_63]
  rw [(lead_three (cp / 2 ^ 12) (by omega)).1, (continuation (cp / 2 ^ 6 % 64) (by omega)).1,
    (continuation (cp % 64) (by omega)).1]
  congr 1
  · omega
  · congr 1
    · omega
    · congr 1
      omega

/-- The four bytes that `printValue` writes for a code point from `0x10000` to
`0x1FFFFF`. -/
theorem utf8Bytes_four (cp : Nat) (h1 : 0x10000 ≤ cp) (h2 : cp < 0x200000) :
    utf8Bytes cp =
      [240 + cp / 262144, 128 + cp / 4096 % 64, 128 + cp / 64 % 64, 128 + cp % 64] := by
  have c1 : ¬ cp < 0x80 := by omega
  have c2 : ¬ cp < 0x800 := by omega
  have c3 : ¬ cp < 0x10000 := by omega
  unfold utf8Bytes
  rw [if_neg c1, if_neg c2, if_neg c3]
  simp only [Nat.shiftRight_eq_div_pow, and_63]
  rw [(lead_four (cp / 2 ^ 18) (by omega)).1, (continuation (cp / 2 ^ 12 % 64) (by omega)).1,
    (continuation (cp / 2 ^ 6 % 64) (by omega)).1, (continuation (cp % 64) (by omega)).1]
  congr 1
  · omega
  · congr 1
    · omega
    · congr 1
      · omega
      · congr 1
        omega

/-- The function `parseChar` on a byte before `end` that is neither a quote nor a
backslash: the result of the UTF-8 `switch`. -/
theorem parseChar_utf8 (mp : Mp F) (mem : List Nat) (r : Reader) (e : Option (List Nat))
    (hlt : r.p < r.endp) (h1 : peek mem r.p ≠ 39) (h2 : peek mem r.p ≠ 92) :
    parseChar mp mem r e =
      (.leaf ⟨false, ((utf8 mem r.p).2 : Int), mp.init⟩, ⟨(utf8 mem r.p).1, r.endp⟩, e) := by
  have a1 : (peek mem r.p != 39) = true := by simp [h1]
  have a2 : (peek mem r.p == 92) = false := by simp [h2]
  unfold parseChar
  simp only [hlt, a1, a2]
  simp

/-- A literal of three bytes with the lead byte `0xE0 + x` and the continuation bytes
`0x80 + y` and `0x80 + z`. -/
theorem three_byte_literal (mp : Mp F) (g : Globals) (hg : g.Reachable) (prev : Value F)
    (x y z : Nat) (hx : x < 16) (hy : y < 64) (hz : z < 64) :
    calculate mp g [39, 224 + x, 128 + y, 128 + z, 39] prev =
      some (⟨some false, ((x * 4096 + y * 64 + z : Nat) : Int), mp.init⟩, init Globals.start) := by
  have hlen : strlen [39, 224 + x, 128 + y, 128 + z, 39] 0 = 3 + 2 := by
    rw [strlen_of_nonzero]
    · rfl
    · intro c hc
      simp only [List.mem_cons, List.mem_singleton, List.not_mem_nil, or_false] at hc
      rcases hc with rfl | rfl | rfl | rfl | rfl <;> omega
  have hu := utf8_three [39, 224 + x, 128 + y, 128 + z, 39] 1 x y z hx hy hz rfl rfl rfl
  have hpc := parseChar_utf8 mp [39, 224 + x, 128 + y, 128 + z, 39] ⟨1, 3 + 2⟩ none
    (by simp) (show 224 + x ≠ 39 by omega) (show 224 + x ≠ 92 by omega)
  rw [hu] at hpc
  exact calculate_quote_ok mp g hg _ prev 3 _ hlen rfl hpc rfl

/-- A literal of four bytes with the lead byte `0xF0 + x` and the continuation bytes
`0x80 + y`, `0x80 + z` and `0x80 + w`. -/
theorem four_byte_literal (mp : Mp F) (g : Globals) (hg : g.Reachable) (prev : Value F)
    (x y z w : Nat) (hx : x < 8) (hy : y < 64) (hz : z < 64) (hw : w < 64) :
    calculate mp g [39, 240 + x, 128 + y, 128 + z, 128 + w, 39] prev =
      some (⟨some false, ((x * 262144 + y * 4096 + z * 64 + w : Nat) : Int), mp.init⟩,
        init Globals.start) := by
  have hlen : strlen [39, 240 + x, 128 + y, 128 + z, 128 + w, 39] 0 = 4 + 2 := by
    rw [strlen_of_nonzero]
    · rfl
    · intro c hc
      simp only [List.mem_cons, List.mem_singleton, List.not_mem_nil, or_false] at hc
      rcases hc with rfl | rfl | rfl | rfl | rfl | rfl <;> omega
  have hu := utf8_four [39, 240 + x, 128 + y, 128 + z, 128 + w, 39] 1 x y z w hx hy hz hw
    rfl rfl rfl rfl
  have hpc := parseChar_utf8 mp [39, 240 + x, 128 + y, 128 + z, 128 + w, 39] ⟨1, 4 + 2⟩ none
    (by simp) (show 240 + x ≠ 39 by omega) (show 240 + x ≠ 92 by omega)
  rw [hu] at hpc
  exact calculate_quote_ok mp g hg _ prev 4 _ hlen rfl hpc rfl

/-- C16. UTF-8 three- and four-byte literals: for every code point `cp` from `0x800` to
`0x1FFFFF`, whose UTF-8 encoding has three bytes with a lead byte `0xE0`-`0xEF` (below
`0x10000`) or four bytes with a lead byte `0xF0`-`0xF7`, `calculate` on a quote, the bytes
of the encoding and a quote returns the integer `cp` with no error. -/
theorem utf8_literals (mp : Mp F) (g : Globals) (hg : g.Reachable) (prev : Value F) (cp : Nat)
    (h1 : 0x800 ≤ cp) (h2 : cp < 0x200000) :
    (if cp < 0x10000 then
        (utf8Bytes cp).length = 3 ∧ 0xE0 ≤ (utf8Bytes cp).headD 0 ∧ (utf8Bytes cp).headD 0 ≤ 0xEF
      else
        (utf8Bytes cp).length = 4 ∧ 0xF0 ≤ (utf8Bytes cp).headD 0 ∧
          (utf8Bytes cp).headD 0 ≤ 0xF7) ∧
      ∃ g', calculate mp g ([39] ++ utf8Bytes cp ++ [39]) prev =
        some (⟨some false, (cp : Int), mp.init⟩, g') ∧ calcError g' = none := by
  by_cases h3 : cp < 0x10000
  · rw [if_pos h3, utf8Bytes_three cp h1 h3]
    refine ⟨⟨rfl, ?_, ?_⟩, init Globals.start, ?_, rfl⟩
    · simp
    · simp only [List.headD_cons]
      omega
    · have hv : cp / 4096 * 4096 + cp / 64 % 64 * 64 + cp % 64 = cp := by omega
      have h := three_byte_literal mp g hg prev (cp / 4096) (cp / 64 % 64) (cp % 64)
        (by omega) (by omega) (by omega)
      rw [hv] at h
      exact h
  · rw [if_neg h3, utf8Bytes_four cp (by omega) h2]
    refine ⟨⟨rfl, ?_, ?_⟩, init Globals.start, ?_, rfl⟩
    · simp
    · simp only [List.headD_cons]
      omega
    · have hv : cp / 262144 * 262144 + cp / 4096 % 64 * 4096 + cp / 64 % 64 * 64 + cp % 64 =
          cp := by omega
      have h := four_byte_literal mp g hg prev (cp / 262144) (cp / 4096 % 64) (cp / 64 % 64)
        (cp % 64) (by omega) (by omega) (by omega) (by omega)
      rw [hv] at h
      exact h

theorem utf8_literals_witness :
    Globals.start.Reachable ∧ 0x800 ≤ 0x20AC ∧ 0x20AC < 0x200000 ∧
      utf8Bytes 0x20AC = [0xE2, 0x82, 0xAC] ∧
      ∃ g', calculate exactMp Globals.start ([39] ++ utf8Bytes 0x20AC ++ [39]) ⟨false, 0, 0⟩ =
        some (⟨some false, 0x20AC, 0⟩, g') ∧ calcError g' = none :=
  ⟨Or.inl rfl, by decide, by decide, by decide,
    (utf8_literals exactMp Globals.start (Or.inl rfl) ⟨false, 0, 0⟩ 0x20AC (by decide)
      (by decide)).2⟩

/-! ## Lead bytes without a `case` in the UTF-8 `switch` -/

theorem no_case_nibble : ∀ c < 224, (16 ≤ c ∧ c < 128) ∨ (208 ≤ c ∧ c < 224) →
    (c &&& 240 == 0) = false ∧ (c &&& 240 == 128) = false ∧ (c &&& 240 == 192) = false ∧
      (c &&& 240 == 224) = false ∧ (c &&& 240 == 240) = false := by decide!

theorem low_nibble : ∀ c < 16, (c &&& 240 == 0) = true := by decide

theorem two_byte_nibble : ∀ c < 208, 192 ≤ c →
    (c &&& 240 == 0) = false ∧ (c &&& 240 == 128) = false ∧ (c &&& 240 == 192) = true := by
  decide!

/-- A lead byte with a high nibble from 1 to 7 or the high nibble `d` matches no `case`:
the cursor stays and `val` keeps its initial 0. -/
theorem utf8_no_case (mem : List Nat) (p : Nat)
    (h : (16 ≤ peek mem p ∧ peek mem p < 128) ∨ (208 ≤ peek mem p ∧ peek mem p < 224)) :
    utf8 mem p = (p, 0) := by
  have hlt : peek mem p < 224 := by omega
  obtain ⟨a0, a1, a2, a3, a4⟩ := no_case_nibble (peek mem p) hlt h
  unfold utf8
  simp only [a0, a1, a2, a3, a4, Bool.or_self, Bool.false_eq_true, if_false]

/-- A byte below `0x10` is taken as it stands. -/
theorem utf8_low (mem : List Nat) (p : Nat) (h : peek mem p < 16) :
    utf8 mem p = (p + 1, peek mem p) := by
  have hc : charToU32 (peek mem p) = peek mem p := by
    unfold charToU32
    rw [if_pos (by omega)]
  unfold utf8
  simp only [low_nibble (peek mem p) h, Bool.true_or, if_true, hc]

/-- A lead byte with the high nibble `c` takes two bytes. -/
theorem utf8_two (mem : List Nat) (p : Nat) (h1 : 192 ≤ peek mem p) (h2 : peek mem p < 208) :
    utf8 mem p = (p + 2, ((peek mem p &&& 0x1f) <<< 6) ||| (peek mem (p + 1) &&& 0x3f)) := by
  obtain ⟨a0, a1, a2⟩ := two_byte_nibble (peek mem p) h2 h1
  have hb : ((peek mem p &&& 0x1f) <<< 6) ||| (peek mem (p + 1) &&& 0x3f) < 4294967296 := by
    have e1 : peek mem p &&& 0x1f ≤ 0x1f := Nat.and_le_right
    have e2 : peek mem (p + 1) &&& 0x3f ≤ 0x3f := Nat.and_le_right
    have e3 : (peek mem p &&& 0x1f) <<< 6 < 2 ^ 32 := by
      rw [Nat.shiftLeft_eq]
      omega
    exact Nat.or_lt_two_pow e3 (by omega)
  unfold utf8
  simp only [a0, a1, a2, Bool.or_self, Bool.false_eq_true, if_false, if_true,
    Nat.mod_eq_of_lt hb]

/-- C13. ASCII character literals: for every ASCII byte `c` from `0x10` to `0x7F` other
than the quote and the backslash, `parseChar` on the literal of `c` between quotes
matches no `case`, yields 0 and leaves the cursor on `c`, and `calculate` fails with the
message `Expected '''` (so on `'A'`); `'a' + 1` fails alike; for the bytes `0x01` to
`0x0F`, `calculate` returns the byte. -/
theorem ascii_literals (mp : Mp F) (g : Globals) (hg : g.Reachable) (prev : Value F) (c : Nat)
    (h1 : 0x10 ≤ c) (h2 : c ≤ 0x7F) (h3 : c ≠ 39) (h4 : c ≠ 92) :
    parseChar mp [39, c, 39] ⟨1, 3⟩ none = (.leaf ⟨false, 0, mp.init⟩, ⟨1, 3⟩, none) ∧
      calculate mp g [39, c, 39] prev = some (⟨none, 0, mp.init⟩,
        { init Globals.start with errorMsg := some (bytes "Expected " ++ [39, 39, 39]) }) ∧
      calculate exactMp Globals.start [39, 97, 39, 32, 43, 32, 49] ⟨false, 0, 0⟩ =
        some (⟨none, 0, 0⟩,
          { init Globals.start with errorMsg := some (bytes "Expected " ++ [39, 39, 39]) }) ∧
      ∀ b : Nat, 1 ≤ b → b ≤ 0x0F →
        calculate mp g [39, b, 39] prev = some (⟨some false, (b : Int), mp.init⟩,
          init Globals.start) := by
  have hpc : parseChar mp [39, c, 39] ⟨1, 3⟩ none = (.leaf ⟨false, 0, mp.init⟩, ⟨1, 3⟩, none) := by
    have hu := utf8_no_case [39, c, 39] 1 (Or.inl ⟨h1, show c < 128 by omega⟩)
    have hp := parseChar_utf8 mp [39, c, 39] ⟨1, 3⟩ none (by simp) h3 h4
    rw [hu] at hp
    exact hp
  have hlen : ∀ b : Nat, b ≠ 0 → strlen [39, b, 39] 0 = 1 + 2 := by
    intro b hb
    rw [strlen_of_nonzero]
    · rfl
    · intro y hy
      simp only [List.mem_cons, List.mem_singleton, List.not_mem_nil, or_false] at hy
      rcases hy with rfl | rfl | rfl <;> first | exact hb | decide
  refine ⟨hpc, ?_, by decide!, ?_⟩
  · exact calculate_quote_unclosed mp g hg _ prev 1 1 0 (hlen c (by omega)) rfl hpc h3
  · intro b hb1 hb2
    have hu := utf8_low [39, b, 39] 1 (show b < 16 by omega)
    have hp := parseChar_utf8 mp [39, b, 39] ⟨1, 3⟩ none (by simp) (show b ≠ 39 by omega)
      (show b ≠ 92 by omega)
    rw [hu] at hp
    exact calculate_quote_ok mp g hg _ prev 1 _ (hlen b (by omega)) rfl hp rfl

theorem ascii_literals_witness :
    Globals.start.Reachable ∧ 0x10 ≤ 65 ∧ 65 ≤ 0x7F ∧ 65 ≠ 39 ∧ 65 ≠ 92 ∧
      parseChar exactMp [39, 65, 39] ⟨1, 3⟩ none = (.leaf ⟨false, 0, 0⟩, ⟨1, 3⟩, none) ∧
      calculate exactMp Globals.start [39, 65, 39] ⟨false, 0, 0⟩ = some (⟨none, 0, 0⟩,
        { init Globals.start with errorMsg := some (bytes "Expected " ++ [39, 39, 39]) }) :=
  ⟨Or.inl rfl, by decide, by decide, by decide, by decide,
    (ascii_literals exactMp Globals.start (Or.inl rfl) ⟨false, 0, 0⟩ 65 (by decide) (by decide)
      (by decide) (by decide)).1,
    (ascii_literals exactMp Globals.start (Or.inl rfl) ⟨false, 0, 0⟩ 65 (by decide) (by decide)
      (by decide) (by decide)).2.1⟩

/-- C17. UTF-8 two-byte literals: for a lead byte `b0` with the high nibble `d` and a
following byte `b1`, the UTF-8 `switch` of `parseChar` matches no `case`, takes no byte
and yields 0, and `calculate` on the literal fails with the message `Expected '''` (so on
the bytes `0xD0 0x94` of U+0414); for a lead byte with the high nibble `c` the `switch`
takes two bytes and yields `((b0 & 0x1F) << 6) | (b1 & 0x3F)`. -/
theorem two_byte_literals (mp : Mp F) (g : Globals) (hg : g.Reachable) (prev : Value F)
    (b0 b1 : Nat) (h1 : 0xD0 ≤ b0) (h2 : b0 ≤ 0xDF) (h3 : b1 ≠ 0) :
    utf8 [39, b0, b1, 39] 1 = (1, 0) ∧
      parseChar mp [39, b0, b1, 39] ⟨1, 4⟩ none = (.leaf ⟨false, 0, mp.init⟩, ⟨1, 4⟩, none) ∧
      calculate mp g [39, b0, b1, 39] prev = some (⟨none, 0, mp.init⟩,
        { init Globals.start with errorMsg := some (bytes "Expected " ++ [39, 39, 39]) }) ∧
      ∀ a0 a1 : Nat, 0xC0 ≤ a0 → a0 ≤ 0xCF →
        utf8 [39, a0, a1, 39] 1 = (3, ((a0 &&& 0x1F) <<< 6) ||| (a1 &&& 0x3F)) := by
  have hu := utf8_no_case [39, b0, b1, 39] 1 (Or.inr ⟨h1, show b0 < 224 by omega⟩)
  have hpc : parseChar mp [39, b0, b1, 39] ⟨1, 4⟩ none =
      (.leaf ⟨false, 0, mp.init⟩, ⟨1, 4⟩, none) := by
    have hp := parseChar_utf8 mp [39, b0, b1, 39] ⟨1, 4⟩ none (by simp)
      (show b0 ≠ 39 by omega) (show b0 ≠ 92 by omega)
    rw [hu] at hp
    exact hp
  have hlen : strlen [39, b0, b1, 39] 0 = 2 + 2 := by
    rw [strlen_of_nonzero]
    · rfl
    · intro y hy
      simp only [List.mem_cons, List.mem_singleton, List.not_mem_nil, or_false] at hy
      rcases hy with rfl | rfl | rfl | rfl <;> first | exact h3 | omega
  refine ⟨hu, hpc, ?_, ?_⟩
  · exact calculate_quote_unclosed mp g hg _ prev 2 1 0 hlen rfl hpc (show b0 ≠ 39 by omega)
  · intro a0 a1 ha1 ha2
    exact utf8_two [39, a0, a1, 39] 1 ha1 (show a0 < 208 by omega)

theorem two_byte_literals_witness :
    Globals.start.Reachable ∧ 0xD0 ≤ 0xD0 ∧ 0xD0 ≤ 0xDF ∧ 0x94 ≠ 0 ∧
      utf8Bytes 0x414 = [0xD0, 0x94] ∧
      utf8 [39, 0xD0, 0x94, 39] 1 = (1, 0) ∧
      calculate exactMp Globals.start [39, 0xD0, 0x94, 39] ⟨false, 0, 0⟩ = some (⟨none, 0, 0⟩,
        { init Globals.start with errorMsg := some (bytes "Expected " ++ [39, 39, 39]) }) :=
  ⟨Or.inl rfl, by decide, by decide, by decide, by decide,
    (two_byte_literals exactMp Globals.start (Or.inl rfl) ⟨false, 0, 0⟩ 0xD0 0x94 (by decide)
      (by decide) (by decide)).1,
    (two_byte_literals exactMp Globals.start (Or.inl rfl) ⟨false, 0, 0⟩ 0xD0 0x94 (by decide)
      (by decide) (by decide)).2.2.1⟩

/-! ## Hexadecimal literals -/

/-- The call of `parse` in `calculate` on the text `0x20 | 7`, for a scanner that reads
the four bytes `0x20` as 32 and the byte `7` as 7. -/
theorem hex_or_parse (mp : Mp F) (prev : Value F) (f1 f2 : F)
    (s1 : mp.sscanf (bytes "0x20 | 7") 0 = some (f1, 4)) (i1 : mp.integer_p f1 = true)
    (z1 : mp.get_z f1 = 32)
    (s2 : mp.sscanf (bytes "0x20 | 7") 7 = some (f2, 1)) (i2 : mp.integer_p f2 = true)
    (z2 : mp.get_z f2 = 7) :
    parse mp (init Globals.start) (bytes "0x20 | 7") prev (3 * strlen (bytes "0x20 | 7") 0 + 2) 0
      ⟨0, strlen (bytes "0x20 | 7") 0⟩ none =
      some (.branch ⟨0, Left, OR⟩ (.leaf ⟨false, 32, f1⟩) (.leaf ⟨false, 7, f2⟩), ⟨8, 8⟩, none) := by
  have hs : strlen (bytes "0x20 | 7") 0 = 8 := by decide
  have n0 : next (init Globals.start) (bytes "0x20 | 7") ⟨0, 8⟩ = (⟨0, 8⟩, ⟨0, 1⟩) := by decide!
  have n4 : next (init Globals.start) (bytes "0x20 | 7") ⟨4, 8⟩ = (⟨5, 8⟩, ⟨5, 1⟩) := by decide!
  have n6 : next (init Globals.start) (bytes "0x20 | 7") ⟨6, 8⟩ = (⟨7, 8⟩, ⟨7, 1⟩) := by decide!
  have n8 : next (init Globals.start) (bytes "0x20 | 7") ⟨8, 8⟩ = (⟨8, 8⟩, ⟨8, 0⟩) := by decide!
  have u0 : bTreeSearch (init Globals.start).unaries (djb2 (bytes "0x20 | 7") 0 1) = none := by
    decide!
  have u7 : bTreeSearch (init Globals.start).unaries (djb2 (bytes "0x20 | 7") 7 1) = none := by
    decide!
  have b5 : bTreeSearch (init Globals.start).binaries (djb2 (bytes "0x20 | 7") 5 1) =
      some ⟨0, Left, OR⟩ := by decide!
  have b8 : bTreeSearch (init Globals.start).binaries (djb2 (bytes "0x20 | 7") 8 0) = none := by
    decide!
  have p0 : peek (bytes "0x20 | 7") 0 = 48 := by decide
  have p1 : peek (bytes "0x20 | 7") 1 = 120 := by decide
  have p7 : peek (bytes "0x20 | 7") 7 = 55 := by decide
  have d0 : dotLoop (bytes "0x20 | 7") 4 0 false = (4, false) := by decide
  have d7 : dotLoop (bytes "0x20 | 7") 1 7 false = (8, false) := by decide
  rw [hs]
  simp [parse, primary, parseLoop, leaf, branch, subprec, consume, n0, n4, n6, n8, u0, u7, b5, b8,
    p0, p1, p7, d0, d7, s1, s2, i1, i2, z1, z2, Tree.isNull, Left]

/-- The call of `parse` in `calculate` on the text `~0xff`, for a scanner that reads the
four bytes `0xff` as 255. -/
theorem hex_not_parse (mp : Mp F) (prev : Value F) (f3 : F)
    (s3 : mp.sscanf (bytes "~0xff") 1 = some (f3, 4)) (i3 : mp.integer_p f3 = true)
    (z3 : mp.get_z f3 = 255) :
    parse mp (init Globals.start) (bytes "~0xff") prev (3 * strlen (bytes "~0xff") 0 + 2) 0
      ⟨0, strlen (bytes "~0xff") 0⟩ none =
      some (.branch ⟨6, Unary, NOT⟩ (.leaf ⟨false, 255, f3⟩) .null, ⟨5, 5⟩, none) := by
  have hs : strlen (bytes "~0xff") 0 = 5 := by decide
  have n0 : next (init Globals.start) (bytes "~0xff") ⟨0, 5⟩ = (⟨0, 5⟩, ⟨0, 1⟩) := by decide!
  have n1 : next (init Globals.start) (bytes "~0xff") ⟨1, 5⟩ = (⟨1, 5⟩, ⟨1, 4⟩) := by decide!
  have n5 : next (init Globals.start) (bytes "~0xff") ⟨5, 5⟩ = (⟨5, 5⟩, ⟨5, 0⟩) := by decide!
  have u0 : bTreeSearch (init Globals.start).unaries (djb2 (bytes "~0xff") 0 1) =
      some ⟨6, Unary, NOT⟩ := by decide!
  have u1 : bTreeSearch (init Globals.start).unaries (djb2 (bytes "~0xff") 1 4) = none := by
    decide!
  have b5 : bTreeSearch (init Globals.start).binaries (djb2 (bytes "~0xff") 5 0) = none := by
    decide!
  have p1 : peek (bytes "~0xff") 1 = 48 := by decide
  have p2 : peek (bytes "~0xff") 2 = 120 := by decide
  have d1 : dotLoop (bytes "~0xff") 4 1 false = (5, false) := by decide
  rw [hs]
  simp [parse, primary, parseLoop, leaf, branch, consume, n0, n1, n5, u0, u1, b5, p1, p2, d1, s3,
    i3, z3, Tree.isNull]

/-- C18. Hexadecimal literals in expressions: for every backend whose scanner reads the
four bytes `0x20` as the integer 32, the byte `7` as 7 and the four bytes `0xff` as 255
(as the scanner of the GMP library does), `calculate` on `0x20 | 7` reports no error and
returns the integer 39, and on `~0xff` it reports no error and returns the integer
-256. -/
theorem hex_literals (mp : Mp F) (g : Globals) (hg : g.Reachable) (prev : Value F)
    (s1 : mp.scans (bytes "0x20 | 7") 0 4 32) (s2 : mp.scans (bytes "0x20 | 7") 7 1 7)
    (s3 : mp.scans (bytes "~0xff") 1 4 255) :
    (∃ g', calculate mp g (bytes "0x20 | 7") prev = some (⟨some false, 39, mp.init⟩, g') ∧
        calcError g' = none) ∧
      ∃ g', calculate mp g (bytes "~0xff") prev = some (⟨some false, -256, mp.init⟩, g') ∧
        calcError g' = none := by
  obtain ⟨f1, a1, i1, z1⟩ := s1
  obtain ⟨f2, a2, i2, z2⟩ := s2
  obtain ⟨f3, a3, i3, z3⟩ := s3
  obtain ⟨m0, hm0⟩ := reachable_tables g hg
  have e1 : Int.lor 32 7 = 39 := by decide
  have e2 : Int.lnot 255 = -256 := by decide
  refine ⟨⟨init Globals.start, ?_, rfl⟩, init Globals.start, ?_, rfl⟩
  · rw [calculate_of_tables mp g m0 hm0 _ prev, hex_or_parse mp prev f1 f2 a1 i1 z1 a2 i2 z2]
    simp [Tree.isNull, eval, evalReturn, evalSwitch, evalBitwise, OR, e1, tables_errorMsg]
  · rw [calculate_of_tables mp g m0 hm0 _ prev, hex_not_parse mp prev f3 a3 i3 z3]
    simp [Tree.isNull, eval, evalReturn, evalSwitch, OR, XOR, AND, SHL, SHR, ADD, SUB, MUL, DIV,
      MOD, NEG, POS, NOT, e2, tables_errorMsg]

theorem hex_literals_witness :
    Globals.start.Reachable ∧ hexMp.scans (bytes "0x20 | 7") 0 4 32 ∧
      hexMp.scans (bytes "0x20 | 7") 7 1 7 ∧ hexMp.scans (bytes "~0xff") 1 4 255 ∧
      (∃ g', calculate hexMp Globals.start (bytes "0x20 | 7") ⟨false, 0, 0⟩ =
        some (⟨some false, 39, 0⟩, g') ∧ calcError g' = none) ∧
      ∃ g', calculate hexMp Globals.start (bytes "~0xff") ⟨false, 0, 0⟩ =
        some (⟨some false, -256, 0⟩, g') ∧ calcError g' = none :=
  ⟨Or.inl rfl, ⟨32, by decide!, by decide!, by decide!⟩, ⟨7, by decide!, by decide!, by decide!⟩,
    ⟨255, by decide!, by decide!, by decide!⟩,
    hex_literals hexMp Globals.start (Or.inl rfl) ⟨false, 0, 0⟩
      ⟨32, by decide!, by decide!, by decide!⟩ ⟨7, by decide!, by decide!, by decide!⟩
      ⟨255, by decide!, by decide!, by decide!⟩⟩

/-- C18 (counterexample). With the scanner that takes the decimal pattern only, which
reads the single byte `0` at `0x20 | 7` and at the `0` of `~0xff`, `calculate` on both
texts fails with the message `Expected operator`. -/
theorem hex_literals_counterexample :
    exactMp.sscanf (bytes "0x20 | 7") 0 = some (0, 1) ∧
      exactMp.sscanf (bytes "~0xff") 1 = some (0, 1) ∧
      calculate exactMp Globals.start (bytes "0x20 | 7") ⟨false, 0, 0⟩ = some (⟨none, 0, 0⟩,
        { init Globals.start with errorMsg := some (bytes "Expected operator") }) ∧
      calculate exactMp Globals.start (bytes "~0xff") ⟨false, 0, 0⟩ = some (⟨none, 0, 0⟩,
        { init Globals.start with errorMsg := some (bytes "Expected operator") }) := by
  refine ⟨by decide!, by decide!, by decide!, by decide!⟩

/-! ## Operator lookup by hash against exact lookup -/

/-- C24 (failing input). The rows of `registered` are what the tables hold under the hash
of their lexemes.  On the text `493575738` the token that `next` returns is the whole
text; exact lookup finds no unary operator of these bytes, while the lookup by `djb2`
hash returns the record of `tan`, so `primary` consumes the literal as a unary operator
and `calculate` fails with `Unexpected end`, whatever the backend.  On the text `1;]`
the token peeked behind the literal `1` is `;]`; exact lookup finds no binary operator,
while the lookup by hash returns the record of `<<`. -/
theorem hash_lookup_not_exact (mp : Mp F) (prev : Value F) :
    (∀ row ∈ registered,
      (if row.2.assoc = Unary then bTreeSearch (init Globals.start).unaries
        else bTreeSearch (init Globals.start).binaries) (djb2 row.1 0 row.1.length) =
          some row.2) ∧
    next (init Globals.start) (bytes "493575738") ⟨0, 9⟩ = (⟨0, 9⟩, ⟨0, 9⟩) ∧
    tokenBytes (bytes "493575738") ⟨0, 9⟩ = bytes "493575738" ∧
    exactUnary (bytes "493575738") = none ∧
    bTreeSearch (init Globals.start).unaries (djb2 (bytes "493575738") 0 9) =
      some ⟨8, Unary, TAN⟩ ∧
    calculate mp Globals.start (bytes "493575738") prev = some (⟨none, 0, mp.init⟩,
      { init Globals.start with errorMsg := some (bytes "Unexpected end") }) ∧
    next (init Globals.start) (bytes "1;]") ⟨1, 3⟩ = (⟨1, 3⟩, ⟨1, 2⟩) ∧
    tokenBytes (bytes "1;]") ⟨1, 2⟩ = bytes ";]" ∧
    exactBinary (bytes ";]") = none ∧
    bTreeSearch (init Globals.start).binaries (djb2 (bytes "1;]") 1 2) = some ⟨3, Left, SHL⟩ ∧
    calculate exactMp Globals.start (bytes "1;]") ⟨false, 0, 0⟩ = some (⟨none, 0, 0⟩,
      { init Globals.start with errorMsg := some (bytes "Unexpected end") }) := by
  have n0 : next (init Globals.start) (bytes "493575738") ⟨0, 9⟩ = (⟨0, 9⟩, ⟨0, 9⟩) := by decide!
  have n9 : next (init Globals.start) (bytes "493575738") ⟨9, 9⟩ = (⟨9, 9⟩, ⟨9, 0⟩) := by decide!
  have u0 : bTreeSearch (init Globals.start).unaries (djb2 (bytes "493575738") 0 9) =
      some ⟨8, Unary, TAN⟩ := by decide!
  have hs : strlen (bytes "493575738") 0 = 9 := by decide
  refine ⟨by decide!, n0, by decide, by decide, u0, ?_, by decide!, by decide, by decide,
    by decide!, by decide!⟩
  rw [calculate_of_tables mp Globals.start none (by rw [tables_errorMsg]; rfl), hs]
  simp [parse, primary, consume, n0, n9, u0, Tree.isNull]

/-! ## The extent of a unary operand -/

/-- C21 (failing input). On the text `sqrt 2 ** 493575738` (`prec(**) < prec(sqrt)`),
`parse(0)` returns `NULL` with the message `Unexpected end`, not the tree
`(sqrt 2) ** 493575738`: the trailing literal is looked up by its hash and taken for the
operator `tan`.  On `U 2 B 3`, for each of the 10 unary operators `U` and 11 binary
operators `B`, `parse(0)` does return `(U 2) B 3` when `prec(B) < prec(U)` and
`U (2 B 3)` otherwise; so on `sqrt 2 ** 2`. -/
theorem unary_extent_failing_input :
    parse exactMp (init Globals.start) (bytes "sqrt 2 ** 493575738") ⟨false, 0, 0⟩
        (3 * strlen (bytes "sqrt 2 ** 493575738") 0 + 2) 0
        ⟨0, strlen (bytes "sqrt 2 ** 493575738") 0⟩ none =
      some (.null, ⟨19, 19⟩, some (bytes "Unexpected end")) ∧
    bTreeSearch (init Globals.start).unaries (djb2 (bytes "sqrt 2 ** 493575738") 10 9) =
      some ⟨8, Unary, TAN⟩ ∧
    (∀ u ∈ registered, u.2.assoc = Unary → ∀ b ∈ registered, b.2.assoc ≠ Unary →
      extentHolds u b = true) ∧
    parse exactMp (init Globals.start) (bytes "sqrt 2 ** 2") ⟨false, 0, 0⟩
        (3 * strlen (bytes "sqrt 2 ** 2") 0 + 2) 0 ⟨0, strlen (bytes "sqrt 2 ** 2") 0⟩ none =
      some (.branch ⟨7, Right, POW⟩ (.branch ⟨8, Unary, SQRT⟩ (.leaf ⟨false, 2, 2⟩) .null)
        (.leaf ⟨false, 2, 2⟩), ⟨11, 11⟩, none) := by
  refine ⟨by decide!, by decide!, by decide!, by decide!⟩

/-! ## The order of the terminator list -/

/-- One pass of the terminator loop of `next` over a cell, as a function of the state. -/
theorem nextLoop_cons (mem : List Nat) (p : Nat) (t : List Nat) (ts : List (List Nat))
    (pos : Int) (len : Nat) :
    nextLoop mem p (t :: ts) pos len =
      nextLoop mem p ts
        (if findIndexOf t mem p > -1 ∧ (pos = -1 ∨ pos ≥ findIndexOf t mem p) then
          findIndexOf t mem p else pos)
        (if findIndexOf t mem p > -1 ∧ (pos = -1 ∨ pos ≥ findIndexOf t mem p) then
          (if pos = findIndexOf t mem p then max len t.length else t.length) else len) := by
  rw [nextLoop]
  generalize findIndexOf t mem p = o
  by_cases h1 : o > -1
  · by_cases h2 : pos = -1 ∨ pos ≥ o
    · have h2' : (pos == -1 || decide (pos ≥ o)) = true := by simpa using h2
      by_cases h3 : pos = o
      · subst h3
        by_cases h4 : t.length > len
        · simp [h1, h4, Nat.max_eq_right (Nat.le_of_lt h4)]
        · simp [h1, h4, Nat.max_eq_left (Nat.le_of_not_lt h4)]
      · have h3' : (pos == o) = false := by simpa using h3
        simp only [h1, h2, h2', h3, h3', if_true, if_false, and_self, Bool.false_eq_true]
    · have h2' : (pos == -1 || decide (pos ≥ o)) = false := by simpa using h2
      simp only [h1, h2, h2', if_true, if_false, and_false, Bool.false_eq_true]
  · simp only [h1, if_false, false_and]

/-- The terminator loop of `next` gives the same state for every order of the list. -/
theorem nextLoop_perm (mem : List Nat) (p : Nat) (ts ts' : List (List Nat))
    (h : ts.Perm ts') (pos : Int) (len : Nat) :
    nextLoop mem p ts pos len = nextLoop mem p ts' pos len := by
  induction h generalizing pos len with
  | nil => rfl
  | cons x _ ih => rw [nextLoop_cons, nextLoop_cons, ih]
  | swap x y l =>
    rw [nextLoop_cons, nextLoop_cons, nextLoop_cons, nextLoop_cons]
    congr 1
    · split_ifs <;> omega
    · split_ifs <;> omega
  | trans _ _ ih1 ih2 => rw [ih1, ih2]

/-- C22. Terminator order independence: for every input and reader, `next` returns the
same reader and the same token (start and length) for two states of the globals whose
terminator lists are permutations of each other. -/
theorem terminator_order (g g' : Globals) (h : g.terminators.Perm g'.terminators)
    (mem : List Nat) (r : Reader) : next g mem r = next g' mem r := by
  unfold next
  simp only [nextLoop_perm mem _ _ _ h]

theorem terminator_order_witness :
    (init Globals.start).terminators.Perm
        ({ init Globals.start with
          terminators := (init Globals.start).terminators.reverse } : Globals).terminators ∧
      next (init Globals.start) (bytes "2 **3") ⟨1, 5⟩ =
        next { init Globals.start with terminators := (init Globals.start).terminators.reverse }
          (bytes "2 **3") ⟨1, 5⟩ :=
  ⟨(List.reverse_perm _).symm,
    terminator_order (init Globals.start)
      { init Globals.start with terminators := (init Globals.start).terminators.reverse }
      (List.reverse_perm _).symm (bytes "2 **3") ⟨1, 5⟩⟩

/-! ## The shape of the parsed trees -/

theorem tables_arity : (init Globals.start).TablesArity := by
  have hu : ∀ e ∈ entries (init Globals.start).unaries, ∀ op, e.2 = some op →
      op.assoc = Unary ∧ isUnaryOp op.output = true := by
    decide!
  have hb : ∀ e ∈ entries (init Globals.start).binaries, ∀ op, e.2 = some op →
      (op.assoc = Left ∨ op.assoc = Right) ∧ isBinaryOp op.output = true := by
    decide!
  exact ⟨fun k op h => hu _ (bTreeSearch_mem _ k op h) op rfl,
    fun k op h => hb _ (bTreeSearch_mem _ k op h) op rfl⟩

theorem leaf_arity (mp : Mp F) (mem : List Nat) (r : Reader) (e : Option (List Nat))
    (prev : Value F) : arityFormed (leaf mp mem r e prev).1 = true := by
  unfold leaf
  simp only
  split_ifs <;> first | rfl | (split <;> first | rfl | (split_ifs <;> rfl))

theorem parseChar_arity (mp : Mp F) (mem : List Nat) (r : Reader) (e : Option (List Nat)) :
    arityFormed (parseChar mp mem r e).1 = true := by
  unfold parseChar
  simp only
  split_ifs <;> rfl

/-- Every tree that `parse` and `primary` return is `arityFormed`. -/
theorem parser_arity (mp : Mp F) (g : Globals) (hg : g.TablesArity) (mem : List Nat)
    (prev : Value F) (fuel : Nat) :
    (∀ prec r e res, parse mp g mem prev fuel prec r e = some res →
      arityFormed res.1 = true) ∧
      (∀ r e res, primary mp g mem prev fuel r e = some res → arityFormed res.1 = true) ∧
      (∀ prec t r tok e res, t.isNull = false → arityFormed t = true →
        parseLoop mp g mem prev fuel prec t r tok e = some res → arityFormed res.1 = true) := by
  induction fuel with
  | zero =>
    refine ⟨?_, ?_, ?_⟩
    · intro prec r e res h; simp [parse] at h
    · intro r e res h; simp [primary] at h
    · intro prec t r tok e res _ _ h; simp [parseLoop] at h
  | succ fuel ih =>
    obtain ⟨ihParse, ihPrimary, ihLoop⟩ := ih
    refine ⟨?_, ?_, ?_⟩
    · intro prec r e res h
      simp only [parse] at h
      cases hp : primary mp g mem prev fuel r e with
      | none => simp [hp] at h
      | some x =>
        obtain ⟨t, r1, e1⟩ := x
        have h1 := ihPrimary r e _ hp
        simp only [hp] at h
        cases ht : t.isNull
        · simp only [ht, Bool.false_eq_true, if_false] at h
          exact ihLoop prec t _ _ e1 res ht h1 h
        · simp only [ht, if_true, Option.some.injEq] at h
          subst h
          rfl
    · intro r e res h
      simp only [primary] at h
      by_cases h0 : ((next g mem r).2.len == 0) = true
      · simp only [h0, if_true, Option.some.injEq] at h
        subst h
        rfl
      · simp only [h0, Bool.false_eq_true, if_false] at h
        cases hu : bTreeSearch g.unaries (djb2 mem (next g mem r).2.start (next g mem r).2.len) with
        | some op =>
          simp only [hu] at h
          cases hp : parse mp g mem prev fuel op.prec (consume (next g mem r).1 (next g mem r).2) e with
          | none => simp [hp] at h
          | some x =>
            obtain ⟨t, r1, e1⟩ := x
            have h1 := ihParse _ _ _ _ hp
            simp only [hp] at h
            cases ht : t.isNull
            · simp only [ht, Bool.false_eq_true, if_false, Option.some.injEq] at h
              subst h
              have hn : (Tree.null : Tree F).isNull = true := rfl
              simp only at h1
              simp [branch, arityFormed, ht, hn, h1, (hg.1 _ _ hu).1, (hg.1 _ _ hu).2]
            · simp only [ht, if_true, Option.some.injEq] at h
              subst h
              rfl
        | none =>
          simp only [hu] at h
          by_cases hparen : (peek mem (next g mem r).2.start == 40) = true
          · simp only [hparen, if_true] at h
            cases hp : parse mp g mem prev fuel 0 (consume (next g mem r).1 (next g mem r).2) e with
            | none => simp [hp] at h
            | some x =>
              obtain ⟨t, r1, e1⟩ := x
              have h1 := ihParse _ _ _ _ hp
              simp only [hp] at h
              split_ifs at h <;>
                (simp only [Option.some.injEq] at h; subst h; first | rfl | exact h1)
          · simp only [hparen, Bool.false_eq_true, if_false] at h
            by_cases hquote : (peek mem (next g mem r).2.start == 39) = true
            · simp only [hquote, if_true] at h
              have h1 := parseChar_arity mp mem (consume (next g mem r).1 (next g mem r).2) e
              generalize parseChar mp mem (consume (next g mem r).1 (next g mem r).2) e = x at h h1
              obtain ⟨t, r1, e1⟩ := x
              simp only at h
              split_ifs at h <;>
                (simp only [Option.some.injEq] at h; subst h; first | rfl | exact h1)
            · simp only [hquote, Bool.false_eq_true, if_false, Option.some.injEq] at h
              subst h
              exact leaf_arity mp mem (next g mem r).1 e prev
    · intro prec t r tok e res ht hk h
      simp only [parseLoop] at h
      cases hb : bTreeSearch g.binaries (djb2 mem tok.start tok.len) with
      | none =>
        simp only [hb, Option.some.injEq] at h
        subst h
        exact hk
      | some op =>
        simp only [hb] at h
        by_cases hprec : op.prec ≥ prec
        · simp only [hprec, if_true] at h
          cases hp : parse mp g mem prev fuel (subprec op) (consume r tok) e with
          | none => simp [hp] at h
          | some x =>
            obtain ⟨t2, r1, e1⟩ := x
            have h1 := ihParse _ _ _ _ hp
            simp only [hp] at h
            cases ht2 : t2.isNull
            · simp only [ht2, Bool.false_eq_true, if_false] at h
              simp only at h1
              refine ihLoop prec (branch op t t2) _ _ e1 res (by simp [branch, Tree.isNull]) ?_ h
              rcases (hg.2 _ _ hb).1 with ha | ha <;>
                simp [branch, arityFormed, ht, ht2, hk, h1, ha, (hg.2 _ _ hb).2]
            · simp only [ht2, if_true, Option.some.injEq] at h
              subst h
              rfl
        · simp only [hprec, if_false, Option.some.injEq] at h
          subst h
          exact hk

/-- The `switch` of `eval` reads `r` in the cases of the binary opcodes, and in no
other. -/
theorem readsRight_eq (mp : Mp F) (output : Nat) : readsRight mp output = isBinaryOp output := by
  by_cases ho : output ≤ 20
  · interval_cases output <;>
      simp [readsRight, evalSwitch, isBinaryOp, OR, XOR, AND, SHL, SHR, ADD, SUB, MUL, DIV, MOD,
        NEG, POS, NOT, POW, SQRT, COS, SIN, TAN, FLOOR, CEIL, ROUND]
  · have h1 : isBinaryOp output = false := by
      simp only [isBinaryOp, OR, XOR, AND, SHL, SHR, ADD, SUB, MUL, DIV, MOD, POW,
        Bool.or_eq_false_iff, beq_eq_false_iff_ne, ne_eq]
      omega
    rw [h1, readsRight, evalSwitch_unknown mp output _ _ (by omega)]
    rfl

/-- None of the 21 opcodes falls through the `switch` of `eval`. -/
theorem fallsThrough_eq (mp : Mp F) (output : Nat) (ho : output ≤ 20) :
    fallsThrough mp output = false := by
  unfold fallsThrough
  cases h : evalSwitch mp output ⟨false, 0, mp.init⟩ (some ⟨false, 1, mp.init⟩) with
  | none => rfl
  | some x =>
    obtain ⟨v, flag⟩ := x
    exact evalSwitch_flag mp output _ _ _ ho h

theorem arityFormed_wellFormed (t : Tree F) (h : arityFormed t = true) : wellFormed t = true := by
  induction t with
  | null => rfl
  | leaf v => rfl
  | branch op left right ihl ihr =>
    simp only [arityFormed, Bool.and_eq_true, Bool.not_eq_true'] at h
    obtain ⟨⟨h1, h2⟩, h3⟩ := h
    cases hn : right.isNull
    · simp only [hn, Bool.false_eq_true, if_false, Bool.and_eq_true] at h3
      simp [wellFormed, h1, ihl h2, hn, h3.1.2, ihr h3.2]
    · simp only [hn, if_true, Bool.and_eq_true] at h3
      simp [wellFormed, h1, ihl h2, hn, h3.2]

theorem arityFormed_evalSafe (mp : Mp F) (t : Tree F) (h : arityFormed t = true) :
    evalSafe mp t = true := by
  induction t with
  | null => rfl
  | leaf v => rfl
  | branch op left right ihl ihr =>
    simp only [arityFormed, Bool.and_eq_true, Bool.not_eq_true'] at h
    obtain ⟨⟨h1, h2⟩, h3⟩ := h
    cases hn : right.isNull
    · simp only [hn, Bool.false_eq_true, if_false, Bool.and_eq_true] at h3
      simp [evalSafe, ihl h2, ihr h3.2, hn,
        fallsThrough_eq mp _ (output_le_of_binary _ h3.1.2)]
    · simp only [hn, if_true, Bool.and_eq_true] at h3
      have hr : right = .null := isNull_eq_true right hn
      have hb : isBinaryOp op.output = false := by
        have hu := h3.2
        simp only [isUnaryOp, NEG, POS, NOT, SQRT, COS, SIN, TAN, FLOOR, CEIL, ROUND,
          Bool.or_eq_true, beq_iff_eq] at hu
        simp only [isBinaryOp, OR, XOR, AND, SHL, SHR, ADD, SUB, MUL, DIV, MOD, POW,
          Bool.or_eq_false_iff, beq_eq_false_iff_ne, ne_eq]
        omega
      subst hr
      simp [evalSafe, ihl h2, readsRight_eq, hb,
        fallsThrough_eq mp _ (output_le_of_unary _ h3.2)]

/-- C23. Well-formed trees: every tree that `parse` returns, for any input, has at each
branch a left child, no right child exactly when the record of the operator has the
associativity `Unary`, and a right child exactly when it has `Left` or `Right`; so at no
branch does `eval` read the `r` of an absent right child or fall through to
`"Unknown operator"`, and whenever `eval` returns on the tree it leaves the error slot as
it was. -/
theorem well_formed_trees (mp : Mp F) (mem : List Nat) (prev : Value F) (fuel prec : Nat)
    (r : Reader) (e : Option (List Nat)) (res : Tree F × Reader × Option (List Nat))
    (hp : parse mp (init Globals.start) mem prev fuel prec r e = some res) :
    arityFormed res.1 = true ∧ evalSafe mp res.1 = true ∧
      ∀ e2 out, eval mp res.1 e2 = some out → out.2 = e2 := by
  have h := (parser_arity mp (init Globals.start) tables_arity mem prev fuel).1 prec r e res hp
  exact ⟨h, arityFormed_evalSafe mp _ h,
    fun e2 out ho => eval_error mp _ e2 out (arityFormed_wellFormed _ h) ho⟩

theorem well_formed_trees_witness :
    parse exactMp (init Globals.start) (bytes "- 2 * 3") ⟨false, 0, 0⟩ 23 0 ⟨0, 7⟩ none =
        some (.branch ⟨5, Unary, NEG⟩
          (.branch ⟨5, Left, MUL⟩ (.leaf ⟨false, 2, 2⟩) (.leaf ⟨false, 3, 3⟩)) .null,
          ⟨7, 7⟩, none) ∧
      arityFormed (.branch ⟨5, Unary, NEG⟩
        (.branch ⟨5, Left, MUL⟩ (.leaf (⟨false, 2, 2⟩ : Value ℚ)) (.leaf ⟨false, 3, 3⟩))
        .null) = true :=
  ⟨by decide!,
    (well_formed_trees exactMp (bytes "- 2 * 3") ⟨false, 0, 0⟩ 23 0 ⟨0, 7⟩ none
      (.branch ⟨5, Unary, NEG⟩
        (.branch ⟨5, Left, MUL⟩ (.leaf ⟨false, 2, 2⟩) (.leaf ⟨false, 3, 3⟩)) .null,
        ⟨7, 7⟩, none) (by decide!)).1⟩

/-! ## btree.c: lists of entries -/

theorem ins_app_lt (key : Nat) (v : Option α) (l1 l2 : List (Nat × Option α))
    (e : Nat × Option α) (h : key < e.1) :
    ins key v (l1 ++ e :: l2) = ins key v l1 ++ e :: l2 := by
  induction l1 with
  | nil => simp [ins, h]
  | cons a l ih =>
    rw [List.cons_append, ins, ins]
    split_ifs
    · rfl
    · rw [ih]
      rfl

theorem ins_of_lt (key : Nat) (v : Option α) (l : List (Nat × Option α))
    (h : ∀ a ∈ l, a.1 < key) : ins key v l = l ++ [(key, v)] := by
  induction l with
  | nil => rfl
  | cons a l ih =>
    have ha := h a (List.mem_cons_self _ _)
    simp only [ins, List.cons_append]
    rw [if_neg (by omega), ih (fun b hb => h b (List.mem_cons_of_mem _ hb))]

theorem ins_app_gt (key : Nat) (v : Option α) (l1 l2 : List (Nat × Option α))
    (e : Nat × Option α) (h1 : ∀ a ∈ l1, a.1 < key) (h : e.1 < key) :
    ins key v (l1 ++ e :: l2) = l1 ++ e :: ins key v l2 := by
  induction l1 with
  | nil =>
    simp only [List.nil_append, ins]
    rw [if_neg (by omega)]
  | cons a l ih =>
    have ha := h1 a (List.mem_cons_self _ _)
    rw [List.cons_append, ins]
    rw [if_neg (by omega), ih (fun b hb => h1 b (List.mem_cons_of_mem _ hb))]
    rfl

theorem mem_ins (key : Nat) (v : Option α) (l : List (Nat × Option α)) (a : Nat × Option α) :
    a ∈ ins key v l ↔ a = (key, v) ∨ a ∈ l := by
  induction l with
  | nil => simp [ins]
  | cons b l ih =>
    simp only [ins]
    split_ifs
    · simp
    · simp only [List.mem_cons, ih]
      tauto

theorem ordered_ins (key : Nat) (v : Option α) (l : List (Nat × Option α)) (h : Ordered l)
    (hk : ∀ a ∈ l, a.1 ≠ key) : Ordered (ins key v l) := by
  unfold Ordered at h ⊢
  induction l with
  | nil => simp [ins]
  | cons b l ih =>
    have hb := hk b (List.mem_cons_self _ _)
    rw [List.pairwise_cons] at h
    simp only [ins]
    split_ifs with hlt
    · refine List.pairwise_cons.mpr ⟨?_, List.pairwise_cons.mpr h⟩
      intro a ha
      rcases List.mem_cons.mp ha with rfl | ha
      · exact hlt
      · exact Nat.lt_trans hlt (h.1 a ha)
    · refine List.pairwise_cons.mpr ⟨?_, ih h.2 (fun a ha => hk a (List.mem_cons_of_mem _ ha))⟩
      intro a ha
      rcases (mem_ins key v l a).mp ha with rfl | ha
      · show b.1 < key
        omega
      · exact h.1 a ha

theorem lookup_ins (key : Nat) (v : Option α) (l : List (Nat × Option α))
    (hk : ∀ a ∈ l, a.1 ≠ key) (k : Nat) :
    lookup k (ins key v l) = if k = key then v else lookup k l := by
  induction l with
  | nil =>
    simp only [ins, lookup]
    by_cases h : k = key
    · simp [h]
    · have : ¬ key = k := fun h' => h h'.symm
      simp [h, this]
  | cons b l ih =>
    have hb := hk b (List.mem_cons_self _ _)
    have ih' := ih (fun a ha => hk a (List.mem_cons_of_mem _ ha))
    simp only [ins]
    split_ifs with hlt hk'
    · subst hk'
      simp [lookup]
    · have : ¬ key = k := fun h' => hk' h'.symm
      simp [lookup, this]
    · subst k
      simp only [lookup, if_neg hb, ih', if_true]
    · simp only [lookup, ih', if_neg ‹¬ k = key›]

theorem lookup_none (key : Nat) (l : List (Nat × Option α)) (h : ∀ a ∈ l, a.1 ≠ key) :
    lookup key l = none := by
  induction l with
  | nil => rfl
  | cons b l ih =>
    simp only [lookup]
    rw [if_neg (h b (List.mem_cons_self _ _)), ih (fun a ha => h a (List.mem_cons_of_mem _ ha))]

theorem lookup_app_gt (key : Nat) (l1 l2 : List (Nat × Option α)) (e : Nat × Option α)
    (h1 : ∀ a ∈ l1, a.1 < key) (h : e.1 < key) :
    lookup key (l1 ++ e :: l2) = lookup key l2 := by
  induction l1 with
  | nil =>
    simp only [List.nil_append, lookup]
    rw [if_neg (by omega)]
  | cons a l ih =>
    have ha := h1 a (List.mem_cons_self _ _)
    rw [List.cons_append, lookup]
    rw [if_neg (by omega), ih (fun b hb => h1 b (List.mem_cons_of_mem _ hb))]

theorem lookup_app_eq (key : Nat) (l1 l2 : List (Nat × Option α)) (e : Nat × Option α)
    (h1 : ∀ a ∈ l1, a.1 < key) (h : e.1 = key) :
    lookup key (l1 ++ e :: l2) = e.2 := by
  induction l1 with
  | nil =>
    simp only [List.nil_append, lookup]
    rw [if_pos h]
  | cons a l ih =>
    have ha := h1 a (List.mem_cons_self _ _)
    rw [List.cons_append, lookup]
    rw [if_neg (by omega), ih (fun b hb => h1 b (List.mem_cons_of_mem _ hb))]

theorem lookup_app_lt (key : Nat) (l1 l2 : List (Nat × Option α)) (e : Nat × Option α)
    (h2 : ∀ a ∈ l2, key < a.1) (h : key < e.1) :
    lookup key (l1 ++ e :: l2) = lookup key l1 := by
  induction l1 with
  | nil =>
    simp only [List.nil_append, lookup]
    rw [if_neg (by omega), lookup_none key l2 (fun a ha => by have := h2 a ha; omega)]
  | cons a l ih =>
    rw [List.cons_append, lookup, lookup, ih]

/-! ## btree.c: `splitChild` -/

theorem splitChild_0_0 (k0 k1 k2 : Nat) (d0 d1 d2 : Option α) (c0 c1 c2 c3 : BTreeNode α)
    (l : Bool) :
    splitChild (.node 0 [k0, k1, k2] [d0, d1, d2] c0 c1 c2 c3 l) 0 =
      .node 1 [c0.key 1, k1, k2] [c0.datum 1, d1, d2] (c0.setNumKeys 1) (upperHalf c0) c2 c3 l := by
  rfl

theorem splitChild_1_0 (k0 k1 k2 : Nat) (d0 d1 d2 : Option α) (c0 c1 c2 c3 : BTreeNode α)
    (l : Bool) :
    splitChild (.node 1 [k0, k1, k2] [d0, d1, d2] c0 c1 c2 c3 l) 0 =
      .node 2 [c0.key 1, k0, k2] [c0.datum 1, d0, d2] (c0.setNumKeys 1) (upperHalf c0) c1 c3 l := by
  rfl

theorem splitChild_1_1 (k0 k1 k2 : Nat) (d0 d1 d2 : Option α) (c0 c1 c2 c3 : BTreeNode α)
    (l : Bool) :
    splitChild (.node 1 [k0, k1, k2] [d0, d1, d2] c0 c1 c2 c3 l) 1 =
      .node 2 [k0, c1.key 1, k2] [d0, c1.datum 1, d2] c0 (c1.setNumKeys 1) (upperHalf c1) c3 l := by
  rfl

theorem splitChild_2_0 (k0 k1 k2 : Nat) (d0 d1 d2 : Option α) (c0 c1 c2 c3 : BTreeNode α)
    (l : Bool) :
    splitChild (.node 2 [k0, k1, k2] [d0, d1, d2] c0 c1 c2 c3 l) 0 =
      .node 3 [c0.key 1, k0, k1] [c0.datum 1, d0, d1] (c0.setNumKeys 1) (upperHalf c0) c1 c2 l := by
  rfl

theorem splitChild_2_1 (k0 k1 k2 : Nat) (d0 d1 d2 : Option α) (c0 c1 c2 c3 : BTreeNode α)
    (l : Bool) :
    splitChild (.node 2 [k0, k1, k2] [d0, d1, d2] c0 c1 c2 c3 l) 1 =
      .node 3 [k0, c1.key 1, k1] [d0, c1.datum 1, d1] c0 (c1.setNumKeys 1) (upperHalf c1) c2 l := by
  rfl

theorem splitChild_2_2 (k0 k1 k2 : Nat) (d0 d1 d2 : Option α) (c0 c1 c2 c3 : BTreeNode α)
    (l : Bool) :
    splitChild (.node 2 [k0, k1, k2] [d0, d1, d2] c0 c1 c2 c3 l) 2 =
      .node 3 [k0, k1, c2.key 1] [d0, d1, c2.datum 1] c0 c1 (c2.setNumKeys 1) (upperHalf c2) l := by
  rfl

theorem upperHalf_node (x y z : Nat) (dx dy dz : Option α) (q0 q1 q2 q3 : BTreeNode α)
    (l : Bool) :
    upperHalf (.node 3 [x, y, z] [dx, dy, dz] q0 q1 q2 q3 l) =
      .node 1 [z, 0, 0] [dz, none, none] (if l then .null else q2) (if l then .null else q3)
        .null .null l := by
  cases l <;> rfl

/-! ## btree.c: the invariant -/

theorem list_three {β : Type} (l : List β) (h : l.length = 3) : ∃ a b c, l = [a, b, c] := by
  match l, h with
  | [a, b, c], _ => exact ⟨a, b, c, rfl⟩

/-- A balanced tree is a node with arrays of three slots. -/
theorem Bal_node (h : Nat) (t : BTreeNode α) (hB : Bal h t) :
    ∃ n k0 k1 k2 d0 d1 d2 c0 c1 c2 c3 l,
      t = .node n [k0, k1, k2] [d0, d1, d2] c0 c1 c2 c3 l ∧ 1 ≤ n ∧ n ≤ 3 := by
  cases t with
  | null => cases h <;> simp [Bal] at hB
  | node n k d c0 c1 c2 c3 l =>
    cases h with
    | zero =>
      simp only [Bal] at hB
      obtain ⟨k0, k1, k2, rfl⟩ := list_three k hB.2.1
      obtain ⟨d0, d1, d2, rfl⟩ := list_three d hB.2.2.1
      exact ⟨n, k0, k1, k2, d0, d1, d2, c0, c1, c2, c3, l, rfl, hB.2.2.2.1, hB.2.2.2.2.1⟩
    | succ h =>
      simp only [Bal] at hB
      obtain ⟨k0, k1, k2, rfl⟩ := list_three k hB.2.1
      obtain ⟨d0, d1, d2, rfl⟩ := list_three d hB.2.2.1
      exact ⟨n, k0, k1, k2, d0, d1, d2, c0, c1, c2, c3, l, rfl, hB.2.2.2.1, hB.2.2.2.2.1⟩

theorem levels_of_Bal (h : Nat) (t : BTreeNode α) (hB : Bal h t) : levels t = h + 1 := by
  induction h generalizing t with
  | zero =>
    cases t with
    | null => simp [Bal] at hB
    | node n k d c0 c1 c2 c3 l =>
      simp only [Bal] at hB
      obtain ⟨-, -, -, -, -, rfl, -⟩ := hB
      rfl
  | succ h ih =>
    cases t with
    | null => simp [Bal] at hB
    | node n k d c0 c1 c2 c3 l =>
      simp only [Bal] at hB
      simp only [levels, ih c0 hB.2.2.2.2.2.1]

/-- The two halves of a full node: both are balanced with one key, and the entries of
the node are those of the lower half, the median and those of the upper half. -/
theorem halves (h : Nat) (c : BTreeNode α) (hB : Bal h c) (hn : c.numKeys = 3) :
    Bal h (c.setNumKeys 1) ∧ Bal h (upperHalf c) ∧ (c.setNumKeys 1).numKeys = 1 ∧
      (upperHalf c).numKeys = 1 ∧
      inorder c = inorder (c.setNumKeys 1) ++ (c.key 1, c.datum 1) :: inorder (upperHalf c) := by
  obtain ⟨n, x, y, z, dx, dy, dz, q0, q1, q2, q3, l, rfl, -, -⟩ := Bal_node h c hB
  simp only [BTreeNode.numKeys] at hn
  subst hn
  rw [upperHalf_node]
  cases h with
  | zero =>
    simp only [Bal] at hB
    obtain ⟨rfl, -, -, -, -, rfl, rfl, rfl, rfl⟩ := hB
    simp [Bal, BTreeNode.setNumKeys, BTreeNode.numKeys, inorder, BTreeNode.key, BTreeNode.datum,
      BTreeNode.keys, BTreeNode.data]
  | succ h =>
    simp only [Bal] at hB
    obtain ⟨rfl, -, -, -, -, b0, b1, b2, b3⟩ := hB
    simp [Bal, BTreeNode.setNumKeys, BTreeNode.numKeys, inorder, BTreeNode.key, BTreeNode.datum,
      BTreeNode.keys, BTreeNode.data, b0, b1, b2 (by omega), b3 (by omega)]

/-! ## btree.c: `insert` -/

/-- The leaf case of `insert` on a leaf with one or two keys. -/
theorem insert_leaf (f key : Nat) (x : α) (n k0 k1 k2 : Nat) (d0 d1 d2 : Option α)
    (hn1 : 1 ≤ n) (hn : n ≤ 2)
    (hs : Ordered (inorder (.node n [k0, k1, k2] [d0, d1, d2] .null .null .null .null true)))
    (hk : ∀ e ∈ inorder (.node n [k0, k1, k2] [d0, d1, d2] (.null : BTreeNode α) .null .null
      .null true), e.1 ≠ key) :
    Bal 0 (insert (f + 1) (.node n [k0, k1, k2] [d0, d1, d2] .null .null .null .null true)
        key x) ∧
      inorder (insert (f + 1) (.node n [k0, k1, k2] [d0, d1, d2] .null .null .null .null true)
        key x) =
        ins key (some x)
          (inorder (.node n [k0, k1, k2] [d0, d1, d2] .null .null .null .null true)) := by
  have hn' : n = 1 ∨ n = 2 := by omega
  rcases hn' with rfl | rfl
  · simp only [inorder, List.nil_append, List.getD_cons_zero, List.mem_singleton, forall_eq]
      at hk
    by_cases h0 : k0 > key
    · simp [insert, BTreeNode.isLeaf, insertShift, BTreeNode.key, BTreeNode.keys,
        BTreeNode.datum, BTreeNode.data, BTreeNode.setEntry, BTreeNode.numKeys,
        BTreeNode.setNumKeys, Bal, inorder, ins, h0]
    · have h0' : ¬ key < k0 := h0
      simp [insert, BTreeNode.isLeaf, insertShift, BTreeNode.key, BTreeNode.keys,
        BTreeNode.datum, BTreeNode.data, BTreeNode.setEntry, BTreeNode.numKeys,
        BTreeNode.setNumKeys, Bal, inorder, ins, h0']
  · simp only [inorder, List.nil_append, List.getD_cons_zero, List.getD_cons_succ,
      List.mem_cons, List.mem_singleton, forall_eq_or_imp, forall_eq, List.not_mem_nil,
      false_implies, implies_true, and_true] at hk
    have hlt : k0 < k1 := by simpa [Ordered, inorder] using hs
    by_cases h1 : k1 > key
    · by_cases h0 : k0 > key
      · simp [insert, BTreeNode.isLeaf, insertShift, BTreeNode.key, BTreeNode.keys,
          BTreeNode.datum, BTreeNode.data, BTreeNode.setEntry, BTreeNode.numKeys,
          BTreeNode.setNumKeys, Bal, inorder, ins, h0, h1]
      · have h0' : ¬ key < k0 := h0
        simp [insert, BTreeNode.isLeaf, insertShift, BTreeNode.key, BTreeNode.keys,
          BTreeNode.datum, BTreeNode.data, BTreeNode.setEntry, BTreeNode.numKeys,
          BTreeNode.setNumKeys, Bal, inorder, ins, h0', h1]
    · have h1' : ¬ key < k1 := h1
      have h0' : ¬ key < k0 := by omega
      simp [insert, BTreeNode.isLeaf, insertShift, BTreeNode.key, BTreeNode.keys,
        BTreeNode.datum, BTreeNode.data, BTreeNode.setEntry, BTreeNode.numKeys,
        BTreeNode.setNumKeys, Bal, inorder, ins, h0', h1']

theorem numKeys_node (n : Nat) (k : List Nat) (d : List (Option α)) (c0 c1 c2 c3 : BTreeNode α)
    (l : Bool) : (BTreeNode.node n k d c0 c1 c2 c3 l).numKeys = n := rfl

theorem isLeaf_node (n : Nat) (k : List Nat) (d : List (Option α)) (c0 c1 c2 c3 : BTreeNode α)
    (l : Bool) : (BTreeNode.node n k d c0 c1 c2 c3 l).isLeaf = l := rfl

theorem key_node (n : Nat) (k : List Nat) (d : List (Option α)) (c0 c1 c2 c3 : BTreeNode α)
    (l : Bool) (i : Nat) : (BTreeNode.node n k d c0 c1 c2 c3 l).key i = k.getD i 0 := rfl

theorem datum_node (n : Nat) (k : List Nat) (d : List (Option α)) (c0 c1 c2 c3 : BTreeNode α)
    (l : Bool) (i : Nat) : (BTreeNode.node n k d c0 c1 c2 c3 l).datum i = d.getD i none := rfl

theorem child_node_0 (n : Nat) (k : List Nat) (d : List (Option α)) (c0 c1 c2 c3 : BTreeNode α)
    (l : Bool) : (BTreeNode.node n k d c0 c1 c2 c3 l).child 0 = c0 := rfl

theorem child_node_1 (n : Nat) (k : List Nat) (d : List (Option α)) (c0 c1 c2 c3 : BTreeNode α)
    (l : Bool) : (BTreeNode.node n k d c0 c1 c2 c3 l).child 1 = c1 := rfl

theorem child_node_2 (n : Nat) (k : List Nat) (d : List (Option α)) (c0 c1 c2 c3 : BTreeNode α)
    (l : Bool) : (BTreeNode.node n k d c0 c1 c2 c3 l).child 2 = c2 := rfl

theorem child_node_3 (n : Nat) (k : List Nat) (d : List (Option α)) (c0 c1 c2 c3 : BTreeNode α)
    (l : Bool) : (BTreeNode.node n k d c0 c1 c2 c3 l).child 3 = c3 := rfl

theorem setChild_node_0 (n : Nat) (k : List Nat) (d : List (Option α))
    (c0 c1 c2 c3 c : BTreeNode α) (l : Bool) :
    (BTreeNode.node n k d c0 c1 c2 c3 l).setChild 0 c = .node n k d c c1 c2 c3 l := rfl

theorem setChild_node_1 (n : Nat) (k : List Nat) (d : List (Option α))
    (c0 c1 c2 c3 c : BTreeNode α) (l : Bool) :
    (BTreeNode.node n k d c0 c1 c2 c3 l).setChild 1 c = .node n k d c0 c c2 c3 l := rfl

theorem setChild_node_2 (n : Nat) (k : List Nat) (d : List (Option α))
    (c0 c1 c2 c3 c : BTreeNode α) (l : Bool) :
    (BTreeNode.node n k d c0 c1 c2 c3 l).setChild 2 c = .node n k d c0 c1 c c3 l := rfl

theorem setChild_node_3 (n : Nat) (k : List Nat) (d : List (Option α))
    (c0 c1 c2 c3 c : BTreeNode α) (l : Bool) :
    (BTreeNode.node n k d c0 c1 c2 c3 l).setChild 3 c = .node n k d c0 c1 c2 c l := rfl

/-- The scan of `insert` in a node with one key. -/
theorem insertScan_one (key k0 k1 k2 : Nat) (d : List (Option α)) (c0 c1 c2 c3 : BTreeNode α)
    (l : Bool) :
    insertScan key (.node 1 [k0, k1, k2] d c0 c1 c2 c3 l) 1 = if key < k0 then 0 else 1 := by
  simp [insertScan, key_node]

/-- The scan of `insert` in a node with two keys. -/
theorem insertScan_two (key k0 k1 k2 : Nat) (d : List (Option α)) (c0 c1 c2 c3 : BTreeNode α)
    (l : Bool) :
    insertScan key (.node 2 [k0, k1, k2] d c0 c1 c2 c3 l) 2 =
      if key < k1 then (if key < k0 then 0 else 1) else 2 := by
  simp [insertScan, key_node]

theorem insert_1_0_nf (f key : Nat) (x : α) (k0 k1 k2 : Nat) (d0 d1 d2 : Option α)
    (c0 c1 c2 c3 : BTreeNode α) (h0 : key < k0) (hf : c0.numKeys ≠ 3) :
    insert (f + 1) (.node 1 [k0, k1, k2] [d0, d1, d2] c0 c1 c2 c3 false) key x =
      .node 1 [k0, k1, k2] [d0, d1, d2] (insert f c0 key x) c1 c2 c3 false := by
  rw [insert]
  simp [isLeaf_node, numKeys_node, insertScan_one, child_node_0, child_node_1, child_node_2,
    child_node_3, setChild_node_0, setChild_node_1, setChild_node_2, setChild_node_3, key_node,
    BTREE_ORDER, splitChild_1_0,
    h0, hf]

theorem insert_1_0_fl (f key : Nat) (x : α) (k0 k1 k2 : Nat) (d0 d1 d2 : Option α)
    (c0 c1 c2 c3 : BTreeNode α) (h0 : key < k0) (hf : c0.numKeys = 3)
    (hm : ¬ c0.key 1 < key) :
    insert (f + 1) (.node 1 [k0, k1, k2] [d0, d1, d2] c0 c1 c2 c3 false) key x =
      .node 2 [c0.key 1, k0, k2] [c0.datum 1, d0, d2] (insert f (c0.setNumKeys 1) key x) (upperHalf c0) c1 c3 false := by
  rw [insert]
  simp [isLeaf_node, numKeys_node, insertScan_one, child_node_0, child_node_1, child_node_2,
    child_node_3, setChild_node_0, setChild_node_1, setChild_node_2, setChild_node_3, key_node,
    BTREE_ORDER, splitChild_1_0,
    h0, hf, hm]

theorem insert_1_0_fr (f key : Nat) (x : α) (k0 k1 k2 : Nat) (d0 d1 d2 : Option α)
    (c0 c1 c2 c3 : BTreeNode α) (h0 : key < k0) (hf : c0.numKeys = 3)
    (hm : c0.key 1 < key) :
    insert (f + 1) (.node 1 [k0, k1, k2] [d0, d1, d2] c0 c1 c2 c3 false) key x =
      .node 2 [c0.key 1, k0, k2] [c0.datum 1, d0, d2] (c0.setNumKeys 1) (insert f (upperHalf c0) key x) c1 c3 false := by
  rw [insert]
  simp [isLeaf_node, numKeys_node, insertScan_one, child_node_0, child_node_1, child_node_2,
    child_node_3, setChild_node_0, setChild_node_1, setChild_node_2, setChild_node_3, key_node,
    BTREE_ORDER, splitChild_1_0,
    h0, hf, hm]

theorem insert_1_1_nf (f key : Nat) (x : α) (k0 k1 k2 : Nat) (d0 d1 d2 : Option α)
    (c0 c1 c2 c3 : BTreeNode α) (h0 : ¬ key < k0) (hf : c1.numKeys ≠ 3) :
    insert (f + 1) (.node 1 [k0, k1, k2] [d0, d1, d2] c0 c1 c2 c3 false) key x =
      .node 1 [k0, k1, k2] [d0, d1, d2] c0 (insert f c1 key x) c2 c3 false := by
  rw [insert]
  simp [isLeaf_node, numKeys_node, insertScan_one, child_node_0, child_node_1, child_node_2,
    child_node_3, setChild_node_0, setChild_node_1, setChild_node_2, setChild_node_3, key_node,
    BTREE_ORDER, splitChild_1_1,
    h0, hf]

theorem insert_1_1_fl (f key : Nat) (x : α) (k0 k1 k2 : Nat) (d0 d1 d2 : Option α)
    (c0 c1 c2 c3 : BTreeNode α) (h0 : ¬ key < k0) (hf : c1.numKeys = 3)
    (hm : ¬ c1.key 1 < key) :
    insert (f + 1) (.node 1 [k0, k1, k2] [d0, d1, d2] c0 c1 c2 c3 false) key x =
      .node 2 [k0, c1.key 1, k2] [d0, c1.datum 1, d2] c0 (insert f (c1.setNumKeys 1) key x) (upperHalf c1) c3 false := by
  rw [insert]
  simp [isLeaf_node, numKeys_node, insertScan_one, child_node_0, child_node_1, child_node_2,
    child_node_3, setChild_node_0, setChild_node_1, setChild_node_2, setChild_node_3, key_node,
    BTREE_ORDER, splitChild_1_1,
    h0, hf, hm]

theorem insert_1_1_fr (f key : Nat) (x : α) (k0 k1 k2 : Nat) (d0 d1 d2 : Option α)
    (c0 c1 c2 c3 : BTreeNode α) (h0 : ¬ key < k0) (hf : c1.numKeys = 3)
    (hm : c1.key 1 < key) :
    insert (f + 1) (.node 1 [k0, k1, k2] [d0, d1, d2] c0 c1 c2 c3 false) key x =
      .node 2 [k0, c1.key 1, k2] [d0, c1.datum 1, d2] c0 (c1.setNumKeys 1) (insert f (upperHalf c1) key x) c3 false := by
  rw [insert]
  simp [isLeaf_node, numKeys_node, insertScan_one, child_node_0, child_node_1, child_node_2,
    child_node_3, setChild_node_0, setChild_node_1, setChild_node_2, setChild_node_3, key_node,
    BTREE_ORDER, splitChild_1_1,
    h0, hf, hm]

theorem insert_2_0_nf (f key : Nat) (x : α) (k0 k1 k2 : Nat) (d0 d1 d2 : Option α)
    (c0 c1 c2 c3 : BTreeNode α) (h1 : key < k1) (h0 : key < k0) (hf : c0.numKeys ≠ 3) :
    insert (f + 1) (.node 2 [k0, k1, k2] [d0, d1, d2] c0 c1 c2 c3 false) key x =
      .node 2 [k0, k1, k2] [d0, d1, d2] (insert f c0 key x) c1 c2 c3 false := by
  rw [insert]
  simp [isLeaf_node, numKeys_node, insertScan_two, child_node_0, child_node_1, child_node_2,
    child_node_3, setChild_node_0, setChild_node_1, setChild_node_2, setChild_node_3, key_node,
    BTREE_ORDER, splitChild_2_0,
    h1, h0, hf]

theorem insert_2_0_fl (f key : Nat) (x : α) (k0 k1 k2 : Nat) (d0 d1 d2 : Option α)
    (c0 c1 c2 c3 : BTreeNode α) (h1 : key < k1) (h0 : key < k0) (hf : c0.numKeys = 3)
    (hm : ¬ c0.key 1 < key) :
    insert (f + 1) (.node 2 [k0, k1, k2] [d0, d1, d2] c0 c1 c2 c3 false) key x =
      .node 3 [c0.key 1, k0, k1] [c0.datum 1, d0, d1] (insert f (c0.setNumKeys 1) key x) (upperHalf c0) c1 c2 false := by
  rw [insert]
  simp [isLeaf_node, numKeys_node, insertScan_two, child_node_0, child_node_1, child_node_2,
    child_node_3, setChild_node_0, setChild_node_1, setChild_node_2, setChild_node_3, key_node,
    BTREE_ORDER, splitChild_2_0,
    h1, h0, hf, hm]

theorem insert_2_0_fr (f key : Nat) (x : α) (k0 k1 k2 : Nat) (d0 d1 d2 : Option α)
    (c0 c1 c2 c3 : BTreeNode α) (h1 : key < k1) (h0 : key < k0) (hf : c0.numKeys = 3)
    (hm : c0.key 1 < key) :
    insert (f + 1) (.node 2 [k0, k1, k2] [d0, d1, d2] c0 c1 c2 c3 false) key x =
      .node 3 [c0.key 1, k0, k1] [c0.datum 1, d0, d1] (c0.setNumKeys 1) (insert f (upperHalf c0) key x) c1 c2 false := by
  rw [insert]
  simp [isLeaf_node, numKeys_node, insertScan_two, child_node_0, child_node_1, child_node_2,
    child_node_3, setChild_node_0, setChild_node_1, setChild_node_2, setChild_node_3, key_node,
    BTREE_ORDER, splitChild_2_0,
    h1, h0, hf, hm]

theorem insert_2_1_nf (f key : Nat) (x : α) (k0 k1 k2 : Nat) (d0 d1 d2 : Option α)
    (c0 c1 c2 c3 : BTreeNode α) (h1 : key < k1) (h0 : ¬ key < k0) (hf : c1.numKeys ≠ 3) :
    insert (f + 1) (.node 2 [k0, k1, k2] [d0, d1, d2] c0 c1 c2 c3 false) key x =
      .node 2 [k0, k1, k2] [d0, d1, d2] c0 (insert f c1 key x) c2 c3 false := by
  rw [insert]
  simp [isLeaf_node, numKeys_node, insertScan_two, child_node_0, child_node_1, child_node_2,
    child_node_3, setChild_node_0, setChild_node_1, setChild_node_2, setChild_node_3, key_node,
    BTREE_ORDER, splitChild_2_1,
    h1, h0, hf]

theorem insert_2_1_fl (f key : Nat) (x : α) (k0 k1 k2 : Nat) (d0 d1 d2 : Option α)
    (c0 c1 c2 c3 : BTreeNode α) (h1 : key < k1) (h0 : ¬ key < k0) (hf : c1.numKeys = 3)
    (hm : ¬ c1.key 1 < key) :
    insert (f + 1) (.node 2 [k0, k1, k2] [d0, d1, d2] c0 c1 c2 c3 false) key x =
      .node 3 [k0, c1.key 1, k1] [d0, c1.datum 1, d1] c0 (insert f (c1.setNumKeys 1) key x) (upperHalf c1) c2 false := by
  rw [insert]
  simp [isLeaf_node, numKeys_node, insertScan_two, child_node_0, child_node_1, child_node_2,
    child_node_3, setChild_node_0, setChild_node_1, setChild_node_2, setChild_node_3, key_node,
    BTREE_ORDER, splitChild_2_1,
    h1, h0, hf, hm]

theorem insert_2_1_fr (f key : Nat) (x : α) (k0 k1 k2 : Nat) (d0 d1 d2 : Option α)
    (c0 c1 c2 c3 : BTreeNode α) (h1 : key < k1) (h0 : ¬ key < k0) (hf : c1.numKeys = 3)
    (hm : c1.key 1 < key) :
    insert (f + 1) (.node 2 [k0, k1, k2] [d0, d1, d2] c0 c1 c2 c3 false) key x =
      .node 3 [k0, c1.key 1, k1] [d0, c1.datum 1, d1] c0 (c1.setNumKeys 1) (insert f (upperHalf c1) key x) c2 false := by
  rw [insert]
  simp [isLeaf_node, numKeys_node, insertScan_two, child_node_0, child_node_1, child_node_2,
    child_node_3, setChild_node_0, setChild_node_1, setChild_node_2, setChild_node_3, key_node,
    BTREE_ORDER, splitChild_2_1,
    h1, h0, hf, hm]

theorem insert_2_2_nf (f key : Nat) (x : α) (k0 k1 k2 : Nat) (d0 d1 d2 : Option α)
    (c0 c1 c2 c3 : BTreeNode α) (h1 : ¬ key < k1) (hf : c2.numKeys ≠ 3) :
    insert (f + 1) (.node 2 [k0, k1, k2] [d0, d1, d2] c0 c1 c2 c3 false) key x =
      .node 2 [k0, k1, k2] [d0, d1, d2] c0 c1 (insert f c2 key x) c3 false := by
  rw [insert]
  simp [isLeaf_node, numKeys_node, insertScan_two, child_node_0, child_node_1, child_node_2,
    child_node_3, setChild_node_0, setChild_node_1, setChild_node_2, setChild_node_3, key_node,
    BTREE_ORDER, splitChild_2_2,
    h1, hf]

theorem insert_2_2_fl (f key : Nat) (x : α) (k0 k1 k2 : Nat) (d0 d1 d2 : Option α)
    (c0 c1 c2 c3 : BTreeNode α) (h1 : ¬ key < k1) (hf : c2.numKeys = 3)
    (hm : ¬ c2.key 1 < key) :
    insert (f + 1) (.node 2 [k0, k1, k2] [d0, d1, d2] c0 c1 c2 c3 false) key x =
      .node 3 [k0, k1, c2.key 1] [d0, d1, c2.datum 1] c0 c1 (insert f (c2.setNumKeys 1) key x) (upperHalf c2) false := by
  rw [insert]
  simp [isLeaf_node, numKeys_node, insertScan_two, child_node_0, child_node_1, child_node_2,
    child_node_3, setChild_node_0, setChild_node_1, setChild_node_2, setChild_node_3, key_node,
    BTREE_ORDER, splitChild_2_2,
    h1, hf, hm]

theorem insert_2_2_fr (f key : Nat) (x : α) (k0 k1 k2 : Nat) (d0 d1 d2 : Option α)
    (c0 c1 c2 c3 : BTreeNode α) (h1 : ¬ key < k1) (hf : c2.numKeys = 3)
    (hm : c2.key 1 < key) :
    insert (f + 1) (.node 2 [k0, k1, k2] [d0, d1, d2] c0 c1 c2 c3 false) key x =
      .node 3 [k0, k1, c2.key 1] [d0, d1, c2.datum 1] c0 c1 (c2.setNumKeys 1) (insert f (upperHalf c2) key x) false := by
  rw [insert]
  simp [isLeaf_node, numKeys_node, insertScan_two, child_node_0, child_node_1, child_node_2,
    child_node_3, setChild_node_0, setChild_node_1, setChild_node_2, setChild_node_3, key_node,
    BTREE_ORDER, splitChild_2_2,
    h1, hf, hm]

theorem ordered_append {l1 l2 : List (Nat × Option α)} {e : Nat × Option α}
    (h : Ordered (l1 ++ e :: l2)) :
    Ordered l1 ∧ Ordered l2 ∧ (∀ a ∈ l1, a.1 < e.1) ∧ (∀ b ∈ l2, e.1 < b.1) ∧
      ∀ a ∈ l1, ∀ b ∈ l2, a.1 < b.1 := by
  unfold Ordered at h ⊢
  rw [List.pairwise_append, List.pairwise_cons] at h
  obtain ⟨h1, ⟨h2, h3⟩, h4⟩ := h
  exact ⟨h1, h3, fun a ha => h4 a ha e (List.mem_cons_self _ _), h2,
    fun a ha b hb => h4 a ha b (List.mem_cons_of_mem _ hb)⟩

theorem numKeys_le_of_Bal (h : Nat) (c : BTreeNode α) (hB : Bal h c) : c.numKeys ≤ 3 := by
  obtain ⟨n, k0, k1, k2, d0, d1, d2, c0, c1, c2, c3, l, rfl, -, hn⟩ := Bal_node h c hB
  exact hn

/-- What `insert` does with the child it descends into, given what the recursive call
does: the child is taken as it is when it is not full, else it is split and the call
goes to the half on the side of the key. -/
theorem child_step (h f key : Nat) (x : α)
    (ih : ∀ t : BTreeNode α, Bal h t → t.numKeys ≤ 2 → Ordered (inorder t) →
      (∀ e ∈ inorder t, e.1 ≠ key) →
      Bal h (insert f t key x) ∧ inorder (insert f t key x) = ins key (some x) (inorder t))
    (c : BTreeNode α) (hB : Bal h c) (hs : Ordered (inorder c))
    (hk : ∀ e ∈ inorder c, e.1 ≠ key) :
    (c.numKeys ≠ 3 →
      Bal h (insert f c key x) ∧ inorder (insert f c key x) = ins key (some x) (inorder c)) ∧
    (c.numKeys = 3 → Bal h (c.setNumKeys 1) ∧ Bal h (upperHalf c) ∧
      (¬ c.key 1 < key → Bal h (insert f (c.setNumKeys 1) key x) ∧
        inorder (insert f (c.setNumKeys 1) key x) ++ (c.key 1, c.datum 1) ::
          inorder (upperHalf c) = ins key (some x) (inorder c)) ∧
      (c.key 1 < key → Bal h (insert f (upperHalf c) key x) ∧
        inorder (c.setNumKeys 1) ++ (c.key 1, c.datum 1) ::
          inorder (insert f (upperHalf c) key x) = ins key (some x) (inorder c))) := by
  refine ⟨fun hn => ih c hB (by have := numKeys_le_of_Bal h c hB; omega) hs hk, fun hn => ?_⟩
  obtain ⟨bL, bR, nL, nR, hI⟩ := halves h c hB hn
  rw [hI] at hs hk
  obtain ⟨sL, sR, lo, hi, -⟩ := ordered_append hs
  have hm : c.key 1 ≠ key := hk (c.key 1, c.datum 1) (by simp)
  have kL : ∀ e ∈ inorder (c.setNumKeys 1), e.1 ≠ key := fun e he =>
    hk e (List.mem_append_left _ he)
  have kR : ∀ e ∈ inorder (upperHalf c), e.1 ≠ key := fun e he =>
    hk e (List.mem_append_right _ (List.mem_cons_of_mem _ he))
  refine ⟨bL, bR, fun hlt => ?_, fun hlt => ?_⟩
  · obtain ⟨b, e⟩ := ih _ bL (by omega) sL kL
    refine ⟨b, ?_⟩
    rw [hI, e, ins_app_lt]
    show key < c.key 1
    omega
  · obtain ⟨b, e⟩ := ih _ bR (by omega) sR kR
    refine ⟨b, ?_⟩
    rw [hI, e, ins_app_gt _ _ _ _ _ (fun a ha => Nat.lt_trans (lo a ha) hlt) hlt]

/-- One level of `insert`, given what the recursive call does one level below. -/
theorem insert_step (h f key : Nat) (x : α)
    (ih : ∀ t : BTreeNode α, Bal h t → t.numKeys ≤ 2 → Ordered (inorder t) →
      (∀ e ∈ inorder t, e.1 ≠ key) →
      Bal h (insert f t key x) ∧ inorder (insert f t key x) = ins key (some x) (inorder t))
    (t : BTreeNode α) (hB : Bal (h + 1) t) (hn : t.numKeys ≤ 2) (hs : Ordered (inorder t))
    (hk : ∀ e ∈ inorder t, e.1 ≠ key) :
    Bal (h + 1) (insert (f + 1) t key x) ∧
      inorder (insert (f + 1) t key x) = ins key (some x) (inorder t) := by
  obtain ⟨n, k0, k1, k2, d0, d1, d2, c0, c1, c2, c3, l, rfl, hn1, -⟩ := Bal_node _ t hB
  simp only [numKeys_node] at hn
  simp only [Bal] at hB
  obtain ⟨rfl, -, -, -, -, b0, b1, b2, -⟩ := hB
  have hn' : n = 1 ∨ n = 2 := by omega
  rcases hn' with rfl | rfl
  · have hI : inorder (.node 1 [k0, k1, k2] [d0, d1, d2] c0 c1 c2 c3 false) =
        inorder c0 ++ (k0, d0) :: inorder c1 := rfl
    rw [hI] at hs hk ⊢
    obtain ⟨s0, s1, lo0, hi0, -⟩ := ordered_append hs
    have hk0 : k0 ≠ key := hk (k0, d0) (by simp)
    have kc0 : ∀ e ∈ inorder c0, e.1 ≠ key := fun e he => hk e (List.mem_append_left _ he)
    have kc1 : ∀ e ∈ inorder c1, e.1 ≠ key := fun e he =>
      hk e (List.mem_append_right _ (List.mem_cons_of_mem _ he))
    by_cases h0 : key < k0
    · have ctx : ins key (some x) (inorder c0 ++ (k0, d0) :: inorder c1) =
          ins key (some x) (inorder c0) ++ (k0, d0) :: inorder c1 := ins_app_lt _ _ _ _ _ h0
      obtain ⟨nf, fu⟩ := child_step h f key x ih c0 b0 s0 kc0
      by_cases hf : c0.numKeys = 3
      · obtain ⟨bL, bR, fl, fr⟩ := fu hf
        by_cases hm : c0.key 1 < key
        · obtain ⟨b, e⟩ := fr hm
          rw [insert_1_0_fr f key x k0 k1 k2 d0 d1 d2 c0 c1 c2 c3 h0 hf hm, ctx, ← e]
          exact ⟨by simp [Bal, b0, b1, bL, b], by simp [inorder]⟩
        · obtain ⟨b, e⟩ := fl hm
          rw [insert_1_0_fl f key x k0 k1 k2 d0 d1 d2 c0 c1 c2 c3 h0 hf hm, ctx, ← e]
          exact ⟨by simp [Bal, b0, b1, bR, b], by simp [inorder]⟩
      · obtain ⟨b, e⟩ := nf hf
        rw [insert_1_0_nf f key x k0 k1 k2 d0 d1 d2 c0 c1 c2 c3 h0 hf, ctx, ← e]
        exact ⟨by simp [Bal, b0, b1, b], by simp [inorder]⟩
    · have hgt : k0 < key := by omega
      have ctx : ins key (some x) (inorder c0 ++ (k0, d0) :: inorder c1) =
          inorder c0 ++ (k0, d0) :: ins key (some x) (inorder c1) :=
        ins_app_gt _ _ _ _ _ (fun a ha => Nat.lt_trans (lo0 a ha) hgt) hgt
      obtain ⟨nf, fu⟩ := child_step h f key x ih c1 b1 s1 kc1
      by_cases hf : c1.numKeys = 3
      · obtain ⟨bL, bR, fl, fr⟩ := fu hf
        by_cases hm : c1.key 1 < key
        · obtain ⟨b, e⟩ := fr hm
          rw [insert_1_1_fr f key x k0 k1 k2 d0 d1 d2 c0 c1 c2 c3 h0 hf hm, ctx, ← e]
          exact ⟨by simp [Bal, b0, b1, bL, b], by simp [inorder]⟩
        · obtain ⟨b, e⟩ := fl hm
          rw [insert_1_1_fl f key x k0 k1 k2 d0 d1 d2 c0 c1 c2 c3 h0 hf hm, ctx, ← e]
          exact ⟨by simp [Bal, b0, b1, bR, b], by simp [inorder]⟩
      · obtain ⟨b, e⟩ := nf hf
        rw [insert_1_1_nf f key x k0 k1 k2 d0 d1 d2 c0 c1 c2 c3 h0 hf, ctx, ← e]
        exact ⟨by simp [Bal, b0, b1, b], by simp [inorder]⟩
  · have b2' := b2 (Nat.le_refl 2)
    have hI : inorder (.node 2 [k0, k1, k2] [d0, d1, d2] c0 c1 c2 c3 false) =
        inorder c0 ++ (k0, d0) :: (inorder c1 ++ (k1, d1) :: inorder c2) := rfl
    rw [hI] at hs hk ⊢
    obtain ⟨s0, s12, lo0, hi0, -⟩ := ordered_append hs
    obtain ⟨s1, s2, lo1, hi1, -⟩ := ordered_append s12
    have h01 : k0 < k1 := hi0 (k1, d1) (by simp)
    have hk0 : k0 ≠ key := hk (k0, d0) (by simp)
    have hk1 : k1 ≠ key := hk (k1, d1) (by simp)
    have kc0 : ∀ e ∈ inorder c0, e.1 ≠ key := fun e he => hk e (List.mem_append_left _ he)
    have kc1 : ∀ e ∈ inorder c1, e.1 ≠ key := fun e he => hk e (by simp [he])
    have kc2 : ∀ e ∈ inorder c2, e.1 ≠ key := fun e he => hk e (by simp [he])
    by_cases h1 : key < k1
    · by_cases h0 : key < k0
      · have ctx : ins key (some x) (inorder c0 ++ (k0, d0) :: (inorder c1 ++ (k1, d1) :: inorder c2)) =
            ins key (some x) (inorder c0) ++ (k0, d0) :: (inorder c1 ++ (k1, d1) :: inorder c2) :=
          ins_app_lt _ _ _ _ _ h0
        obtain ⟨nf, fu⟩ := child_step h f key x ih c0 b0 s0 kc0
        by_cases hf : c0.numKeys = 3
        · obtain ⟨bL, bR, fl, fr⟩ := fu hf
          by_cases hm : c0.key 1 < key
          · obtain ⟨b, e⟩ := fr hm
            rw [insert_2_0_fr f key x k0 k1 k2 d0 d1 d2 c0 c1 c2 c3 h1 h0 hf hm, ctx, ← e]
            exact ⟨by simp [Bal, b0, b1, b2', bL, b], by simp [inorder]⟩
          · obtain ⟨b, e⟩ := fl hm
            rw [insert_2_0_fl f key x k0 k1 k2 d0 d1 d2 c0 c1 c2 c3 h1 h0 hf hm, ctx, ← e]
            exact ⟨by simp [Bal, b0, b1, b2', bR, b], by simp [inorder]⟩
        · obtain ⟨b, e⟩ := nf hf
          rw [insert_2_0_nf f key x k0 k1 k2 d0 d1 d2 c0 c1 c2 c3 h1 h0 hf, ctx, ← e]
          exact ⟨by simp [Bal, b0, b1, b2', b], by simp [inorder]⟩
      · have hgt : k0 < key := by omega
        have ctx : ins key (some x) (inorder c0 ++ (k0, d0) :: (inorder c1 ++ (k1, d1) :: inorder c2)) =
            inorder c0 ++ (k0, d0) :: (ins key (some x) (inorder c1) ++ (k1, d1) :: inorder c2) := by
          rw [ins_app_gt _ _ _ _ _ (fun a ha => Nat.lt_trans (lo0 a ha) hgt) hgt,
            ins_app_lt _ _ _ _ _ h1]
        obtain ⟨nf, fu⟩ := child_step h f key x ih c1 b1 s1 kc1
        by_cases hf : c1.numKeys = 3
        · obtain ⟨bL, bR, fl, fr⟩ := fu hf
          by_cases hm : c1.key 1 < key
          · obtain ⟨b, e⟩ := fr hm
            rw [insert_2_1_fr f key x k0 k1 k2 d0 d1 d2 c0 c1 c2 c3 h1 h0 hf hm, ctx, ← e]
            exact ⟨by simp [Bal, b0, b1, b2', bL, b], by simp [inorder]⟩
          · obtain ⟨b, e⟩ := fl hm
            rw [insert_2_1_fl f key x k0 k1 k2 d0 d1 d2 c0 c1 c2 c3 h1 h0 hf hm, ctx, ← e]
            exact ⟨by simp [Bal, b0, b1, b2', bR, b], by simp [inorder]⟩
        · obtain ⟨b, e⟩ := nf hf
          rw [insert_2_1_nf f key x k0 k1 k2 d0 d1 d2 c0 c1 c2 c3 h1 h0 hf, ctx, ← e]
          exact ⟨by simp [Bal, b0, b1, b2', b], by simp [inorder]⟩
    · have hgt : k1 < key := by omega
      have hgt0 : k0 < key := by omega
      have ctx : ins key (some x) (inorder c0 ++ (k0, d0) :: (inorder c1 ++ (k1, d1) :: inorder c2)) =
          inorder c0 ++ (k0, d0) :: (inorder c1 ++ (k1, d1) :: ins key (some x) (inorder c2)) := by
        rw [ins_app_gt _ _ _ _ _ (fun a ha => Nat.lt_trans (lo0 a ha) hgt0) hgt0,
          ins_app_gt _ _ _ _ _ (fun a ha => Nat.lt_trans (lo1 a ha) hgt) hgt]
      obtain ⟨nf, fu⟩ := child_step h f key x ih c2 b2' s2 kc2
      by_cases hf : c2.numKeys = 3
      · obtain ⟨bL, bR, fl, fr⟩ := fu hf
        by_cases hm : c2.key 1 < key
        · obtain ⟨b, e⟩ := fr hm
          rw [insert_2_2_fr f key x k0 k1 k2 d0 d1 d2 c0 c1 c2 c3 h1 hf hm, ctx, ← e]
          exact ⟨by simp [Bal, b0, b1, b2', bL, b], by simp [inorder]⟩
        · obtain ⟨b, e⟩ := fl hm
          rw [insert_2_2_fl f key x k0 k1 k2 d0 d1 d2 c0 c1 c2 c3 h1 hf hm, ctx, ← e]
          exact ⟨by simp [Bal, b0, b1, b2', bR, b], by simp [inorder]⟩
      · obtain ⟨b, e⟩ := nf hf
        rw [insert_2_2_nf f key x k0 k1 k2 d0 d1 d2 c0 c1 c2 c3 h1 hf, ctx, ← e]
        exact ⟨by simp [Bal, b0, b1, b2', b], by simp [inorder]⟩

/-- The function `insert` on a balanced node that is not full, for a key that the node
does not hold: the result is balanced, of the same height, and its entries are those of
the node with the new entry put in its place. -/
theorem insert_spec (h : Nat) : ∀ (f key : Nat) (x : α) (t : BTreeNode α), h < f → Bal h t →
    t.numKeys ≤ 2 → Ordered (inorder t) → (∀ e ∈ inorder t, e.1 ≠ key) →
    Bal h (insert f t key x) ∧ inorder (insert f t key x) = ins key (some x) (inorder t) := by
  induction h with
  | zero =>
    intro f key x t hf hB hn hs hk
    obtain ⟨f, rfl⟩ : ∃ f', f = f' + 1 := ⟨f - 1, by omega⟩
    obtain ⟨n, k0, k1, k2, d0, d1, d2, c0, c1, c2, c3, l, rfl, hn1, -⟩ := Bal_node _ t hB
    simp only [Bal] at hB
    obtain ⟨rfl, -, -, -, -, rfl, rfl, rfl, rfl⟩ := hB
    exact insert_leaf f key x n k0 k1 k2 d0 d1 d2 hn1 hn hs hk
  | succ h ih =>
    intro f key x t hf hB hn hs hk
    obtain ⟨f, rfl⟩ : ∃ f', f = f' + 1 := ⟨f - 1, by omega⟩
    exact insert_step h f key x (fun t' b n' s k' => ih f key x t' (by omega) b n' s k') t hB hn
      hs hk

/-! ## btree.c: `bTreeSearch` -/

theorem search_node_1 (key k0 k1 k2 : Nat) (d0 d1 d2 : Option α) (c0 c1 c2 c3 : BTreeNode α)
    (l : Bool) :
    bTreeSearch (.node 1 [k0, k1, k2] [d0, d1, d2] c0 c1 c2 c3 l) key =
      if key < k0 then (if l then none else bTreeSearch c0 key)
      else if key = k0 then d0
      else (if l then none else bTreeSearch c1 key) := by
  rw [bTreeSearch]
  simp only [searchScan, key_node, datum_node, numKeys_node]
  by_cases h0 : key < k0
  · have a : ¬ key > k0 := by omega
    have b : ¬ key = k0 := by omega
    simp [h0, a, b]
  · by_cases e0 : key = k0
    · subst e0
      simp
    · have a : key > k0 := by omega
      have a' : k0 < key := a
      simp [h0, e0, a']

theorem search_node_2 (key k0 k1 k2 : Nat) (d0 d1 d2 : Option α) (c0 c1 c2 c3 : BTreeNode α)
    (l : Bool) (h01 : k0 < k1) :
    bTreeSearch (.node 2 [k0, k1, k2] [d0, d1, d2] c0 c1 c2 c3 l) key =
      if key < k0 then (if l then none else bTreeSearch c0 key)
      else if key = k0 then d0
      else if key < k1 then (if l then none else bTreeSearch c1 key)
      else if key = k1 then d1
      else (if l then none else bTreeSearch c2 key) := by
  rw [bTreeSearch]
  simp only [searchScan, key_node, datum_node, numKeys_node]
  by_cases h0 : key < k0
  · have a : ¬ k0 < key := by omega
    have b : ¬ key = k0 := by omega
    simp [h0, a, b]
  · by_cases e0 : key = k0
    · subst e0
      simp
    · have a : k0 < key := by omega
      by_cases h1 : key < k1
      · have a1 : ¬ k1 < key := by omega
        have b1 : ¬ key = k1 := by omega
        simp [h0, e0, a, h1, a1, b1]
      · by_cases e1 : key = k1
        · subst e1
          simp [h0, e0, a]
        · have a1 : k1 < key := by omega
          simp [h0, e0, a, h1, e1, a1]

theorem search_node_3 (key k0 k1 k2 : Nat) (d0 d1 d2 : Option α) (c0 c1 c2 c3 : BTreeNode α)
    (l : Bool) (h01 : k0 < k1) (h12 : k1 < k2) :
    bTreeSearch (.node 3 [k0, k1, k2] [d0, d1, d2] c0 c1 c2 c3 l) key =
      if key < k0 then (if l then none else bTreeSearch c0 key)
      else if key = k0 then d0
      else if key < k1 then (if l then none else bTreeSearch c1 key)
      else if key = k1 then d1
      else if key < k2 then (if l then none else bTreeSearch c2 key)
      else if key = k2 then d2
      else (if l then none else bTreeSearch c3 key) := by
  rw [bTreeSearch]
  simp only [searchScan, key_node, datum_node, numKeys_node]
  by_cases h0 : key < k0
  · have a : ¬ k0 < key := by omega
    have b : ¬ key = k0 := by omega
    simp [h0, a, b]
  · by_cases e0 : key = k0
    · subst e0
      simp
    · have a : k0 < key := by omega
      by_cases h1 : key < k1
      · have a1 : ¬ k1 < key := by omega
        have b1 : ¬ key = k1 := by omega
        simp [h0, e0, a, h1, a1, b1]
      · by_cases e1 : key = k1
        · subst e1
          simp [h0, e0, a]
        · have a1 : k1 < key := by omega
          by_cases h2 : key < k2
          · have a2 : ¬ k2 < key := by omega
            have b2 : ¬ key = k2 := by omega
            simp [h0, e0, a, h1, e1, a1, h2, a2, b2]
          · by_cases e2 : key = k2
            · subst e2
              simp [h0, e0, a, h1, e1, a1]
            · have a2 : k2 < key := by omega
              simp [h0, e0, a, h1, e1, a1, h2, e2, a2]

/-- The lookup in a list of entries with increasing keys, around one of its entries. -/
theorem lookup_around (key : Nat) (l1 l2 : List (Nat × Option α)) (e : Nat × Option α)
    (hs : Ordered (l1 ++ e :: l2)) :
    lookup key (l1 ++ e :: l2) =
      if key < e.1 then lookup key l1 else if key = e.1 then e.2 else lookup key l2 := by
  obtain ⟨-, -, lo, hi, -⟩ := ordered_append hs
  by_cases h0 : key < e.1
  · rw [if_pos h0, lookup_app_lt key l1 l2 e (fun b hb => Nat.lt_trans h0 (hi b hb)) h0]
  · by_cases e0 : key = e.1
    · rw [if_neg h0, if_pos e0,
        lookup_app_eq key l1 l2 e (fun a ha => by have := lo a ha; omega) e0.symm]
    · have hgt : e.1 < key := by omega
      rw [if_neg h0, if_neg e0,
        lookup_app_gt key l1 l2 e (fun a ha => Nat.lt_trans (lo a ha) hgt) hgt]

/-- On a balanced tree with increasing keys, `bTreeSearch` is the lookup in the list of
its entries. -/
theorem search_spec (key : Nat) (h : Nat) : ∀ t : BTreeNode α, Bal h t → Ordered (inorder t) →
    bTreeSearch t key = lookup key (inorder t) := by
  induction h with
  | zero =>
    intro t hB hs
    obtain ⟨n, k0, k1, k2, d0, d1, d2, c0, c1, c2, c3, l, rfl, hn1, hn3⟩ := Bal_node _ t hB
    simp only [Bal] at hB
    obtain ⟨rfl, -, -, -, -, rfl, rfl, rfl, rfl⟩ := hB
    have hn' : n = 1 ∨ n = 2 ∨ n = 3 := by omega
    rcases hn' with rfl | rfl | rfl
    · rw [search_node_1]
      simp only [inorder, lookup, List.nil_append, List.getD_cons_zero, if_true]
      split_ifs <;> first | rfl | omega
    · have h01 : k0 < k1 := by simpa [Ordered, inorder] using hs
      rw [search_node_2 _ _ _ _ _ _ _ _ _ _ _ _ h01]
      simp only [inorder, lookup, List.nil_append, List.getD_cons_zero, List.getD_cons_succ,
        if_true]
      split_ifs <;> first | rfl | omega
    · have h012 : k0 < k1 ∧ k1 < k2 := by
        have := hs
        simp [Ordered, inorder] at this
        omega
      rw [search_node_3 _ _ _ _ _ _ _ _ _ _ _ _ h012.1 h012.2]
      simp only [inorder, lookup, List.nil_append, List.getD_cons_zero, List.getD_cons_succ,
        if_true]
      split_ifs <;> first | rfl | omega
  | succ h ih =>
    intro t hB hs
    obtain ⟨n, k0, k1, k2, d0, d1, d2, c0, c1, c2, c3, l, rfl, hn1, hn3⟩ := Bal_node _ t hB
    simp only [Bal] at hB
    obtain ⟨rfl, -, -, -, -, b0, b1, b2, b3⟩ := hB
    have hn' : n = 1 ∨ n = 2 ∨ n = 3 := by omega
    rcases hn' with rfl | rfl | rfl
    · have hI : inorder (.node 1 [k0, k1, k2] [d0, d1, d2] c0 c1 c2 c3 false) =
          inorder c0 ++ (k0, d0) :: inorder c1 := rfl
      rw [hI] at hs ⊢
      obtain ⟨s0, s1, -, -, -⟩ := ordered_append hs
      rw [search_node_1, lookup_around key _ _ _ hs, ih c0 b0 s0, ih c1 b1 s1]
      simp
    · have b2' := b2 (Nat.le_refl 2)
      have hI : inorder (.node 2 [k0, k1, k2] [d0, d1, d2] c0 c1 c2 c3 false) =
          inorder c0 ++ (k0, d0) :: (inorder c1 ++ (k1, d1) :: inorder c2) := rfl
      rw [hI] at hs ⊢
      obtain ⟨s0, s12, -, hi0, -⟩ := ordered_append hs
      obtain ⟨s1, s2, -, -, -⟩ := ordered_append s12
      have h01 : k0 < k1 := hi0 (k1, d1) (by simp)
      rw [search_node_2 _ _ _ _ _ _ _ _ _ _ _ _ h01, lookup_around key _ _ _ hs,
        lookup_around key _ _ _ s12, ih c0 b0 s0, ih c1 b1 s1, ih c2 b2' s2]
      simp
    · have b2' := b2 (by omega)
      have b3' := b3 (Nat.le_refl 3)
      have hI : inorder (.node 3 [k0, k1, k2] [d0, d1, d2] c0 c1 c2 c3 false) =
          inorder c0 ++ (k0, d0) :: (inorder c1 ++ (k1, d1) ::
            (inorder c2 ++ (k2, d2) :: inorder c3)) := rfl
      rw [hI] at hs ⊢
      obtain ⟨s0, s123, -, hi0, -⟩ := ordered_append hs
      obtain ⟨s1, s23, -, hi1, -⟩ := ordered_append s123
      obtain ⟨s2, s3, -, -, -⟩ := ordered_append s23
      have h01 : k0 < k1 := hi0 (k1, d1) (by simp)
      have h12 : k1 < k2 := hi1 (k2, d2) (by simp)
      rw [search_node_3 _ _ _ _ _ _ _ _ _ _ _ _ h01 h12, lookup_around key _ _ _ hs,
        lookup_around key _ _ _ s123, lookup_around key _ _ _ s23, ih c0 b0 s0, ih c1 b1 s1,
        ih c2 b2' s2, ih c3 b3' s3]
      simp

/-- In a balanced tree with increasing keys, every node in use holds at most 3 keys in
strictly increasing order. -/
theorem nodeSorted_of_Bal (h : Nat) : ∀ t : BTreeNode α, Bal h t → Ordered (inorder t) →
    nodeSorted t = true := by
  induction h with
  | zero =>
    intro t hB hs
    obtain ⟨n, k0, k1, k2, d0, d1, d2, c0, c1, c2, c3, l, rfl, hn1, hn3⟩ := Bal_node _ t hB
    simp only [Bal] at hB
    obtain ⟨rfl, -, -, -, -, rfl, rfl, rfl, rfl⟩ := hB
    have hn' : n = 1 ∨ n = 2 ∨ n = 3 := by omega
    rcases hn' with rfl | rfl | rfl
    · simp [nodeSorted]
    · have h01 : k0 < k1 := by simpa [Ordered, inorder] using hs
      simp [nodeSorted, h01]
    · have h012 : k0 < k1 ∧ k1 < k2 := by
        have := hs
        simp [Ordered, inorder] at this
        omega
      simp [nodeSorted, h012.1, h012.2]
  | succ h ih =>
    intro t hB hs
    obtain ⟨n, k0, k1, k2, d0, d1, d2, c0, c1, c2, c3, l, rfl, hn1, hn3⟩ := Bal_node _ t hB
    simp only [Bal] at hB
    obtain ⟨rfl, -, -, -, -, b0, b1, b2, b3⟩ := hB
    have hn' : n = 1 ∨ n = 2 ∨ n = 3 := by omega
    rcases hn' with rfl | rfl | rfl
    · have hI : inorder (.node 1 [k0, k1, k2] [d0, d1, d2] c0 c1 c2 c3 false) =
          inorder c0 ++ (k0, d0) :: inorder c1 := rfl
      rw [hI] at hs
      obtain ⟨s0, s1, -, -, -⟩ := ordered_append hs
      simp [nodeSorted, ih c0 b0 s0, ih c1 b1 s1]
    · have b2' := b2 (Nat.le_refl 2)
      have hI : inorder (.node 2 [k0, k1, k2] [d0, d1, d2] c0 c1 c2 c3 false) =
          inorder c0 ++ (k0, d0) :: (inorder c1 ++ (k1, d1) :: inorder c2) := rfl
      rw [hI] at hs
      obtain ⟨s0, s12, -, hi0, -⟩ := ordered_append hs
      obtain ⟨s1, s2, -, -, -⟩ := ordered_append s12
      have h01 : k0 < k1 := hi0 (k1, d1) (by simp)
      simp [nodeSorted, ih c0 b0 s0, ih c1 b1 s1, ih c2 b2' s2, h01]
    · have b2' := b2 (by omega)
      have b3' := b3 (Nat.le_refl 3)
      have hI : inorder (.node 3 [k0, k1, k2] [d0, d1, d2] c0 c1 c2 c3 false) =
          inorder c0 ++ (k0, d0) :: (inorder c1 ++ (k1, d1) ::
            (inorder c2 ++ (k2, d2) :: inorder c3)) := rfl
      rw [hI] at hs
      obtain ⟨s0, s123, -, hi0, -⟩ := ordered_append hs
      obtain ⟨s1, s23, -, hi1, -⟩ := ordered_append s123
      obtain ⟨s2, s3, -, -, -⟩ := ordered_append s23
      have h01 : k0 < k1 := hi0 (k1, d1) (by simp)
      have h12 : k1 < k2 := hi1 (k2, d2) (by simp)
      simp [nodeSorted, ih c0 b0 s0, ih c1 b1 s1, ih c2 b2' s2, ih c3 b3' s3, h01, h12]

/-! ## btree.c: `bTreeInsert` -/

theorem bTreeInsert_null (key : Nat) (x : α) :
    bTreeInsert (.null : BTreeNode α) key x =
      .node 1 [key, 0, 0] [some x, none, none] .null .null .null .null true := rfl

theorem bTreeInsert_nf (n : Nat) (k : List Nat) (d : List (Option α))
    (c0 c1 c2 c3 : BTreeNode α) (l : Bool) (key : Nat) (x : α) (hn : n ≠ 3) :
    bTreeInsert (.node n k d c0 c1 c2 c3 l) key x =
      insert (levels (.node n k d c0 c1 c2 c3 l)) (.node n k d c0 c1 c2 c3 l) key x := by
  simp [bTreeInsert, numKeys_node, BTREE_ORDER, hn]

theorem bTreeInsert_fl (k0 k1 k2 : Nat) (d0 d1 d2 : Option α)
    (c0 c1 c2 c3 : BTreeNode α) (l : Bool) (key : Nat) (x : α) (hm : ¬ k1 < key) :
    bTreeInsert (.node 3 [k0, k1, k2] [d0, d1, d2] c0 c1 c2 c3 l) key x =
      .node 1 [k1, 0, 0] [d1, none, none]
        (insert (levels (.node 3 [k0, k1, k2] [d0, d1, d2] c0 c1 c2 c3 l))
          ((BTreeNode.node 3 [k0, k1, k2] [d0, d1, d2] c0 c1 c2 c3 l).setNumKeys 1) key x)
        (upperHalf (.node 3 [k0, k1, k2] [d0, d1, d2] c0 c1 c2 c3 l)) .null .null false := by
  simp only [bTreeInsert, numKeys_node, BTREE_ORDER, newNode, setChild_node_0, splitChild_0_0]
  simp [key_node, datum_node, hm, setChild_node_0, child_node_0]

theorem bTreeInsert_fr (k0 k1 k2 : Nat) (d0 d1 d2 : Option α)
    (c0 c1 c2 c3 : BTreeNode α) (l : Bool) (key : Nat) (x : α) (hm : k1 < key) :
    bTreeInsert (.node 3 [k0, k1, k2] [d0, d1, d2] c0 c1 c2 c3 l) key x =
      .node 1 [k1, 0, 0] [d1, none, none]
        ((BTreeNode.node 3 [k0, k1, k2] [d0, d1, d2] c0 c1 c2 c3 l).setNumKeys 1)
        (insert (levels (.node 3 [k0, k1, k2] [d0, d1, d2] c0 c1 c2 c3 l))
          (upperHalf (.node 3 [k0, k1, k2] [d0, d1, d2] c0 c1 c2 c3 l)) key x) .null .null
        false := by
  simp only [bTreeInsert, numKeys_node, BTREE_ORDER, newNode, setChild_node_0, splitChild_0_0]
  simp [key_node, datum_node, hm, setChild_node_1, child_node_1]

/-- The function `bTreeInsert` on a balanced tree with increasing keys, for a key that
the tree does not hold: the result is balanced and its entries are those of the tree with
the new entry put in its place. -/
theorem bTreeInsert_spec (h key : Nat) (x : α) (t : BTreeNode α) (hB : Bal h t)
    (hs : Ordered (inorder t)) (hk : ∀ e ∈ inorder t, e.1 ≠ key) :
    (∃ h', Bal h' (bTreeInsert t key x)) ∧
      inorder (bTreeInsert t key x) = ins key (some x) (inorder t) := by
  have hl := levels_of_Bal h t hB
  obtain ⟨nf, fu⟩ := child_step h (h + 1) key x
    (fun t' b n' s k' => insert_spec h (h + 1) key x t' (by omega) b n' s k') t hB hs hk
  obtain ⟨n, k0, k1, k2, d0, d1, d2, c0, c1, c2, c3, l, rfl, hn1, hn3⟩ := Bal_node _ t hB
  by_cases hf : n = 3
  · subst hf
    obtain ⟨bL, bR, fl, fr⟩ := fu rfl
    by_cases hm : k1 < key
    · obtain ⟨b, e⟩ := fr hm
      rw [bTreeInsert_fr _ _ _ _ _ _ _ _ _ _ _ _ _ hm, hl, ← e]
      exact ⟨⟨h + 1, by simp [Bal, bL, b]⟩, by simp [inorder, key_node, datum_node]⟩
    · obtain ⟨b, e⟩ := fl hm
      rw [bTreeInsert_fl _ _ _ _ _ _ _ _ _ _ _ _ _ hm, hl, ← e]
      exact ⟨⟨h + 1, by simp [Bal, bR, b]⟩, by simp [inorder, key_node, datum_node]⟩
  · obtain ⟨b, e⟩ := nf (by simpa [numKeys_node] using hf)
    rw [bTreeInsert_nf _ _ _ _ _ _ _ _ _ _ hf, hl]
    exact ⟨⟨h, b⟩, e⟩

theorem build_snoc (l : List (Nat × α)) (a : Nat × α) :
    build (l ++ [a]) = bTreeInsert (build l) a.1 a.2 := by
  simp [build, List.foldl_append]

/-- The tree built from pairwise distinct keys: it is empty or balanced, its entries have
increasing keys, and they are the inserted pairs. -/
theorem build_inv (kvs : List (Nat × α)) (hd : (kvs.map Prod.fst).Nodup) :
    (build kvs = .null ∧ kvs = [] ∨ ∃ h, Bal h (build kvs)) ∧
      Ordered (inorder (build kvs)) ∧
      (∀ kv ∈ kvs, lookup kv.1 (inorder (build kvs)) = some kv.2) ∧
      (∀ k, k ∉ kvs.map Prod.fst → lookup k (inorder (build kvs)) = none) ∧
      ∀ e ∈ inorder (build kvs), e.1 ∈ kvs.map Prod.fst := by
  induction kvs using List.reverseRecOn with
  | nil =>
    refine ⟨Or.inl ⟨rfl, rfl⟩, ?_, ?_, ?_, ?_⟩
    · exact List.Pairwise.nil
    · intro kv hkv
      cases hkv
    · intro k _
      rfl
    · intro e he
      cases he
  | append_singleton l a ih =>
    rw [List.map_append, List.nodup_append] at hd
    obtain ⟨hdl, -, hdis⟩ := hd
    have ha : a.1 ∉ l.map Prod.fst := fun hmem =>
      hdis hmem (by simp)
    obtain ⟨hshape, hs, hin, hout, hmem⟩ := ih hdl
    have hk : ∀ e ∈ inorder (build l), e.1 ≠ a.1 := fun e he heq => ha (heq ▸ hmem e he)
    have hI : (build (l ++ [a]) = .null ∧ l ++ [a] = [] ∨ ∃ h, Bal h (build (l ++ [a]))) ∧
        inorder (build (l ++ [a])) = ins a.1 (some a.2) (inorder (build l)) := by
      rw [build_snoc]
      rcases hshape with ⟨hnull, -⟩ | ⟨h, hB⟩
      · rw [hnull, bTreeInsert_null]
        exact ⟨Or.inr ⟨0, by simp [Bal]⟩, by simp [inorder, ins]⟩
      · obtain ⟨hb, e⟩ := bTreeInsert_spec h a.1 a.2 _ hB hs hk
        exact ⟨Or.inr hb, e⟩
    obtain ⟨hshape', e⟩ := hI
    rw [e]
    refine ⟨hshape', ordered_ins _ _ _ hs hk, ?_, ?_, ?_⟩
    · intro kv hkv
      rw [lookup_ins _ _ _ hk]
      rcases List.mem_append.mp hkv with hkv | hkv
      · have hne : kv.1 ≠ a.1 := fun heq =>
          ha (heq ▸ List.mem_map_of_mem Prod.fst hkv)
        rw [if_neg hne]
        exact hin kv hkv
      · rw [List.mem_singleton] at hkv
        subst hkv
        rw [if_pos rfl]
    · intro k hk'
      rw [lookup_ins _ _ _ hk]
      simp only [List.map_append, List.map_cons, List.map_nil, List.mem_append,
        List.mem_singleton, not_or] at hk'
      rw [if_neg hk'.2]
      exact hout k hk'.1
    · intro e' he'
      rcases (mem_ins _ _ _ _).mp he' with rfl | he'
      · simp
      · simp [hmem e' he']

/-- C25. B-tree lookup correctness: for every finite sequence of pairs with pairwise
distinct keys (of any size, so of 32 bits) inserted with `bTreeInsert` one after the other
from the `NULL` root, every node in use holds at most 3 keys in strictly increasing
order, `bTreeSearch` returns for each inserted key the data inserted with it, and
`bTreeSearch` returns `NULL` for every key that was not inserted. -/
theorem btree_lookup (kvs : List (Nat × α)) (hd : (kvs.map Prod.fst).Nodup) :
    nodeSorted (build kvs) = true ∧
      (∀ kv ∈ kvs, bTreeSearch (build kvs) kv.1 = some kv.2) ∧
      (∀ k, k ∉ kvs.map Prod.fst → bTreeSearch (build kvs) k = none) := by
  obtain ⟨hshape, hs, hin, hout, -⟩ := build_inv kvs hd
  rcases hshape with ⟨hnull, rfl⟩ | ⟨h, hB⟩
  · refine ⟨rfl, ?_, ?_⟩
    · intro kv hkv
      cases hkv
    · intro k _
      rfl
  · refine ⟨nodeSorted_of_Bal h _ hB hs, ?_, ?_⟩
    · intro kv hkv
      rw [search_spec kv.1 h _ hB hs]
      exact hin kv hkv
    · intro k hk
      rw [search_spec k h _ hB hs]
      exact hout k hk

theorem btree_lookup_witness :
    ([(30, 3), (10, 1), (20, 2), (50, 5), (40, 4), (60, 6), (5, 0)].map Prod.fst).Nodup ∧
      nodeSorted (build [(30, 3), (10, 1), (20, 2), (50, 5), (40, 4), (60, 6), (5, 0)]) = true ∧
      bTreeSearch (build [(30, 3), (10, 1), (20, 2), (50, 5), (40, 4), (60, 6), (5, 0)]) 40 =
        some 4 ∧
      bTreeSearch (build [(30, 3), (10, 1), (20, 2), (50, 5), (40, 4), (60, 6), (5, 0)]) 45 =
        none :=
  ⟨by decide,
    (btree_lookup [(30, 3), (10, 1), (20, 2), (50, 5), (40, 4), (60, 6), (5, 0)]
      (by decide)).1,
    (btree_lookup [(30, 3), (10, 1), (20, 2), (50, 5), (40, 4), (60, 6), (5, 0)]
      (by decide)).2.1 (40, 4) (by decide),
    (btree_lookup [(30, 3), (10, 1), (20, 2), (50, 5), (40, 4), (60, 6), (5, 0)]
      (by decide)).2.2 45 (by decide)⟩

end Zx
